import Mathlib

/-!
Verification development for the Davidson-type subspace eigensolver in
`future/tddft/davidson.py` (functions `dgeev`, `eig`, `pickeig` and their
shared inner orthogonalizer `qr`).

Shallow-embedding conventions
-----------------------------

* Dense 1-D numpy arrays become `List K` over an ordered field `K`; all the
  claims are settled either over `ℚ` (exact arithmetic, executable) or over
  `ℝ` (for the Gram-Schmidt orthonormality statement).  Floating point is
  modelled by exact field arithmetic; the square root used by
  `numpy_helper.norm` and `numpy.sqrt` is an explicit function parameter
  `sqrt` so that concrete executions can supply an exact square root on the
  (perfect-square) values they encounter, and `ℝ`-valued statements can use
  `Real.sqrt`.
* `scipy.linalg.eigh` / `scipy.linalg.eig` are external library calls, not
  code of this repository; they are modelled as oracle parameters (`eighO`,
  `eigO`) returning eigenvalue/eigenvector-column lists.  Hypotheses about
  them (e.g. `eigh` returns ascending eigenvalues) mirror scipy's documented
  contract and are discharged on concrete oracles in witnesses.
* Python exceptions (IndexError / ValueError from numpy, UnboundLocalError)
  are modelled by an explicit crash outcome: the run result carries
  `res : Option Outcome`, with `none` meaning the Python call raised.
* The `callback` and `verbose` arguments only produce logging / observation
  side effects and are omitted; `lindep` is threaded (and, as in the source,
  never read).
-/

attribute [local semireducible] Rat.add Rat.mul Rat.inv Rat.sub

namespace Davidson

/-- Dense vector: a 1-D numpy array of rationals (exact model of float64). -/
abbrev Vec := List ℚ

/-- `numpy.dot` on 1-D arrays / the default `dot` argument of the solvers:
sum of pointwise products. -/
def dotL {K : Type} [Field K] (a b : List K) : K :=
  (List.zipWith (· * ·) a b).sum

/-- Elementwise vector addition (`x + y` on equal-length 1-D arrays). -/
def vadd {K : Type} [Field K] (a b : List K) : List K :=
  List.zipWith (· + ·) a b

/-- Elementwise vector subtraction (`x - y` on equal-length 1-D arrays). -/
def vsub {K : Type} [Field K] (a b : List K) : List K :=
  List.zipWith (· - ·) a b

/-- Scalar times vector (`c * x`). -/
def smulV {K : Type} [Field K] (c : K) (v : List K) : List K :=
  v.map (fun x => c * x)

/-- Vector divided by a scalar (`x / c`, as in `xi/norm`). -/
def divV {K : Type} [Field K] (v : List K) (c : K) : List K :=
  v.map (fun x => x / c)

/-- `numpy_helper.norm x = sqrt (x . x)`, with the square root explicit. -/
def normV {K : Type} [Field K] (sqrt : K → K) (v : List K) : K :=
  sqrt (dotL v v)

/-- The sequential projection loop inside `qr`:
`for j in range(len(qs)): xi -= qs[j] * numpy.dot(qs[j], xi)`.
Each accepted vector is subtracted in order, using the current `xi`. -/
def gsProj {K : Type} [Field K] (qs : List (List K)) (x : List K) : List K :=
  qs.foldl (fun xi q => vsub xi (smulV (dotL q xi) q)) x

/-- The linear-dependence acceptance threshold `1e-7` used by `qr`. -/
def qrThresh {K : Type} [Field K] : K := 1 / 10 ^ 7

/-- The inner function `qr` (defined identically inside `dgeev` and `eig`):
one pass of classical sequential Gram-Schmidt.  The first vector is accepted
normalized; each later candidate is projected against all accepted vectors,
then kept (renormalized) exactly when its residual norm exceeds `1e-7`.
On the empty list the Python code raises (`xs[0]`); callers guard against
this and the model returns `[]` there. -/
def qr {K : Type} [LinearOrderedField K] (sqrt : K → K) :
    List (List K) → List (List K)
  | [] => []
  | x :: rest =>
    rest.foldl
      (fun qs xi =>
        let r := gsProj qs xi
        let n := normV sqrt r
        if qrThresh < n then qs ++ [divV r n] else qs)
      [divV x (normV sqrt x)]

/-- A complex number as numpy returns it from `scipy.linalg.eig`:
real and imaginary part, exactly representable here over `ℚ`. -/
structure Cx where
  re : ℚ
  im : ℚ
deriving DecidableEq, Repr

/-- The comparison used to model `w[realidx].real.argsort()`: ascending by
real part of the eigenvalue at the given index (out-of-range reads default
to `0`, matching no reachable case since the indices come from `range`). -/
def reLe (w : List Cx) (i j : ℕ) : Prop :=
  (w.getD i ⟨0, 0⟩).re ≤ (w.getD j ⟨0, 0⟩).re

instance (w : List Cx) : DecidableRel (reLe w) := fun i j =>
  inferInstanceAs (Decidable ((w.getD i ⟨0, 0⟩).re ≤ (w.getD j ⟨0, 0⟩).re))

/-- `pickeig(w, v, nroots)`: indices of the eigenvalues with imaginary part
exactly zero, sorted ascending by real part, truncated to the first
`nroots`.  (`numpy.argsort` is modelled by a comparison sort on the real
parts; the claims concern only the selected values, which do not depend on
the tie-breaking order.)  The eigenvector matrix `v` is unused, as in the
source. -/
def pickeig (w : List Cx) (_v : List (List Cx)) (nroots : ℕ) : List ℕ :=
  let realidx := (List.range w.length).filter (fun i => (w.getD i ⟨0, 0⟩).im = 0)
  let sorted := List.insertionSort (reLe w) realidx
  sorted.take nroots

/-! ## Shared machinery of the two outer drivers -/

/-- The preallocated square work array `heff` (`numpy.empty((max_space, max_space))`),
modelled as an update-able function on index pairs. -/
abbrev Mat2 := ℕ → ℕ → ℚ

/-- Single element assignment `h[i, j] = x`. -/
def hupd (h : Mat2) (i j : ℕ) (x : ℚ) : Mat2 :=
  fun a b => if a = i ∧ b = j then x else h a b

/-- The slice `h[:n, :n]`, as a row-major list of rows. -/
def mslice (h : Mat2) (n : ℕ) : List (List ℚ) :=
  (List.range n).map (fun i => (List.range n).map (fun j => h i j))

/-- The `dot` argument applied to two 1-D arrays.  The default
`numpy.dot` raises `ValueError` when the lengths differ; that is the
`none` case. -/
def dotChk (dotP : Vec → Vec → ℚ) (a b : Vec) : Option ℚ :=
  if a.length = b.length then some (dotP a b) else none

/-- One assignment into the work array during the projected-matrix build:
fails on a length-mismatched inner product (`ValueError`) or an index at or
beyond the allocated `max_space` (`IndexError`). -/
def fillCell (msI : ℕ) (i j : ℕ) (x : Option ℚ) (h : Option Mat2) : Option Mat2 := do
  let h ← h
  let x ← x
  if i < msI ∧ j < msI then some (hupd h i j x) else none

/-- First index of the largest absolute value (`numpy.argmax(abs(de))`),
auxiliary scan. -/
def argmaxAbsAux : List ℚ → ℚ → ℕ → ℕ → ℕ
  | [], _, _, best => best
  | x :: rest, bv, i, best =>
    if bv < |x| then argmaxAbsAux rest |x| (i + 1) i
    else argmaxAbsAux rest bv (i + 1) best

/-- `numpy.argmax(abs(l))`: first index attaining the maximum absolute
value.  Callers crash on the empty list before calling this. -/
def argmaxAbs : List ℚ → ℕ
  | [] => 0
  | x :: rest => argmaxAbsAux rest |x| 1 0

/-- Python `max` on a nonempty list (callers guard emptiness). -/
def maxQ : List ℚ → ℚ
  | [] => 0
  | x :: rest => rest.foldl max x

/-- Ritz-vector assembly for one root `k`, exactly as in the source:
`x0[k] = xs[space-1]*v[space-1,k]`, then
`for i in reversed(range(space-1)): x0[k] += v[i,k]*xs[i]`.
`col` is the coefficient column `v[:,k]`. -/
def assembleOne (xs : List Vec) (col : List ℚ) (space : ℕ) : Vec :=
  (List.range (space - 1)).reverse.foldl
    (fun acc i => vadd acc (smulV (col.getD i 0) (xs.getD i [])))
    (smulV (col.getD (space - 1) 0) (xs.getD (space - 1) []))

/-- Ritz-vector assembly for all roots (one column per requested root). -/
def assemble (xs : List Vec) (cols : List (List ℚ)) (space : ℕ) : List Vec :=
  cols.map (fun col => assembleOne xs col space)

/-- Per-cycle observables recorded for the analysis: whether the cycle
started fresh, the subspace dimension after appending the trial batch, the
eigenvalue deltas `de`, the selected eigenvalues `e`, and whether the
delta-based convergence check (line 192 / line 361) fired this cycle. -/
structure CInfo where
  fresh : Bool
  space : ℕ
  de : List ℚ
  e : List ℚ
  ca : Bool
deriving DecidableEq, Repr

/-- How the outer loop ended. -/
inductive TermKind where
  | converged
  | lindep
  | maxcycle
  | crashed
deriving DecidableEq, Repr

/-- The value produced by the final `return` statement:
`nroots == 1` gives a scalar/vector pair, otherwise parallel sequences. -/
inductive Outcome where
  | one (e : ℚ) (x : Vec)
  | many (es : List ℚ) (xs : List Vec)
deriving DecidableEq, Repr

/-- Result of a whole solver call.  `res = none` models a raised Python
exception (the call does not return a value).  `finalE`/`finalX` are the
loop-exit Ritz data, `started` counts outer cycles entered, `opCalls`
counts invocations of the operator callback. -/
structure RunOut where
  term : TermKind
  res : Option Outcome
  finalE : List ℚ
  finalX : List Vec
  trace : List CInfo
  started : ℕ
  opCalls : ℕ
deriving DecidableEq, Repr

/-- Post-loop packaging (`return e[0], x0[0]` or `return e, x0`);
`none` when indexing an empty `e`/`x0` raises. -/
def fmtRes (nroots : ℕ) (e : List ℚ) (x0 : List Vec) : Option Outcome :=
  if nroots = 1 then
    match e, x0 with
    | e0 :: _, v0 :: _ => some (.one e0 v0)
    | _, _ => none
  else some (.many e x0)

/-! ## The standard solver `eig` -/

/-- Mutable locals of `eig` carried between cycles. -/
structure ESt where
  xs : List Vec
  ax : List Vec
  space : ℕ
  heff : Mat2
  e : List ℚ
  xt : List Vec
  x0 : List Vec
  fresh : Bool

/-- The caller-supplied collaborators of `eig`, plus the square root used
by `numpy_helper.norm` / `numpy.sqrt` and the external dense eigensolver
`scipy.linalg.eig` (an oracle returning eigenvalues and eigenvector
columns). -/
structure EigFns where
  sqrt : ℚ → ℚ
  aop : List Vec → List Vec
  precond : Vec → ℚ → Vec → Vec
  dotP : Vec → Vec → ℚ
  eigO : List (List ℚ) → List Cx × List (List Cx)
  pick : List Cx → List (List Cx) → ℕ → List ℕ

/-- Result of one cycle of the outer loop: continue with a new state,
break converged, break on trial-space exhaustion, or raise.  Each carries
the number of operator invocations the cycle performed. -/
inductive CycRes (σ : Type) where
  | next (s : σ) (i : CInfo) (oc : ℕ)
  | conv (e : List ℚ) (x0 : List Vec) (i : CInfo) (oc : ℕ)
  | exh (e : List ℚ) (x0 : List Vec) (i : CInfo) (oc : ℕ)
  | crash (oc : ℕ)

/-- The observables recorded by a non-raising cycle. -/
def cycInfo {σ : Type} : CycRes σ → Option CInfo
  | .next _ i _ => some i
  | .conv _ _ i _ => some i
  | .exh _ _ i _ => some i
  | .crash _ => none

/-- The new-block and cross-block fill of `heff` in `eig` (lines 319-327):
`heff[head+k, head+i] = dot(xt[k].conj(), axt[i])` over the new batch, then
`heff[head+k, i] = dot(xt[k].conj(), ax[i])` and
`heff[i, head+k] = dot(xs[i].conj(), axt[k])` against the old basis
(conjugation is the identity on rationals). -/
def eigFill (dotP : Vec → Vec → ℚ) (msI head : ℕ) (xt axt xs ax : List Vec)
    (h : Mat2) : Option Mat2 :=
  let rnow := xt.length
  let afterNew :=
    (List.range rnow).foldl
      (fun acc i =>
        (List.range rnow).foldl
          (fun acc k =>
            fillCell msI (head + k) (head + i)
              (dotChk dotP (xt.getD k []) (axt.getD i [])) acc)
          acc)
      (some h)
  (List.range head).foldl
    (fun acc i =>
      (List.range rnow).foldl
        (fun acc k =>
          fillCell msI i (head + k)
            (dotChk dotP (xs.getD i []) (axt.getD k []))
            (fillCell msI (head + k) i
              (dotChk dotP (xt.getD k []) (ax.getD i [])) acc))
        acc)
    afterNew

/-- Fresh-start / trial re-orthogonalization phase of `eig`
(lines 295-310): on a fresh start the accumulators are reset, the current
guess set is orthonormalized into the trial batch and the eigenvalue
register is zero-initialized; otherwise a multi-vector trial batch is
re-orthonormalized and capped at 40 vectors. -/
def eigFresh (F : EigFns) (nroots : ℕ) (s : ESt) : ESt :=
  if s.fresh then
    { xs := [], ax := [], space := 0, heff := fun _ _ => 0,
      e := List.replicate nroots 0, xt := qr F.sqrt s.x0, x0 := [],
      fresh := false }
  else if 1 < s.xt.length then
    { s with xt := (qr F.sqrt s.xt).take 40 }
  else s

/-- The eigenvalue-delta array `de` (lines 158-162 / 332-336): when the
current selection is short (`shortSel`) or the previous register has the
wrong size, the raw new eigenvalues; otherwise the elementwise difference
against the previous cycle (raising on a length mismatch). -/
def deltas (eNew ePrev : List ℚ) (shortSel : Prop) [Decidable shortSel]
    (nroots : ℕ) : Option (List ℚ) :=
  if shortSel ∨ ePrev.length ≠ nroots then some eNew
  else if eNew.length = ePrev.length then
    some (List.zipWith (· - ·) eNew ePrev)
  else none

/-- Lines 360-408 of `eig`: argmax of the deltas, convergence check A,
residual formation, convergence check B, preconditioning and
normalization, re-orthogonalization against the whole accumulated basis,
pruning, exhaustion test, forced-restart flag and next state. -/
def eigTail (F : EigFns) (tol toloose : ℚ) (msI : ℕ) (xs2 ax2 : List Vec)
    (heff2 : Mat2) (space : ℕ) (eNew : List ℚ) (x0n ax0n : List Vec)
    (info : CInfo) (oc : ℕ) : CycRes ESt :=
  let ide := argmaxAbs info.de
  let dxt := (List.range eNew.length).map
    (fun k => vsub (ax0n.getD k []) (smulV (eNew.getD k 0) (x0n.getD k [])))
  let dxn := dxt.map (normV F.sqrt)
  let xt1 := (List.range eNew.length).filterMap (fun k =>
    if toloose < dxn.getD k 0 then
      let t := F.precond (dxt.getD k []) (eNew.getD 0 0) (x0n.getD k [])
      some (smulV (1 / normV F.sqrt t) t)
    else none)
  let xt2 := xt1.map (fun xi =>
    xs2.foldl (fun xi xsi => vsub xi (smulV (dotL xi xsi) xsi)) xi)
  let xt3 := xt2.filterMap (fun xi =>
    let n := normV F.sqrt xi
    if toloose < n then some (smulV (1 / n) xi) else none)
  -- `numpy.argmax` of an empty delta array raises
  if info.de = [] then .crash oc
  else if |info.de.getD ide 0| < tol then
    .conv eNew x0n { info with ca := true } oc
  -- residual formation `ax0[k] - ek*x0[k]` raises when `ax0` is short
  else if ax0n.length < eNew.length then .crash oc
  else if maxQ dxn < toloose then .conv eNew x0n info oc
  else if xt3 = [] then .exh eNew x0n info oc
  else
    .next { xs := xs2, ax := ax2, space := space, heff := heff2,
            e := eNew, xt := xt3, x0 := x0n,
            fresh := decide (msI < space + xt3.length) } info oc

/-- Everything the solve phase of an `eig` cycle hands to the rest of the
cycle: extended basis and image store, filled work array, new subspace
dimension, selected eigenvalues, selected real eigenvector columns,
deltas, and whether the cycle started from a fresh state. -/
structure ESolveOut where
  xs2 : List Vec
  ax2 : List Vec
  heff2 : Mat2
  space : ℕ
  eNew : List ℚ
  vSel : List (List ℚ)
  de : List ℚ
  freshIn : Bool

/-- Lines 295-336 of `eig`: fresh start / re-orthogonalization, operator
application, basis extension, projected-matrix fill, dense eigensolve,
selection, and delta formation.  An `error oc` is a raised Python
exception after `oc` operator invocations. -/
def eigSolve (F : EigFns) (nroots msI : ℕ) (s : ESt) : Except ℕ ESolveOut :=
  let freshIn := s.fresh
  let s1 := eigFresh F nroots s
  -- `qr` of an empty guess list raises `IndexError` (`xs[0]`)
  if s1.xt.length = 0 then .error 0 else
  let axt0 := F.aop s1.xt
  -- `ax.append(axt[k])` raises when the operator returned fewer images
  if axt0.length < s1.xt.length then .error 1 else
  let axt := axt0.take s1.xt.length
  let head := s1.space
  let space := head + s1.xt.length
  match eigFill F.dotP msI head s1.xt axt s1.xs s1.ax s1.heff with
  | none => .error 1
  | some heff2 =>
  let wv := F.eigO (mslice heff2 space)
  let idx := F.pick wv.1 wv.2 nroots
  let wSel := idx.map (fun i => wv.1.getD i ⟨0, 0⟩)
  let eNew := wSel.map Cx.re
  match deltas eNew s1.e (idx.length < nroots) nroots with
  | none => .error 1
  | some de =>
  let vSel := idx.map (fun j => (wv.2.getD j []).map Cx.re)
  .ok ⟨s1.xs ++ s1.xt, s1.ax ++ axt, heff2, space, eNew, vSel, de, freshIn⟩

/-- One cycle of the outer loop of `eig` (lines 294-408): the solve phase,
then Ritz-vector assembly (reusing stored images, or reapplying the
operator in the `lessio` disk-backed variant) and the tail. -/
def eigCycle (F : EigFns) (tol toloose : ℚ) (nroots msI : ℕ)
    (lessio incore : Bool) (s : ESt) : CycRes ESt :=
  match eigSolve F nroots msI s with
  | .error oc => .crash oc
  | .ok o =>
    let trip :=
      if lessio ∧ !incore then
        let x0n := assemble o.xs2 o.vSel o.space
        (x0n, F.aop x0n, 2)
      else
        (assemble o.xs2 o.vSel o.space, assemble o.ax2 o.vSel o.space, 1)
    eigTail F tol toloose msI o.xs2 o.ax2 o.heff2 o.space o.eNew trip.1
      trip.2.1 ⟨o.freshIn, o.space, o.de, o.eNew, false⟩ trip.2.2

/-- The outer loop of `eig`, fuel = number of remaining cycles.  At fuel 0
the Python `for` loop falls through; if no cycle ever ran the locals `e`,
`x0` are unbound and the return raises. -/
def eigLoop (F : EigFns) (tol toloose : ℚ) (nroots msI : ℕ)
    (lessio incore : Bool) :
    ℕ → ESt → List CInfo → ℕ → ℕ → RunOut
  | 0, s, tr, st, oc =>
    if st = 0 then ⟨.crashed, none, [], [], tr, st, oc⟩
    else ⟨.maxcycle, fmtRes nroots s.e s.x0, s.e, s.x0, tr, st, oc⟩
  | fuel + 1, s, tr, st, oc =>
    match eigCycle F tol toloose nroots msI lessio incore s with
    | .crash oc2 => ⟨.crashed, none, [], [], tr, st + 1, oc + oc2⟩
    | .conv e x0 i oc2 =>
      ⟨.converged, fmtRes nroots e x0, e, x0, tr ++ [i], st + 1, oc + oc2⟩
    | .exh e x0 i oc2 =>
      ⟨.lindep, fmtRes nroots e x0, e, x0, tr ++ [i], st + 1, oc + oc2⟩
    | .next s2 i oc2 =>
      eigLoop F tol toloose nroots msI lessio incore fuel s2
        (tr ++ [i]) (st + 1) (oc + oc2)

/-- The solver entry point `eig` (lines 257-413).  `x0` is the guess list
(a single 1-D array is passed as a one-element list, line 285-286);
`_lindep` is accepted and, as in the source, never read; the in-core
decision divides the memory budget by `x0[0].nbytes = 8*N` (float64). -/
def eigRun (F : EigFns) (x0 : List Vec) (tol : ℚ) (maxCycle maxSpace : ℕ)
    (_lindep maxMemory : ℚ) (nroots : ℕ) (lessio : Bool) : RunOut :=
  let toloose := F.sqrt tol * (1 / 100)
  match x0 with
  | [] => ⟨.crashed, none, [], [], [], 0, 0⟩      -- `x0[0].size` raises
  | g0 :: _ =>
    if g0.length = 0 then ⟨.crashed, none, [], [], [], 0, 0⟩
    else
      let mcyc := min maxCycle g0.length
      let msI := maxSpace + nroots * 2
      let incore := decide
        (maxMemory * 1000000 / (8 * (g0.length : ℚ)) >
          ((msI * 2 + nroots * 2 : ℕ) : ℚ))
      eigLoop F tol toloose nroots msI lessio incore mcyc
        ⟨[], [], 0, fun _ _ => 0, [], [], x0, true⟩ [] 0 0

/-! ## The generalized solver `dgeev` -/

/-- Mutable locals of `dgeev` carried between cycles (also tracks the
B-images `bx` and the metric matrix `seff`). -/
structure GeSt where
  xs : List Vec
  ax : List Vec
  bx : List Vec
  space : ℕ
  heff : Mat2
  seff : Mat2
  e : List ℚ
  xt : List Vec
  x0 : List Vec
  fresh : Bool

/-- The caller-supplied collaborators of `dgeev`: the operator callback
returns the pair of image batches `(A*x, B*x)`; the external dense solver
`scipy.linalg.eigh(heff, seff)` is the oracle `eighO`, returning real
eigenvalues and eigenvector columns. -/
structure GeFns where
  sqrt : ℚ → ℚ
  abop : List Vec → List Vec × List Vec
  precond : Vec → ℚ → Vec → Vec
  dotP : Vec → Vec → ℚ
  eighO : List (List ℚ) → List (List ℚ) → List ℚ × List (List ℚ)

/-- One mirrored assignment pair into `heff` and `seff` during the
`dgeev` projected-matrix build: entry `(i, j)` and its conjugate mirror
`(j, i)` (identical over the rationals), failing on a length-mismatched
inner product (`ValueError`) or an out-of-bounds index (`IndexError`). -/
def geCell (msI : ℕ) (i j : ℕ) (hv sv : Option ℚ)
    (acc : Option (Mat2 × Mat2)) : Option (Mat2 × Mat2) := do
  let hs ← acc
  let h ← hv
  let s ← sv
  if i < msI ∧ j < msI then
    some (hupd (hupd hs.1 i j h) j i h, hupd (hupd hs.2 i j s) j i s)
  else none

/-- The `heff`/`seff` fill of `dgeev` (lines 128-155).  For the column
range covering the new batch only the upper triangle is computed and
mirrored; columns over the old basis use the stored images.  For
`type > 1` the `heff` inner products use the B-image `bxt[k]` in place of
`xt[k]`; `seff` is the same for every `type`.  Conjugation is the identity
on rationals, so each mirrored entry carries the same value. -/
def geFill (dotP : Vec → Vec → ℚ) (ty msI head : ℕ)
    (xt axt bxt _xs ax bx : List Vec) (h s : Mat2) : Option (Mat2 × Mat2) :=
  let rnow := xt.length
  let space := head + rnow
  (List.range space).foldl
    (fun acc i =>
      if head ≤ i then
        (List.range (i - head + 1)).foldl
          (fun acc k =>
            geCell msI (head + k) i
              (dotChk dotP (if ty = 1 then xt.getD k [] else bxt.getD k [])
                (axt.getD (i - head) []))
              (dotChk dotP (xt.getD k []) (bxt.getD (i - head) [])) acc)
          acc
      else
        (List.range rnow).foldl
          (fun acc k =>
            geCell msI (head + k) i
              (dotChk dotP (if ty = 1 then xt.getD k [] else bxt.getD k [])
                (ax.getD i []))
              (dotChk dotP (xt.getD k []) (bx.getD i [])) acc)
          acc)
    (some (h, s))

/-- Fresh-start / trial re-orthogonalization phase of `dgeev`
(lines 99-116), mirroring `eigFresh` with the extra B-image store. -/
def geFresh (F : GeFns) (nroots : ℕ) (s : GeSt) : GeSt :=
  if s.fresh then
    { xs := [], ax := [], bx := [], space := 0,
      heff := fun _ _ => 0, seff := fun _ _ => 0,
      e := List.replicate nroots 0, xt := qr F.sqrt s.x0, x0 := [],
      fresh := false }
  else if 1 < s.xt.length then
    { s with xt := (qr F.sqrt s.xt).take 40 }
  else s

/-- Lines 191-242 of `dgeev`: argmax of the deltas, convergence check A,
residual formation (`ax0[k] - ek*bx0[k]` for `type == 1`, else against
`x0[k]`), convergence check B, preconditioning, re-orthogonalization,
pruning, exhaustion test, forced-restart flag and next state. -/
def geTail (F : GeFns) (ty : ℕ) (tol toloose : ℚ) (msI : ℕ)
    (xs2 ax2 bx2 : List Vec) (heff2 seff2 : Mat2) (space : ℕ)
    (eNew : List ℚ) (x0n ax0n bx0n : List Vec) (info : CInfo) (oc : ℕ) :
    CycRes GeSt :=
  let ide := argmaxAbs info.de
  let dxt := (List.range eNew.length).map (fun k =>
    if ty = 1 then
      vsub (ax0n.getD k []) (smulV (eNew.getD k 0) (bx0n.getD k []))
    else
      vsub (ax0n.getD k []) (smulV (eNew.getD k 0) (x0n.getD k [])))
  let dxn := dxt.map (normV F.sqrt)
  let xt1 := (List.range eNew.length).filterMap (fun k =>
    if toloose < dxn.getD k 0 then
      let t := F.precond (dxt.getD k []) (eNew.getD 0 0) (x0n.getD k [])
      some (smulV (1 / normV F.sqrt t) t)
    else none)
  let xt2 := xt1.map (fun xi =>
    xs2.foldl (fun xi xsi => vsub xi (smulV (dotL xi xsi) xsi)) xi)
  let xt3 := xt2.filterMap (fun xi =>
    let n := normV F.sqrt xi
    if toloose < n then some (smulV (1 / n) xi) else none)
  -- `numpy.argmax` of an empty delta array raises
  if info.de = [] then .crash oc
  else if |info.de.getD ide 0| < tol then
    .conv eNew x0n { info with ca := true } oc
  -- residual indexing raises when the assembled image lists are short
  else if ax0n.length < eNew.length ∨ (ty = 1 ∧ bx0n.length < eNew.length) then
    .crash oc
  else if maxQ dxn < toloose then .conv eNew x0n info oc
  else if xt3 = [] then .exh eNew x0n info oc
  else
    .next { xs := xs2, ax := ax2, bx := bx2, space := space,
            heff := heff2, seff := seff2, e := eNew, xt := xt3, x0 := x0n,
            fresh := decide (msI < space + xt3.length) } info oc

/-- The solve-phase output of a `dgeev` cycle (see `ESolveOut`), with the
B-image store, the metric work array, the eigenvector columns of the
generalized solve, and the operator-invocation count of the phase. -/
structure GSolveOut where
  xs2 : List Vec
  ax2 : List Vec
  bx2 : List Vec
  heff2 : Mat2
  seff2 : Mat2
  space : ℕ
  eNew : List ℚ
  cols : List (List ℚ)
  de : List ℚ
  freshIn : Bool
  oc0 : ℕ

/-- Lines 99-162 of `dgeev`: fresh start / re-orthogonalization, operator
application (twice for `type > 1`), basis extension, `heff`/`seff` fill,
generalized dense eigensolve and delta formation. -/
def geSolve (F : GeFns) (ty : ℕ) (nroots msI : ℕ) (s : GeSt) :
    Except ℕ GSolveOut :=
  let freshIn := s.fresh
  let s1 := geFresh F nroots s
  -- `qr` of an empty guess list raises `IndexError` (`xs[0]`)
  if s1.xt.length = 0 then .error 0 else
  -- `axt, bxt = abop(xt)`; for `type > 1`, `axt = abop(bxt)[0]`
  let ab := F.abop s1.xt
  let bxt0 := ab.2
  let axt0 := if 1 < ty then (F.abop ab.2).1 else ab.1
  let oc0 := if 1 < ty then 2 else 1
  if axt0.length < s1.xt.length ∨ bxt0.length < s1.xt.length then .error oc0 else
  let axt := axt0.take s1.xt.length
  let bxt := bxt0.take s1.xt.length
  let head := s1.space
  let space := head + s1.xt.length
  match geFill F.dotP ty msI head s1.xt axt bxt s1.xs s1.ax s1.bx s1.heff s1.seff with
  | none => .error oc0
  | some hs2 =>
  let wv := F.eighO (mslice hs2.1 space) (mslice hs2.2 space)
  let eNew := wv.1.take nroots
  match deltas eNew s1.e (space < nroots) nroots with
  | none => .error oc0
  | some de =>
  let cols := (List.range eNew.length).map (fun k => wv.2.getD k [])
  .ok ⟨s1.xs ++ s1.xt, s1.ax ++ axt, s1.bx ++ bxt, hs2.1, hs2.2, space,
    eNew, cols, de, freshIn, oc0⟩

/-- One cycle of the outer loop of `dgeev` (lines 98-242). -/
def geCycle (F : GeFns) (ty : ℕ) (tol toloose : ℚ) (nroots msI : ℕ)
    (lessio incore : Bool) (s : GeSt) : CycRes GeSt :=
  match geSolve F ty nroots msI s with
  | .error oc => .crash oc
  | .ok o =>
    let quad :=
      if lessio ∧ !incore then
        let x0n := assemble o.xs2 o.cols o.space
        let ab0 := F.abop x0n
        (x0n, (if 1 < ty then (F.abop ab0.2).1 else ab0.1), ab0.2,
          o.oc0 + (if 1 < ty then 2 else 1))
      else
        (assemble o.xs2 o.cols o.space, assemble o.ax2 o.cols o.space,
          assemble o.bx2 o.cols o.space, o.oc0)
    geTail F ty tol toloose msI o.xs2 o.ax2 o.bx2 o.heff2 o.seff2 o.space
      o.eNew quad.1 quad.2.1 quad.2.2.1 ⟨o.freshIn, o.space, o.de, o.eNew, false⟩
      quad.2.2.2

/-- The post-loop B-transform for `type == 3` (lines 244-246):
`for k in range(nroots): x0[k] = abop(x0[k])[1]`.  Indexing past the end of
`x0` raises (`none`); the Python call passes a bare vector to `abop`, which
for the batch-polymorphic numpy operators is the one-vector batch. -/
def gePost (F : GeFns) (ty nroots : ℕ) (x0 : List Vec) : Option (List Vec) :=
  if ty = 3 then
    if x0.length < nroots then none
    else some ((x0.take nroots).map (fun v => (F.abop [v]).2.getD 0 []) ++
      x0.drop nroots)
  else some x0

/-- Operator invocations made by the `type == 3` post-loop before a
possible `IndexError`. -/
def gePostCalls (ty nroots : ℕ) (x0 : List Vec) : ℕ :=
  if ty = 3 then min nroots x0.length else 0

/-- The value of the final `return` of `dgeev`: post-transform for
`type == 3`, then the `nroots`-dependent packaging. -/
def geFin (F : GeFns) (ty nroots : ℕ) (e : List ℚ) (x0 : List Vec) :
    Option Outcome :=
  match gePost F ty nroots x0 with
  | none => none
  | some x0p => fmtRes nroots e x0p

/-- The outer loop of `dgeev`; see `eigLoop` for the fuel convention. -/
def geLoop (F : GeFns) (ty : ℕ) (tol toloose : ℚ) (nroots msI : ℕ)
    (lessio incore : Bool) :
    ℕ → GeSt → List CInfo → ℕ → ℕ → RunOut
  | 0, s, tr, st, oc =>
    if st = 0 then ⟨.crashed, none, [], [], tr, st, oc⟩
    else
      ⟨.maxcycle, geFin F ty nroots s.e s.x0, s.e, s.x0, tr, st,
        oc + gePostCalls ty nroots s.x0⟩
  | fuel + 1, s, tr, st, oc =>
    match geCycle F ty tol toloose nroots msI lessio incore s with
    | .crash oc2 => ⟨.crashed, none, [], [], tr, st + 1, oc + oc2⟩
    | .conv e x0 i oc2 =>
      ⟨.converged, geFin F ty nroots e x0, e, x0, tr ++ [i], st + 1,
        oc + oc2 + gePostCalls ty nroots x0⟩
    | .exh e x0 i oc2 =>
      ⟨.lindep, geFin F ty nroots e x0, e, x0, tr ++ [i], st + 1,
        oc + oc2 + gePostCalls ty nroots x0⟩
    | .next s2 i oc2 =>
      geLoop F ty tol toloose nroots msI lessio incore fuel s2
        (tr ++ [i]) (st + 1) (oc + oc2)

/-- The solver entry point `dgeev` (lines 16-251).  The in-core decision
estimates `max_space*3 + nroots*3` vectors of `x0[0].nbytes = 8*N` bytes
against the memory budget (line 93, with `max_space` already augmented by
`nroots*2` on line 91). -/
def geRun (F : GeFns) (x0 : List Vec) (ty : ℕ) (tol : ℚ)
    (maxCycle maxSpace : ℕ) (_lindep maxMemory : ℚ) (nroots : ℕ)
    (lessio : Bool) : RunOut :=
  let toloose := F.sqrt tol * (1 / 100)
  match x0 with
  | [] => ⟨.crashed, none, [], [], [], 0, 0⟩      -- `x0[0].size` raises
  | g0 :: _ =>
    if g0.length = 0 then ⟨.crashed, none, [], [], [], 0, 0⟩
    else
      let mcyc := min maxCycle g0.length
      let msI := maxSpace + nroots * 2
      let incore := decide
        (maxMemory * 1000000 / (8 * (g0.length : ℚ)) >
          ((msI * 3 + nroots * 3 : ℕ) : ℚ))
      geLoop F ty tol toloose nroots msI lessio incore mcyc
        ⟨[], [], [], 0, fun _ _ => 0, fun _ _ => 0, [], [], x0, true⟩ [] 0 0

/-! ## Concrete collaborator instances

Fixtures for evaluating the two solvers on small exactly-representable
problems.  `sqrtQ` agrees with the real square root on every value the
runs below evaluate it at (all of them perfect squares of rationals). -/

/-- Fueled integer Newton iteration for the floor square root (128 steps,
ample for every value below; written with structural fuel so the kernel
can evaluate it). -/
def nsqrtGo : ℕ → ℕ → ℕ → ℕ
  | 0, _, x => x
  | f + 1, n, x =>
    let y := (x + n / x) / 2
    if y < x then nsqrtGo f n y else x

/-- Floor square root of a natural number (Newton iteration). -/
def nsqrt (n : ℕ) : ℕ := if n = 0 then 0 else nsqrtGo 128 n n

/-- Exact square root of a perfect-square rational (numerator and
denominator square roots). -/
def sqrtQ (q : ℚ) : ℚ := (nsqrt q.num.toNat : ℚ) / (nsqrt q.den : ℚ)

/-- Row-major matrix applied to a vector. -/
def matVec (A : List Vec) (x : Vec) : Vec := A.map (fun row => dotL row x)

/-- Batch application of a matrix operator: a pure linear `aop`. -/
def matVecs (A : List Vec) (vs : List Vec) : List Vec := vs.map (matVec A)

/-- `[[16,-12],[-12,9]]`: symmetric with eigenvalues 0 (eigenvector
`[3/5, 4/5]`) and 25 (eigenvector `[4/5, -3/5]`). -/
def matA : List Vec := [[16, -12], [-12, 9]]

/-- `[[0,1],[1,0]]`: eigenvalues ±1, and the Rayleigh quotient at `e1` is 0. -/
def matSwap : List Vec := [[0, 1], [1, 0]]

/-- The 2×2 identity (used as the metric operator B). -/
def matI2 : List Vec := [[1, 0], [0, 1]]

/-- Oracle consistent with `scipy.linalg.eig` on every matrix the runs
below pass it: a 1×1 matrix has its entry as eigenvalue (eigenvector
`[1]`); the only larger matrix produced is `[[16,12],[12,9]]`, whose exact
spectrum is 25 (unit eigenvector `[4/5, 3/5]`) and 0 (unit eigenvector
`[3/5, -4/5]`), returned as columns in that order. -/
def eigOracleA : List (List ℚ) → List Cx × List (List Cx) := fun m =>
  if m.length = 1 then ([⟨(m.getD 0 []).getD 0 0, 0⟩], [[⟨1, 0⟩]])
  else ([⟨25, 0⟩, ⟨0, 0⟩],
    [[⟨4/5, 0⟩, ⟨3/5, 0⟩], [⟨3/5, 0⟩, ⟨-4/5, 0⟩]])

/-- Oracle consistent with `scipy.linalg.eigh` on the 1×1 generalized
problems the runs below produce: eigenvalue `heff[0,0]/seff[0,0]`,
B-normalized eigenvector `[1]` (all those runs have `seff[0,0] = 1`). -/
def eighOracle1 : List (List ℚ) → List (List ℚ) → List ℚ × List (List ℚ) :=
  fun h s => ([(h.getD 0 []).getD 0 0 / (s.getD 0 []).getD 0 0], [[1]])

/-- `eig` collaborators: operator `matA`, identity preconditioner. -/
def FA : EigFns :=
  ⟨sqrtQ, matVecs matA, fun r _ _ => r, dotL, eigOracleA, pickeig⟩

/-- `eig` collaborators: operator `matSwap`, identity preconditioner. -/
def FS : EigFns :=
  ⟨sqrtQ, matVecs matSwap, fun r _ _ => r, dotL, eigOracleA, pickeig⟩

/-- `eig` collaborators whose operator returns dimension-3 images
regardless of the input dimension: the malformed-input scenario. -/
def FMis : EigFns :=
  ⟨sqrtQ, fun vs => vs.map (fun _ => [1, 1, 1]), fun r _ _ => r, dotL,
    eigOracleA, pickeig⟩

/-- `dgeev` collaborators: `A = matA`, `B = I`, and a (legitimate)
caller-supplied preconditioner returning the current Ritz vector — a
direction already inside the accumulated basis. -/
def GA : GeFns :=
  ⟨sqrtQ, fun vs => (matVecs matA vs, matVecs matI2 vs), fun _ _ x => x,
    dotL, eighOracle1⟩


/-- `dgeev` collaborators like `GA` but with the identity preconditioner
(produces a genuinely new direction, so the run continues past cycle 0). -/
def GB : GeFns :=
  ⟨sqrtQ, fun vs => (matVecs matA vs, matVecs matI2 vs), fun r _ _ => r,
    dotL, eighOracle1⟩

/-- The initial state of the `eig` outer loop for guess set `g`. -/
def eInit (g : List Vec) : ESt :=
  ⟨[], [], 0, fun _ _ => 0, [], [], g, true⟩

/-- The initial state of the `dgeev` outer loop for guess set `g`. -/
def gInit (g : List Vec) : GeSt :=
  ⟨[], [], [], 0, fun _ _ => 0, fun _ _ => 0, [], [], g, true⟩

/-- Fallback values for extracting concrete cycle results. -/
def eSt0 : ESt := ⟨[], [], 0, fun _ _ => 0, [], [], [], false⟩

def gSt0 : GeSt := ⟨[], [], [], 0, fun _ _ => 0, fun _ _ => 0, [], [], [], false⟩

def eOut0 : ESolveOut := ⟨[], [], fun _ _ => 0, 0, [], [], [], false⟩

def gOut0 : GSolveOut :=
  ⟨[], [], [], fun _ _ => 0, fun _ _ => 0, 0, [], [], [], false, 0⟩

/-- The state after the first cycle of a concrete `eig` run with internal
space bound 3 (caller `max_space = 1`, `nroots = 1`). -/
def c2NextE : ESt :=
  match eigCycle FA 0 0 1 3 false true (eInit [[1, 0]]) with
  | .next st _ _ => st
  | _ => eSt0

/-- The state after the first cycle of a concrete `dgeev` run. -/
def c2NextG : GeSt :=
  match geCycle GB 1 0 0 1 16 false true (gInit [[1, 0]]) with
  | .next st _ _ => st
  | _ => gSt0

/-- The solve-phase output of the first cycle of the concrete `eig` run. -/
def c2SolveE : ESolveOut :=
  match eigSolve FA 1 3 (eInit [[1, 0]]) with
  | .ok o => o
  | .error _ => eOut0

/-- The solve-phase output of the first cycle of the concrete `dgeev` run. -/
def c2SolveG : GSolveOut :=
  match geSolve GB 1 1 16 (gInit [[1, 0]]) with
  | .ok o => o
  | .error _ => gOut0

/-- An eigenvalue list with two real entries (3 and 0) and one strictly
complex entry, for exercising `pickeig`. -/
def wEx : List Cx := [⟨3, 0⟩, ⟨1, 2⟩, ⟨0, 0⟩]

instance (w : List Cx) : IsTotal ℕ (reLe w) := ⟨fun _ _ => le_total _ _⟩

instance (w : List Cx) : IsTrans ℕ (reLe w) := ⟨fun _ _ _ => le_trans⟩

/-! # Helper lemmas -/

/-- Well-formedness of the `eig` loop state for an operator given by the
square matrix `A` of dimension `N`: stored basis vectors have dimension
`N`, the stored images are exactly the `A`-images of the basis, the basis
size equals `space`, and held trial/Ritz vectors have dimension `N`. -/
def WFe (A : List Vec) (N : ℕ) (s : ESt) : Prop :=
  (∀ v ∈ s.xs, v.length = N) ∧ s.ax = matVecs A s.xs ∧
  s.xs.length = s.space ∧ (∀ v ∈ s.xt, v.length = N) ∧
  (∀ v ∈ s.x0, v.length = N)

/-- Forget the operator-invocation count of a cycle result (the only
component through which the `lessio` recomputation is observable). -/
def stripE : CycRes ESt → CycRes ESt
  | .next s i _ => .next s i 0
  | .conv e x i _ => .conv e x i 0
  | .exh e x i _ => .exh e x i 0
  | .crash _ => .crash 0

/-- The effective A-side operator of `dgeev`: for `type > 1` the stored
A-images are `abop(bxt)[0]`, i.e. `A*(B*x)`; otherwise `A*x`. -/
def geOpA (A B : List Vec) (ty : ℕ) : Vec → Vec :=
  fun v => if 1 < ty then matVec A (matVec B v) else matVec A v

/-- Well-formedness of the `dgeev` loop state: basis vectors have
dimension `N`, the stored A- and B-image lists are the effective-operator
and `B` images of the basis, and the basis size equals `space`. -/
def WFg (A B : List Vec) (ty N : ℕ) (s : GeSt) : Prop :=
  (∀ v ∈ s.xs, v.length = N) ∧ s.ax = s.xs.map (geOpA A B ty) ∧
  s.bx = matVecs B s.xs ∧ s.xs.length = s.space ∧
  (∀ v ∈ s.xt, v.length = N) ∧ (∀ v ∈ s.x0, v.length = N)

/-- `stripE` for the generalized solver. -/
def stripG : CycRes GeSt → CycRes GeSt
  | .next s i _ => .next s i 0
  | .conv e x i _ => .conv e x i 0
  | .exh e x i _ => .exh e x i 0
  | .crash _ => .crash 0

theorem pickeig_take (w : List Cx) (v : List (List Cx)) (n : ℕ) :
    pickeig w v n =
      (List.insertionSort (reLe w)
        ((List.range w.length).filter (fun i => (w.getD i ⟨0, 0⟩).im = 0))).take n :=
  rfl

theorem pickeig_mem_realidx (w : List Cx) (v : List (List Cx)) (n : ℕ) :
    ∀ i ∈ pickeig w v n, i < w.length ∧ (w.getD i ⟨0, 0⟩).im = 0 := by
  intro i hi
  rw [pickeig_take] at hi
  have h1 := List.mem_of_mem_take hi
  have h2 := (List.perm_insertionSort (reLe w) _).subset h1
  simp only [List.mem_filter, List.mem_range, decide_eq_true_eq] at h2
  exact h2

theorem pickeig_sorted (w : List Cx) (v : List (List Cx)) (n : ℕ) :
    List.Pairwise (reLe w) (pickeig w v n) := by
  rw [pickeig_take]
  exact List.Pairwise.sublist (List.take_sublist _ _)
    (List.sorted_insertionSort (reLe w) _)

theorem pickeig_min (w : List Cx) (v : List (List Cx)) (n : ℕ) :
    ∀ i ∈ pickeig w v n, ∀ j, j < w.length → (w.getD j ⟨0, 0⟩).im = 0 →
      j ∉ pickeig w v n →
      (w.getD i ⟨0, 0⟩).re ≤ (w.getD j ⟨0, 0⟩).re := by
  intro i hi j hjlen hjim hjnot
  have hjmem : j ∈ List.insertionSort (reLe w)
      ((List.range w.length).filter (fun i => (w.getD i ⟨0, 0⟩).im = 0)) := by
    apply (List.perm_insertionSort (reLe w) _).mem_iff.mpr
    simp only [List.mem_filter, List.mem_range, decide_eq_true_eq]
    exact ⟨hjlen, hjim⟩
  rw [pickeig_take] at hi hjnot
  have hsplit := List.take_append_drop n (List.insertionSort (reLe w)
    ((List.range w.length).filter (fun i => (w.getD i ⟨0, 0⟩).im = 0)))
  have hsorted := List.sorted_insertionSort (reLe w)
    ((List.range w.length).filter (fun i => (w.getD i ⟨0, 0⟩).im = 0))
  have hjdrop : j ∈ (List.insertionSort (reLe w)
      ((List.range w.length).filter (fun i => (w.getD i ⟨0, 0⟩).im = 0))).drop n := by
    rcases (List.mem_append.mp (by rw [hsplit]; exact hjmem)) with h | h
    · exact absurd h hjnot
    · exact h
  have hpair : List.Pairwise (reLe w)
      ((List.insertionSort (reLe w)
        ((List.range w.length).filter (fun i => (w.getD i ⟨0, 0⟩).im = 0))).take n ++
       (List.insertionSort (reLe w)
        ((List.range w.length).filter (fun i => (w.getD i ⟨0, 0⟩).im = 0))).drop n) := by
    rw [hsplit]; exact hsorted
  exact (List.pairwise_append.mp hpair).2.2 i hi j hjdrop

theorem eigLoop_started (F : EigFns) (tol tl : ℚ) (nr msI : ℕ) (li ic : Bool) :
    ∀ (fuel : ℕ) (s : ESt) (tr : List CInfo) (st oc : ℕ),
      (eigLoop F tol tl nr msI li ic fuel s tr st oc).started ≤ st + fuel := by
  intro fuel
  induction fuel with
  | zero =>
    intro s tr st oc
    simp only [eigLoop]
    split <;> simp
  | succ n ih =>
    intro s tr st oc
    simp only [eigLoop]
    cases eigCycle F tol tl nr msI li ic s with
    | next s2 i oc2 => exact le_trans (ih s2 (tr ++ [i]) (st + 1) (oc + oc2)) (by omega)
    | conv e x0 i oc2 => simp
    | exh e x0 i oc2 => simp
    | crash oc2 => simp

theorem geLoop_started (F : GeFns) (ty : ℕ) (tol tl : ℚ) (nr msI : ℕ) (li ic : Bool) :
    ∀ (fuel : ℕ) (s : GeSt) (tr : List CInfo) (st oc : ℕ),
      (geLoop F ty tol tl nr msI li ic fuel s tr st oc).started ≤ st + fuel := by
  intro fuel
  induction fuel with
  | zero =>
    intro s tr st oc
    simp only [geLoop]
    split <;> simp
  | succ n ih =>
    intro s tr st oc
    simp only [geLoop]
    cases geCycle F ty tol tl nr msI li ic s with
    | next s2 i oc2 => exact le_trans (ih s2 (tr ++ [i]) (st + 1) (oc + oc2)) (by omega)
    | conv e x0 i oc2 => simp
    | exh e x0 i oc2 => simp
    | crash oc2 => simp

theorem zipWith_sub_replicate_zero (l : List ℚ) (n : ℕ) (h : l.length = n) :
    List.zipWith (· - ·) l (List.replicate n (0:ℚ)) = l := by
  induction l generalizing n with
  | nil => simp
  | cons a t ih =>
    cases n with
    | zero => exact absurd h t.length.succ_ne_zero
    | succ m =>
      have ht := ih m (by simpa using h)
      rw [List.replicate_succ, List.zipWith_cons_cons, ht, sub_zero]

theorem deltas_fresh (eNew : List ℚ) (nr : ℕ) (c : Prop) [Decidable c]
    (de : List ℚ) (h : deltas eNew (List.replicate nr 0) c nr = some de) :
    de = eNew := by
  unfold deltas at h
  split at h
  · exact (Option.some.inj h).symm
  · split at h
    · rename_i h2
      have hlen : eNew.length = nr := by simpa using h2
      rw [zipWith_sub_replicate_zero eNew nr hlen] at h
      exact (Option.some.inj h).symm
    · exact Option.noConfusion h

theorem cycInfo_ite {σ : Type} (c : Prop) [Decidable c] (a b : CycRes σ) :
    cycInfo (if c then a else b) = if c then cycInfo a else cycInfo b := by
  split <;> rfl

theorem eigTail_resinfo (F : EigFns) (tol tl : ℚ) (msI : ℕ)
    (xs2 ax2 : List Vec) (h2 : Mat2) (sp : ℕ) (eN : List ℚ)
    (x0n ax0n : List Vec) (info : CInfo) (oc : ℕ) :
    ∀ i, cycInfo (eigTail F tol tl msI xs2 ax2 h2 sp eN x0n ax0n info oc) = some i →
      i = info ∨ i = { info with ca := true } := by
  intro i hi
  unfold eigTail at hi
  simp only [cycInfo_ite, cycInfo] at hi
  split_ifs at hi
  all_goals simp only [cycInfo] at hi
  all_goals first
    | exact Or.inl (Option.some.inj hi).symm
    | exact Or.inr (Option.some.inj hi).symm

theorem geTail_resinfo (F : GeFns) (ty : ℕ) (tol tl : ℚ) (msI : ℕ)
    (xs2 ax2 bx2 : List Vec) (h2 s2 : Mat2) (sp : ℕ) (eN : List ℚ)
    (x0n ax0n bx0n : List Vec) (info : CInfo) (oc : ℕ) :
    ∀ i, cycInfo (geTail F ty tol tl msI xs2 ax2 bx2 h2 s2 sp eN x0n ax0n bx0n info oc) = some i →
      i = info ∨ i = { info with ca := true } := by
  intro i hi
  unfold geTail at hi
  simp only [cycInfo_ite, cycInfo] at hi
  split_ifs at hi
  all_goals simp only [cycInfo] at hi
  all_goals first
    | exact Or.inl (Option.some.inj hi).symm
    | exact Or.inr (Option.some.inj hi).symm

theorem eigFresh_e (F : EigFns) (nr : ℕ) (s : ESt) (hf : s.fresh = true) :
    (eigFresh F nr s).e = List.replicate nr 0 := by
  simp [eigFresh, hf]

theorem geFresh_e (F : GeFns) (nr : ℕ) (s : GeSt) (hf : s.fresh = true) :
    (geFresh F nr s).e = List.replicate nr 0 := by
  simp [geFresh, hf]

theorem eigSolve_fresh_de (F : EigFns) (nr msI : ℕ) (s : ESt)
    (o : ESolveOut) (hf : s.fresh = true)
    (h : eigSolve F nr msI s = .ok o) :
    o.de = o.eNew ∧ o.freshIn = true := by
  unfold eigSolve at h
  dsimp only [] at h
  split_ifs at h
  all_goals repeat' split at h
  all_goals try exact Except.noConfusion h
  all_goals rename_i de hde
  all_goals
    rw [eigFresh_e F nr s hf] at hde
    have h4 := deltas_fresh _ _ _ _ hde
    have ho := (Except.ok.inj h).symm
    subst ho
    exact ⟨h4, hf⟩

theorem geSolve_fresh_de (F : GeFns) (ty nr msI : ℕ) (s : GeSt)
    (o : GSolveOut) (hf : s.fresh = true)
    (h : geSolve F ty nr msI s = .ok o) :
    o.de = o.eNew ∧ o.freshIn = true := by
  unfold geSolve at h
  dsimp only [] at h
  split_ifs at h
  all_goals repeat' split at h
  all_goals try exact Except.noConfusion h
  all_goals rename_i de hde
  all_goals
    rw [geFresh_e F nr s hf] at hde
    have h4 := deltas_fresh _ _ _ _ hde
    have ho := (Except.ok.inj h).symm
    subst ho
    exact ⟨h4, hf⟩

theorem c3_eig (F : EigFns) (tol tl : ℚ) (nr msI : ℕ) (li ic : Bool)
    (s : ESt) (i : CInfo) (hf : s.fresh = true)
    (hi : cycInfo (eigCycle F tol tl nr msI li ic s) = some i) :
    i.de = i.e ∧ i.fresh = true := by
  unfold eigCycle at hi
  split at hi
  · simp [cycInfo] at hi
  · rename_i o ho
    obtain ⟨hde, hfr⟩ := eigSolve_fresh_de F nr msI s o hf ho
    rcases eigTail_resinfo _ _ _ _ _ _ _ _ _ _ _ _ _ i hi with h | h <;>
      subst h <;> exact ⟨hde, hfr⟩

theorem c3_ge (F : GeFns) (ty : ℕ) (tol tl : ℚ) (nr msI : ℕ) (li ic : Bool)
    (s : GeSt) (i : CInfo) (hf : s.fresh = true)
    (hi : cycInfo (geCycle F ty tol tl nr msI li ic s) = some i) :
    i.de = i.e ∧ i.fresh = true := by
  unfold geCycle at hi
  split at hi
  · simp [cycInfo] at hi
  · rename_i o ho
    obtain ⟨hde, hfr⟩ := geSolve_fresh_de F ty nr msI s o hf ho
    rcases geTail_resinfo _ _ _ _ _ _ _ _ _ _ _ _ _ _ _ _ _ i hi with h | h <;>
      subst h <;> exact ⟨hde, hfr⟩

theorem fillCell_some (msI i j : ℕ) (x : Option ℚ) (acc : Option Mat2)
    (m : Mat2) (h : fillCell msI i j x acc = some m) :
    i < msI ∧ j < msI := by
  unfold fillCell at h
  cases acc with
  | none => exact Option.noConfusion h
  | some h0 =>
    cases x with
    | none => exact Option.noConfusion h
    | some xv =>
      simp only [Option.bind_eq_bind, Option.some_bind] at h
      split at h
      · assumption
      · exact Option.noConfusion h

theorem geCell_some (msI i j : ℕ) (hv sv : Option ℚ)
    (acc : Option (Mat2 × Mat2)) (m : Mat2 × Mat2)
    (h : geCell msI i j hv sv acc = some m) : i < msI ∧ j < msI := by
  unfold geCell at h
  cases acc with
  | none => exact Option.noConfusion h
  | some hs =>
    cases hv with
    | none => exact Option.noConfusion h
    | some hvv =>
      cases sv with
      | none => exact Option.noConfusion h
      | some svv =>
        simp only [Option.bind_eq_bind, Option.some_bind] at h
        split at h
        · assumption
        · exact Option.noConfusion h

theorem foldl_none {α β : Type} (f : Option β → α → Option β)
    (hf : ∀ a, f none a = none) (l : List α) : l.foldl f none = none := by
  induction l with
  | nil => rfl
  | cons a t ih => simp only [List.foldl_cons, hf a, ih]

theorem eigFill_bound (dotP : Vec → Vec → ℚ) (msI head : ℕ)
    (xt axt xs ax : List Vec) (h : Mat2) (m : Mat2)
    (hok : eigFill dotP msI head xt axt xs ax h = some m)
    (hne : xt.length ≠ 0) : head + xt.length ≤ msI := by
  unfold eigFill at hok
  dsimp only [] at hok
  obtain ⟨r, hr⟩ : ∃ rr, xt.length = rr + 1 :=
    ⟨xt.length - 1, (Nat.succ_pred_eq_of_pos (Nat.pos_of_ne_zero hne)).symm⟩
  have hnew : ∃ m1, (List.range xt.length).foldl
      (fun acc i =>
        (List.range xt.length).foldl
          (fun acc k =>
            fillCell msI (head + k) (head + i)
              (dotChk dotP (xt.getD k []) (axt.getD i [])) acc)
          acc)
      (some h) = some m1 := by
    by_contra hc
    push_neg at hc
    have hnone : (List.range xt.length).foldl
        (fun acc i =>
          (List.range xt.length).foldl
            (fun acc k =>
              fillCell msI (head + k) (head + i)
                (dotChk dotP (xt.getD k []) (axt.getD i [])) acc)
            acc)
        (some h) = none := by
      cases hx : (List.range xt.length).foldl
          (fun acc i =>
            (List.range xt.length).foldl
              (fun acc k =>
                fillCell msI (head + k) (head + i)
                  (dotChk dotP (xt.getD k []) (axt.getD i [])) acc)
              acc)
          (some h) with
      | none => rfl
      | some mm => exact absurd hx (hc mm)
    rw [hnone] at hok
    rw [foldl_none] at hok
    · exact Option.noConfusion hok
    · intro a
      rw [foldl_none]
      intro b
      rfl
  obtain ⟨m1, hm1⟩ := hnew
  rw [hr] at hm1
  simp only [List.range_succ, List.foldl_append, List.foldl_cons,
    List.foldl_nil] at hm1
  have hb := fillCell_some _ _ _ _ _ _ hm1
  omega

theorem geFill_bound (dotP : Vec → Vec → ℚ) (ty msI head : ℕ)
    (xt axt bxt xs ax bx : List Vec) (h s : Mat2) (m : Mat2 × Mat2)
    (hok : geFill dotP ty msI head xt axt bxt xs ax bx h s = some m)
    (hne : xt.length ≠ 0) : head + xt.length ≤ msI := by
  unfold geFill at hok
  dsimp only [] at hok
  obtain ⟨r, hr⟩ : ∃ rr, xt.length = rr + 1 :=
    ⟨xt.length - 1, (Nat.succ_pred_eq_of_pos (Nat.pos_of_ne_zero hne)).symm⟩
  rw [hr] at hok
  rw [show List.range (head + (r + 1)) = List.range (head + r) ++ [head + r] by
    rw [show head + (r + 1) = head + r + 1 by omega, List.range_succ]] at hok
  rw [List.foldl_append] at hok
  simp only [List.foldl_cons, List.foldl_nil] at hok
  rw [if_pos (Nat.le_add_right head r)] at hok
  rw [Nat.add_sub_cancel_left] at hok
  rw [List.range_succ] at hok
  rw [List.foldl_append] at hok
  simp only [List.foldl_cons, List.foldl_nil] at hok
  have hb := geCell_some _ _ _ _ _ _ _ hok
  omega



theorem eigSolve_space (F : EigFns) (nr msI : ℕ) (s : ESt) (o : ESolveOut)
    (h : eigSolve F nr msI s = .ok o) : o.space ≤ msI := by
  unfold eigSolve at h
  dsimp only [] at h
  split_ifs at h
  all_goals repeat' split at h
  all_goals try exact Except.noConfusion h
  all_goals
    rename_i mscr hm hfill dscr de hde
    have hbound := eigFill_bound _ _ _ _ _ _ _ _ _ hfill (by assumption)
    have ho := (Except.ok.inj h).symm
    subst ho
    simpa using hbound

theorem geSolve_space (F : GeFns) (ty nr msI : ℕ) (s : GeSt) (o : GSolveOut)
    (h : geSolve F ty nr msI s = .ok o) : o.space ≤ msI := by
  unfold geSolve at h
  dsimp only [] at h
  split_ifs at h
  all_goals repeat' split at h
  all_goals try exact Except.noConfusion h
  all_goals
    rename_i mscr hm hfill dscr de hde
    have hbound := geFill_bound _ _ _ _ _ _ _ _ _ _ _ _ _ hfill (by assumption)
    have ho := (Except.ok.inj h).symm
    subst ho
    simpa using hbound

theorem eigCycle_space (F : EigFns) (tol tl : ℚ) (nr msI : ℕ) (li ic : Bool)
    (s : ESt) (i : CInfo)
    (hi : cycInfo (eigCycle F tol tl nr msI li ic s) = some i) :
    i.space ≤ msI := by
  unfold eigCycle at hi
  split at hi
  · simp [cycInfo] at hi
  · rename_i o ho
    have h1 := eigSolve_space F nr msI s o ho
    rcases eigTail_resinfo _ _ _ _ _ _ _ _ _ _ _ _ _ i hi with h | h <;>
      subst h <;> exact h1

theorem geCycle_space (F : GeFns) (ty : ℕ) (tol tl : ℚ) (nr msI : ℕ)
    (li ic : Bool) (s : GeSt) (i : CInfo)
    (hi : cycInfo (geCycle F ty tol tl nr msI li ic s) = some i) :
    i.space ≤ msI := by
  unfold geCycle at hi
  split at hi
  · simp [cycInfo] at hi
  · rename_i o ho
    have h1 := geSolve_space F ty nr msI s o ho
    rcases geTail_resinfo _ _ _ _ _ _ _ _ _ _ _ _ _ _ _ _ _ i hi with h | h <;>
      subst h <;> exact h1



theorem eigLoop_trace_space (F : EigFns) (tol tl : ℚ) (nr msI : ℕ)
    (li ic : Bool) :
    ∀ (fuel : ℕ) (s : ESt) (tr : List CInfo) (st oc : ℕ),
      (∀ j ∈ tr, j.space ≤ msI) →
      ∀ j ∈ (eigLoop F tol tl nr msI li ic fuel s tr st oc).trace,
        j.space ≤ msI := by
  intro fuel
  induction fuel with
  | zero =>
    intro s tr st oc htr j hj
    simp only [eigLoop] at hj
    split at hj <;> exact htr j hj
  | succ n ih =>
    intro s tr st oc htr j hj
    simp only [eigLoop] at hj
    cases hc : eigCycle F tol tl nr msI li ic s with
    | crash oc2 =>
      rw [hc] at hj
      exact htr j hj
    | conv e x0 i2 oc2 =>
      rw [hc] at hj
      dsimp only [] at hj
      rcases List.mem_append.mp hj with hj2 | hj2
      · exact htr j hj2
      · have hji : j = i2 := by simpa using hj2
        subst hji
        exact eigCycle_space F tol tl nr msI li ic s j (by rw [hc]; rfl)
    | exh e x0 i2 oc2 =>
      rw [hc] at hj
      dsimp only [] at hj
      rcases List.mem_append.mp hj with hj2 | hj2
      · exact htr j hj2
      · have hji : j = i2 := by simpa using hj2
        subst hji
        exact eigCycle_space F tol tl nr msI li ic s j (by rw [hc]; rfl)
    | next s2 i2 oc2 =>
      rw [hc] at hj
      dsimp only [] at hj
      refine ih s2 (tr ++ [i2]) (st + 1) (oc + oc2) ?_ j hj
      intro j2 hj2
      rcases List.mem_append.mp hj2 with h3 | h3
      · exact htr j2 h3
      · have hji : j2 = i2 := by simpa using h3
        subst hji
        exact eigCycle_space F tol tl nr msI li ic s j2 (by rw [hc]; rfl)

theorem geLoop_trace_space (F : GeFns) (ty : ℕ) (tol tl : ℚ) (nr msI : ℕ)
    (li ic : Bool) :
    ∀ (fuel : ℕ) (s : GeSt) (tr : List CInfo) (st oc : ℕ),
      (∀ j ∈ tr, j.space ≤ msI) →
      ∀ j ∈ (geLoop F ty tol tl nr msI li ic fuel s tr st oc).trace,
        j.space ≤ msI := by
  intro fuel
  induction fuel with
  | zero =>
    intro s tr st oc htr j hj
    simp only [geLoop] at hj
    split at hj <;> exact htr j hj
  | succ n ih =>
    intro s tr st oc htr j hj
    simp only [geLoop] at hj
    cases hc : geCycle F ty tol tl nr msI li ic s with
    | crash oc2 =>
      rw [hc] at hj
      exact htr j hj
    | conv e x0 i2 oc2 =>
      rw [hc] at hj
      dsimp only [] at hj
      rcases List.mem_append.mp hj with hj2 | hj2
      · exact htr j hj2
      · have hji : j = i2 := by simpa using hj2
        subst hji
        exact geCycle_space F ty tol tl nr msI li ic s j (by rw [hc]; rfl)
    | exh e x0 i2 oc2 =>
      rw [hc] at hj
      dsimp only [] at hj
      rcases List.mem_append.mp hj with hj2 | hj2
      · exact htr j hj2
      · have hji : j = i2 := by simpa using hj2
        subst hji
        exact geCycle_space F ty tol tl nr msI li ic s j (by rw [hc]; rfl)
    | next s2 i2 oc2 =>
      rw [hc] at hj
      dsimp only [] at hj
      refine ih s2 (tr ++ [i2]) (st + 1) (oc + oc2) ?_ j hj
      intro j2 hj2
      rcases List.mem_append.mp hj2 with h3 | h3
      · exact htr j2 h3
      · have hji : j2 = i2 := by simpa using h3
        subst hji
        exact geCycle_space F ty tol tl nr msI li ic s j2 (by rw [hc]; rfl)



theorem eigTail_next_fresh (F : EigFns) (tol tl : ℚ) (msI : ℕ)
    (xs2 ax2 : List Vec) (h2 : Mat2) (sp : ℕ) (eN : List ℚ)
    (x0n ax0n : List Vec) (info : CInfo) (oc : ℕ) (s' : ESt) (i2 : CInfo)
    (oc2 : ℕ)
    (h : eigTail F tol tl msI xs2 ax2 h2 sp eN x0n ax0n info oc =
      .next s' i2 oc2) :
    s'.fresh = decide (msI < s'.space + s'.xt.length) ∧ s'.x0 = x0n := by
  unfold eigTail at h
  dsimp only [] at h
  repeat'
    first
      | exact CycRes.noConfusion h
      | split at h
  all_goals obtain ⟨h1, h2a, h3⟩ := CycRes.next.inj h
  all_goals subst h1
  all_goals exact ⟨rfl, rfl⟩

theorem geTail_next_fresh (F : GeFns) (ty : ℕ) (tol tl : ℚ) (msI : ℕ)
    (xs2 ax2 bx2 : List Vec) (h2 s2m : Mat2) (sp : ℕ) (eN : List ℚ)
    (x0n ax0n bx0n : List Vec) (info : CInfo) (oc : ℕ) (s' : GeSt)
    (i2 : CInfo) (oc2 : ℕ)
    (h : geTail F ty tol tl msI xs2 ax2 bx2 h2 s2m sp eN x0n ax0n bx0n info oc =
      .next s' i2 oc2) :
    s'.fresh = decide (msI < s'.space + s'.xt.length) ∧ s'.x0 = x0n := by
  unfold geTail at h
  dsimp only [] at h
  repeat'
    first
      | exact CycRes.noConfusion h
      | split at h
  all_goals obtain ⟨h1, h2a, h3⟩ := CycRes.next.inj h
  all_goals subst h1
  all_goals exact ⟨rfl, rfl⟩

theorem eigCycle_next_fresh (F : EigFns) (tol tl : ℚ) (nr msI : ℕ)
    (li ic : Bool) (s : ESt) (s' : ESt) (i2 : CInfo) (oc2 : ℕ)
    (h : eigCycle F tol tl nr msI li ic s = .next s' i2 oc2) :
    s'.fresh = decide (msI < s'.space + s'.xt.length) := by
  unfold eigCycle at h
  split at h
  · exact CycRes.noConfusion h
  · exact (eigTail_next_fresh _ _ _ _ _ _ _ _ _ _ _ _ _ _ _ _ h).1

theorem geCycle_next_fresh (F : GeFns) (ty : ℕ) (tol tl : ℚ) (nr msI : ℕ)
    (li ic : Bool) (s : GeSt) (s' : GeSt) (i2 : CInfo) (oc2 : ℕ)
    (h : geCycle F ty tol tl nr msI li ic s = .next s' i2 oc2) :
    s'.fresh = decide (msI < s'.space + s'.xt.length) := by
  unfold geCycle at h
  split at h
  · exact CycRes.noConfusion h
  · exact (geTail_next_fresh _ _ _ _ _ _ _ _ _ _ _ _ _ _ _ _ _ _ _ _ h).1

theorem eigFresh_seed (F : EigFns) (nr : ℕ) (s : ESt) (hf : s.fresh = true) :
    (eigFresh F nr s).xs = [] ∧ (eigFresh F nr s).xt = qr F.sqrt s.x0 := by
  simp [eigFresh, hf]

theorem geFresh_seed (F : GeFns) (nr : ℕ) (s : GeSt) (hf : s.fresh = true) :
    (geFresh F nr s).xs = [] ∧ (geFresh F nr s).xt = qr F.sqrt s.x0 := by
  simp [geFresh, hf]

theorem eigSolve_fresh_xs (F : EigFns) (nr msI : ℕ) (s : ESt) (o : ESolveOut)
    (hf : s.fresh = true) (h : eigSolve F nr msI s = .ok o) :
    o.xs2 = qr F.sqrt s.x0 := by
  unfold eigSolve at h
  dsimp only [] at h
  split_ifs at h
  all_goals repeat' split at h
  all_goals try exact Except.noConfusion h
  all_goals
    rename_i mscr hm hfill dscr de hde
    have ho := (Except.ok.inj h).symm
    subst ho
    obtain ⟨hxs, hxt⟩ := eigFresh_seed F nr s hf
    simp [hxs, hxt]

theorem geSolve_fresh_xs (F : GeFns) (ty nr msI : ℕ) (s : GeSt)
    (o : GSolveOut) (hf : s.fresh = true)
    (h : geSolve F ty nr msI s = .ok o) :
    o.xs2 = qr F.sqrt s.x0 := by
  unfold geSolve at h
  dsimp only [] at h
  split_ifs at h
  all_goals repeat' split at h
  all_goals try exact Except.noConfusion h
  all_goals
    rename_i mscr hm hfill dscr de hde
    have ho := (Except.ok.inj h).symm
    subst ho
    obtain ⟨hxs, hxt⟩ := geFresh_seed F nr s hf
    simp [hxs, hxt]

theorem deltas_ne (eNew ePrev : List ℚ) (c : Prop) [Decidable c] (nr : ℕ)
    (de : List ℚ) (h : deltas eNew ePrev c nr = some de) (hne : de ≠ []) :
    eNew ≠ [] := by
  unfold deltas at h
  split at h
  · rw [Option.some.inj h]; exact hne
  · split at h
    · rw [← Option.some.inj h] at hne
      intro he
      rw [he] at hne
      simp at hne
    · exact Option.noConfusion h

theorem eigTail_exh (F : EigFns) (tol tl : ℚ) (msI : ℕ)
    (xs2 ax2 : List Vec) (h2 : Mat2) (sp : ℕ) (eN : List ℚ)
    (x0n ax0n : List Vec) (info : CInfo) (oc : ℕ) (e : List ℚ)
    (x0 : List Vec) (i2 : CInfo) (oc2 : ℕ)
    (h : eigTail F tol tl msI xs2 ax2 h2 sp eN x0n ax0n info oc =
      .exh e x0 i2 oc2) :
    e = eN ∧ x0 = x0n ∧ info.de ≠ [] := by
  unfold eigTail at h
  dsimp only [] at h
  split_ifs at h
  all_goals try exact CycRes.noConfusion h
  all_goals
    obtain ⟨h1, h2a, h3, h4⟩ := CycRes.exh.inj h
    exact ⟨h1.symm, h2a.symm, by assumption⟩

theorem geTail_exh (F : GeFns) (ty : ℕ) (tol tl : ℚ) (msI : ℕ)
    (xs2 ax2 bx2 : List Vec) (h2 s2m : Mat2) (sp : ℕ) (eN : List ℚ)
    (x0n ax0n bx0n : List Vec) (info : CInfo) (oc : ℕ) (e : List ℚ)
    (x0 : List Vec) (i2 : CInfo) (oc2 : ℕ)
    (h : geTail F ty tol tl msI xs2 ax2 bx2 h2 s2m sp eN x0n ax0n bx0n info oc =
      .exh e x0 i2 oc2) :
    e = eN ∧ x0 = x0n ∧ info.de ≠ [] := by
  unfold geTail at h
  dsimp only [] at h
  split_ifs at h
  all_goals try exact CycRes.noConfusion h
  all_goals
    obtain ⟨h1, h2a, h3, h4⟩ := CycRes.exh.inj h
    exact ⟨h1.symm, h2a.symm, by assumption⟩

theorem eigSolve_shape (F : EigFns) (nr msI : ℕ) (s : ESt) (o : ESolveOut)
    (h : eigSolve F nr msI s = .ok o) :
    o.vSel.length = o.eNew.length ∧ (o.de ≠ [] → o.eNew ≠ []) := by
  unfold eigSolve at h
  dsimp only [] at h
  split_ifs at h
  all_goals repeat' split at h
  all_goals try exact Except.noConfusion h
  all_goals
    rename_i mscr hm hfill dscr de hde
    have ho := (Except.ok.inj h).symm
    subst ho
    constructor
    · simp
    · intro hne
      exact deltas_ne _ _ _ _ _ hde (by simpa using hne)

theorem geSolve_shape (F : GeFns) (ty nr msI : ℕ) (s : GeSt) (o : GSolveOut)
    (h : geSolve F ty nr msI s = .ok o) :
    o.cols.length = o.eNew.length ∧ (o.de ≠ [] → o.eNew ≠ []) := by
  unfold geSolve at h
  dsimp only [] at h
  split_ifs at h
  all_goals repeat' split at h
  all_goals try exact Except.noConfusion h
  all_goals
    rename_i mscr hm hfill dscr de hde
    have ho := (Except.ok.inj h).symm
    subst ho
    constructor
    · simp
    · intro hne
      exact deltas_ne _ _ _ _ _ hde (by simpa using hne)

theorem eigCycle_exh (F : EigFns) (tol tl : ℚ) (nr msI : ℕ) (li ic : Bool)
    (s : ESt) (e : List ℚ) (x0 : List Vec) (i2 : CInfo) (oc2 : ℕ)
    (h : eigCycle F tol tl nr msI li ic s = .exh e x0 i2 oc2) :
    e ≠ [] ∧ x0.length = e.length := by
  unfold eigCycle at h
  split at h
  · exact CycRes.noConfusion h
  · rename_i o ho
    obtain ⟨hsh1, hsh2⟩ := eigSolve_shape F nr msI s o ho
    dsimp only [] at h
    split_ifs at h
    all_goals
      obtain ⟨he, hx, hde⟩ := eigTail_exh _ _ _ _ _ _ _ _ _ _ _ _ _ _ _ _ _ h
      subst he
      refine ⟨hsh2 hde, ?_⟩
      subst hx
      simp [assemble, hsh1]



theorem geCycle_exh (F : GeFns) (ty : ℕ) (tol tl : ℚ) (nr msI : ℕ)
    (li ic : Bool) (s : GeSt) (e : List ℚ) (x0 : List Vec) (i2 : CInfo)
    (oc2 : ℕ)
    (h : geCycle F ty tol tl nr msI li ic s = .exh e x0 i2 oc2) :
    e ≠ [] ∧ x0.length = e.length := by
  unfold geCycle at h
  split at h
  · exact CycRes.noConfusion h
  · rename_i o ho
    obtain ⟨hsh1, hsh2⟩ := geSolve_shape F ty nr msI s o ho
    dsimp only [] at h
    split_ifs at h
    all_goals
      obtain ⟨he, hx, hde⟩ := geTail_exh _ _ _ _ _ _ _ _ _ _ _ _ _ _ _ _ _ _ _ _ _ h
      subst he
      refine ⟨hsh2 hde, ?_⟩
      subst hx
      simp [assemble, hsh1]

theorem eigLoop_lindep (F : EigFns) (tol tl : ℚ) (nr msI : ℕ)
    (li ic : Bool) :
    ∀ (fuel : ℕ) (s : ESt) (tr : List CInfo) (st oc : ℕ),
      (eigLoop F tol tl nr msI li ic fuel s tr st oc).term = .lindep →
      (eigLoop F tol tl nr msI li ic fuel s tr st oc).finalE ≠ [] ∧
      (eigLoop F tol tl nr msI li ic fuel s tr st oc).finalX.length =
        (eigLoop F tol tl nr msI li ic fuel s tr st oc).finalE.length ∧
      (eigLoop F tol tl nr msI li ic fuel s tr st oc).res =
        fmtRes nr (eigLoop F tol tl nr msI li ic fuel s tr st oc).finalE
          (eigLoop F tol tl nr msI li ic fuel s tr st oc).finalX := by
  intro fuel
  induction fuel with
  | zero =>
    intro s tr st oc ht
    simp only [eigLoop] at ht ⊢
    split at ht
    · exact absurd ht (by simp)
    · exact absurd ht (by simp)
  | succ n ih =>
    intro s tr st oc ht
    simp only [eigLoop] at ht ⊢
    cases hc : eigCycle F tol tl nr msI li ic s with
    | crash oc2 => rw [hc] at ht; simp at ht
    | conv e x0 i2 oc2 => rw [hc] at ht; simp at ht
    | exh e x0 i2 oc2 =>
      obtain ⟨h1, h2⟩ := eigCycle_exh F tol tl nr msI li ic s e x0 i2 oc2 hc
      exact ⟨h1, h2, rfl⟩
    | next s2 i2 oc2 =>
      rw [hc] at ht
      exact ih s2 (tr ++ [i2]) (st + 1) (oc + oc2) ht



theorem geLoop_lindep (F : GeFns) (ty : ℕ) (tol tl : ℚ) (nr msI : ℕ)
    (li ic : Bool) :
    ∀ (fuel : ℕ) (s : GeSt) (tr : List CInfo) (st oc : ℕ),
      (geLoop F ty tol tl nr msI li ic fuel s tr st oc).term = .lindep →
      (geLoop F ty tol tl nr msI li ic fuel s tr st oc).finalE ≠ [] ∧
      (geLoop F ty tol tl nr msI li ic fuel s tr st oc).finalX.length =
        (geLoop F ty tol tl nr msI li ic fuel s tr st oc).finalE.length ∧
      (geLoop F ty tol tl nr msI li ic fuel s tr st oc).res =
        geFin F ty nr (geLoop F ty tol tl nr msI li ic fuel s tr st oc).finalE
          (geLoop F ty tol tl nr msI li ic fuel s tr st oc).finalX := by
  intro fuel
  induction fuel with
  | zero =>
    intro s tr st oc ht
    simp only [geLoop] at ht ⊢
    split at ht
    · exact absurd ht (by simp)
    · exact absurd ht (by simp)
  | succ n ih =>
    intro s tr st oc ht
    simp only [geLoop] at ht ⊢
    cases hc : geCycle F ty tol tl nr msI li ic s with
    | crash oc2 => rw [hc] at ht; simp at ht
    | conv e x0 i2 oc2 => rw [hc] at ht; simp at ht
    | exh e x0 i2 oc2 =>
      obtain ⟨h1, h2⟩ := geCycle_exh F ty tol tl nr msI li ic s e x0 i2 oc2 hc
      exact ⟨h1, h2, rfl⟩
    | next s2 i2 oc2 =>
      rw [hc] at ht
      exact ih s2 (tr ++ [i2]) (st + 1) (oc + oc2) ht

theorem gePost_ok (F : GeFns) (ty nr : ℕ) (x0 : List Vec)
    (h : ty ≠ 3 ∨ nr ≤ x0.length) :
    ∃ x1, gePost F ty nr x0 = some x1 ∧ x1.length = x0.length := by
  unfold gePost
  by_cases h3 : ty = 3
  · subst h3
    rcases h with h | h
    · exact absurd rfl h
    · rw [if_pos rfl, if_neg (by omega)]
      refine ⟨_, rfl, ?_⟩
      simp
      omega
  · rw [if_neg h3]
    exact ⟨x0, rfl, rfl⟩

theorem fmtRes_some (nr : ℕ) (e : List ℚ) (x0 : List Vec)
    (he : e ≠ []) (hx : x0.length = e.length) :
    ∃ o, fmtRes nr e x0 = some o ∧
      (nr = 1 → ∃ a b, o = .one a b) ∧
      (nr ≠ 1 → o = .many e x0) := by
  unfold fmtRes
  cases e with
  | nil => exact absurd rfl he
  | cons e0 et =>
    cases x0 with
    | nil => simp at hx
    | cons v0 vt =>
      by_cases h1 : nr = 1
      · subst h1
        rw [if_pos rfl]
        exact ⟨.one e0 v0, rfl, fun _ => ⟨e0, v0, rfl⟩, fun h => absurd rfl h⟩
      · rw [if_neg h1]
        exact ⟨.many (e0 :: et) (v0 :: vt), rfl,
          fun h => absurd h h1, fun _ => rfl⟩

theorem assemble_length (xs : List Vec) (cols : List (List ℚ)) (sp : ℕ) :
    (assemble xs cols sp).length = cols.length := by
  simp [assemble]

theorem eigTail_conv (F : EigFns) (tol tl : ℚ) (msI : ℕ)
    (xs2 ax2 : List Vec) (h2 : Mat2) (sp : ℕ) (eN : List ℚ)
    (x0n ax0n : List Vec) (info : CInfo) (oc : ℕ) (e : List ℚ)
    (x0 : List Vec) (i2 : CInfo) (oc2 : ℕ)
    (h : eigTail F tol tl msI xs2 ax2 h2 sp eN x0n ax0n info oc =
      .conv e x0 i2 oc2) :
    e = eN ∧ x0 = x0n := by
  unfold eigTail at h
  dsimp only [] at h
  split_ifs at h
  all_goals try exact CycRes.noConfusion h
  all_goals
    obtain ⟨h1, h2a, h3, h4⟩ := CycRes.conv.inj h
    exact ⟨h1.symm, h2a.symm⟩

theorem eigTail_next (F : EigFns) (tol tl : ℚ) (msI : ℕ)
    (xs2 ax2 : List Vec) (h2 : Mat2) (sp : ℕ) (eN : List ℚ)
    (x0n ax0n : List Vec) (info : CInfo) (oc : ℕ) (s2 : ESt)
    (i2 : CInfo) (oc2 : ℕ)
    (h : eigTail F tol tl msI xs2 ax2 h2 sp eN x0n ax0n info oc =
      .next s2 i2 oc2) :
    s2.e = eN ∧ s2.x0 = x0n := by
  unfold eigTail at h
  dsimp only [] at h
  split_ifs at h
  all_goals try exact CycRes.noConfusion h
  all_goals
    obtain ⟨h1, h2a, h3⟩ := CycRes.next.inj h
    rw [← h1]
    exact ⟨rfl, rfl⟩

theorem geTail_conv (F : GeFns) (ty : ℕ) (tol tl : ℚ) (msI : ℕ)
    (xs2 ax2 bx2 : List Vec) (h2 s2m : Mat2) (sp : ℕ) (eN : List ℚ)
    (x0n ax0n bx0n : List Vec) (info : CInfo) (oc : ℕ) (e : List ℚ)
    (x0 : List Vec) (i2 : CInfo) (oc2 : ℕ)
    (h : geTail F ty tol tl msI xs2 ax2 bx2 h2 s2m sp eN x0n ax0n bx0n info oc =
      .conv e x0 i2 oc2) :
    e = eN ∧ x0 = x0n := by
  unfold geTail at h
  dsimp only [] at h
  split_ifs at h
  all_goals try exact CycRes.noConfusion h
  all_goals
    obtain ⟨h1, h2a, h3, h4⟩ := CycRes.conv.inj h
    exact ⟨h1.symm, h2a.symm⟩

theorem geTail_next (F : GeFns) (ty : ℕ) (tol tl : ℚ) (msI : ℕ)
    (xs2 ax2 bx2 : List Vec) (h2 s2m : Mat2) (sp : ℕ) (eN : List ℚ)
    (x0n ax0n bx0n : List Vec) (info : CInfo) (oc : ℕ) (s2 : GeSt)
    (i2 : CInfo) (oc2 : ℕ)
    (h : geTail F ty tol tl msI xs2 ax2 bx2 h2 s2m sp eN x0n ax0n bx0n info oc =
      .next s2 i2 oc2) :
    s2.e = eN ∧ s2.x0 = x0n := by
  unfold geTail at h
  dsimp only [] at h
  split_ifs at h
  all_goals try exact CycRes.noConfusion h
  all_goals
    obtain ⟨h1, h2a, h3⟩ := CycRes.next.inj h
    rw [← h1]
    exact ⟨rfl, rfl⟩

theorem eigSolve_c1 (F : EigFns) (nr msI : ℕ) (s : ESt) (o : ESolveOut)
    (hp : F.pick = pickeig) (h : eigSolve F nr msI s = .ok o) :
    o.eNew.length ≤ nr ∧ List.Pairwise (· ≤ ·) o.eNew := by
  unfold eigSolve at h
  dsimp only [] at h
  split_ifs at h
  all_goals repeat' split at h
  all_goals try exact Except.noConfusion h
  all_goals
    rename_i mscr hm hfill dscr de hde
    have ho := (Except.ok.inj h).symm
    subst ho
    dsimp only []
    rw [hp]
    constructor
    · simp only [List.length_map]
      rw [pickeig_take]
      exact List.length_take_le _ _
    · rw [List.map_map]
      exact List.pairwise_map.mpr (pickeig_sorted _ _ _)

theorem geSolve_c1 (F : GeFns) (ty nr msI : ℕ) (s : GeSt) (o : GSolveOut)
    (hs : ∀ a b, List.Pairwise (· ≤ ·) (F.eighO a b).1)
    (h : geSolve F ty nr msI s = .ok o) :
    o.eNew.length ≤ nr ∧ List.Pairwise (· ≤ ·) o.eNew := by
  unfold geSolve at h
  dsimp only [] at h
  split_ifs at h
  all_goals repeat' split at h
  all_goals try exact Except.noConfusion h
  all_goals
    rename_i mscr hm hfill dscr de hde
    have ho := (Except.ok.inj h).symm
    subst ho
    dsimp only []
    constructor
    · exact List.length_take_le _ _
    · exact List.Pairwise.sublist (List.take_sublist _ _) (hs _ _)



theorem fmtRes_cases (nr : ℕ) (e : List ℚ) (x0 : List Vec) (o : Outcome)
    (h : fmtRes nr e x0 = some o) :
    (nr = 1 → ∃ a b, o = Outcome.one a b) ∧
    (nr ≠ 1 → o = Outcome.many e x0) := by
  unfold fmtRes at h
  split at h
  · rename_i h1
    refine ⟨fun _ => ?_, fun hn => absurd h1 hn⟩
    split at h
    · exact ⟨_, _, (Option.some.inj h).symm⟩
    · exact Option.noConfusion h
  · rename_i h1
    exact ⟨fun h1' => absurd h1' h1, fun _ => (Option.some.inj h).symm⟩

theorem gePost_len (F : GeFns) (ty nr : ℕ) (x0 x1 : List Vec)
    (h : gePost F ty nr x0 = some x1) : x1.length = x0.length := by
  unfold gePost at h
  split_ifs at h with h3 hshort
  all_goals
    first
      | exact Option.noConfusion h
      | (rw [← Option.some.inj h]; try simp; try omega)

theorem eigCycle_c1 (F : EigFns) (tol tl : ℚ) (nr msI : ℕ) (li ic : Bool)
    (s : ESt) (hp : F.pick = pickeig) :
    (∀ e x0 i oc, eigCycle F tol tl nr msI li ic s = .conv e x0 i oc →
      e.length ≤ nr ∧ List.Pairwise (· ≤ ·) e ∧ x0.length = e.length) ∧
    (∀ e x0 i oc, eigCycle F tol tl nr msI li ic s = .exh e x0 i oc →
      e.length ≤ nr ∧ List.Pairwise (· ≤ ·) e ∧ x0.length = e.length) ∧
    (∀ s2 i oc, eigCycle F tol tl nr msI li ic s = .next s2 i oc →
      s2.e.length ≤ nr ∧ List.Pairwise (· ≤ ·) s2.e ∧
        s2.x0.length = s2.e.length) := by
  unfold eigCycle
  cases ho : eigSolve F nr msI s with
  | error oc1 =>
    exact ⟨fun _ _ _ _ h => CycRes.noConfusion h,
      fun _ _ _ _ h => CycRes.noConfusion h,
      fun _ _ _ h => CycRes.noConfusion h⟩
  | ok o =>
    obtain ⟨hvs, _⟩ := eigSolve_shape F nr msI s o ho
    obtain ⟨hlen, hsort⟩ := eigSolve_c1 F nr msI s o hp ho
    dsimp only []
    refine ⟨fun e x0 i oc h => ?_, fun e x0 i oc h => ?_,
      fun s2 i oc h => ?_⟩
    · obtain ⟨he, hx⟩ := eigTail_conv _ _ _ _ _ _ _ _ _ _ _ _ _ _ _ _ _ h
      subst he
      subst hx
      refine ⟨hlen, hsort, ?_⟩
      split <;> (dsimp only []; rw [assemble_length]; exact hvs)
    · obtain ⟨he, hx, _⟩ := eigTail_exh _ _ _ _ _ _ _ _ _ _ _ _ _ _ _ _ _ h
      subst he
      subst hx
      refine ⟨hlen, hsort, ?_⟩
      split <;> (dsimp only []; rw [assemble_length]; exact hvs)
    · obtain ⟨he, hx⟩ := eigTail_next _ _ _ _ _ _ _ _ _ _ _ _ _ _ _ _ h
      rw [he, hx]
      refine ⟨hlen, hsort, ?_⟩
      split <;> (dsimp only []; rw [assemble_length]; exact hvs)

theorem geCycle_c1 (F : GeFns) (ty : ℕ) (tol tl : ℚ) (nr msI : ℕ)
    (li ic : Bool) (s : GeSt)
    (hs : ∀ a b, List.Pairwise (· ≤ ·) (F.eighO a b).1) :
    (∀ e x0 i oc, geCycle F ty tol tl nr msI li ic s = .conv e x0 i oc →
      e.length ≤ nr ∧ List.Pairwise (· ≤ ·) e ∧ x0.length = e.length) ∧
    (∀ e x0 i oc, geCycle F ty tol tl nr msI li ic s = .exh e x0 i oc →
      e.length ≤ nr ∧ List.Pairwise (· ≤ ·) e ∧ x0.length = e.length) ∧
    (∀ s2 i oc, geCycle F ty tol tl nr msI li ic s = .next s2 i oc →
      s2.e.length ≤ nr ∧ List.Pairwise (· ≤ ·) s2.e ∧
        s2.x0.length = s2.e.length) := by
  unfold geCycle
  cases ho : geSolve F ty nr msI s with
  | error oc1 =>
    exact ⟨fun _ _ _ _ h => CycRes.noConfusion h,
      fun _ _ _ _ h => CycRes.noConfusion h,
      fun _ _ _ h => CycRes.noConfusion h⟩
  | ok o =>
    obtain ⟨hvs, _⟩ := geSolve_shape F ty nr msI s o ho
    obtain ⟨hlen, hsort⟩ := geSolve_c1 F ty nr msI s o hs ho
    dsimp only []
    refine ⟨fun e x0 i oc h => ?_, fun e x0 i oc h => ?_,
      fun s2 i oc h => ?_⟩
    · obtain ⟨he, hx⟩ := geTail_conv _ _ _ _ _ _ _ _ _ _ _ _ _ _ _ _ _ _ _ _ _ h
      subst he
      subst hx
      refine ⟨hlen, hsort, ?_⟩
      split <;> (dsimp only []; rw [assemble_length]; exact hvs)
    · obtain ⟨he, hx, _⟩ := geTail_exh _ _ _ _ _ _ _ _ _ _ _ _ _ _ _ _ _ _ _ _ _ h
      subst he
      subst hx
      refine ⟨hlen, hsort, ?_⟩
      split <;> (dsimp only []; rw [assemble_length]; exact hvs)
    · obtain ⟨he, hx⟩ := geTail_next _ _ _ _ _ _ _ _ _ _ _ _ _ _ _ _ _ _ _ _ h
      rw [he, hx]
      refine ⟨hlen, hsort, ?_⟩
      split <;> (dsimp only []; rw [assemble_length]; exact hvs)



theorem eigLoop_c1 (F : EigFns) (tol tl : ℚ) (nr msI : ℕ) (li ic : Bool)
    (hp : F.pick = pickeig) :
    ∀ (fuel : ℕ) (s : ESt) (tr : List CInfo) (st oc : ℕ),
      (st ≠ 0 → s.e.length ≤ nr ∧ List.Pairwise (· ≤ ·) s.e ∧
        s.x0.length = s.e.length) →
      ∀ o, (eigLoop F tol tl nr msI li ic fuel s tr st oc).res = some o →
      (nr = 1 → ∃ a b, o = Outcome.one a b) ∧
      (nr ≠ 1 → ∃ es xs, o = Outcome.many es xs ∧ es.length = xs.length ∧
        es.length ≤ nr ∧ List.Pairwise (· ≤ ·) es) := by
  intro fuel
  induction fuel with
  | zero =>
    intro s tr st oc hs o ho
    simp only [eigLoop] at ho
    split at ho
    · exact Option.noConfusion ho
    · rename_i hst
      obtain ⟨h1, h2, h3⟩ := hs hst
      obtain ⟨c1, c2⟩ := fmtRes_cases nr s.e s.x0 o ho
      exact ⟨c1, fun hn => ⟨s.e, s.x0, c2 hn, h3.symm, h1, h2⟩⟩
  | succ n ih =>
    intro s tr st oc hs o ho
    simp only [eigLoop] at ho
    cases hc : eigCycle F tol tl nr msI li ic s with
    | crash oc2 => rw [hc] at ho; simp at ho
    | conv e x0 i oc2 =>
      rw [hc] at ho
      obtain ⟨h1, h2, h3⟩ :=
        (eigCycle_c1 F tol tl nr msI li ic s hp).1 e x0 i oc2 hc
      obtain ⟨c1, c2⟩ := fmtRes_cases nr e x0 o ho
      exact ⟨c1, fun hn => ⟨e, x0, c2 hn, h3.symm, h1, h2⟩⟩
    | exh e x0 i oc2 =>
      rw [hc] at ho
      obtain ⟨h1, h2, h3⟩ :=
        (eigCycle_c1 F tol tl nr msI li ic s hp).2.1 e x0 i oc2 hc
      obtain ⟨c1, c2⟩ := fmtRes_cases nr e x0 o ho
      exact ⟨c1, fun hn => ⟨e, x0, c2 hn, h3.symm, h1, h2⟩⟩
    | next s2 i oc2 =>
      rw [hc] at ho
      refine ih s2 (tr ++ [i]) (st + 1) (oc + oc2) ?_ o ho
      intro _
      exact (eigCycle_c1 F tol tl nr msI li ic s hp).2.2 s2 i oc2 hc

theorem geFin_cases (F : GeFns) (ty nr : ℕ) (e : List ℚ) (x0 : List Vec)
    (o : Outcome) (hlen : x0.length = e.length)
    (h : geFin F ty nr e x0 = some o) :
    (nr = 1 → ∃ a b, o = Outcome.one a b) ∧
    (nr ≠ 1 → ∃ xs, o = Outcome.many e xs ∧ xs.length = e.length) := by
  unfold geFin at h
  split at h
  · exact Option.noConfusion h
  · rename_i x0p hx0p
    have hl2 : x0p.length = e.length := by
      rw [gePost_len F ty nr x0 x0p hx0p]; exact hlen
    obtain ⟨c1, c2⟩ := fmtRes_cases nr e x0p o h
    exact ⟨c1, fun hn => ⟨x0p, c2 hn, hl2⟩⟩

theorem geLoop_c1 (F : GeFns) (ty : ℕ) (tol tl : ℚ) (nr msI : ℕ)
    (li ic : Bool)
    (hs : ∀ a b, List.Pairwise (· ≤ ·) (F.eighO a b).1) :
    ∀ (fuel : ℕ) (s : GeSt) (tr : List CInfo) (st oc : ℕ),
      (st ≠ 0 → s.e.length ≤ nr ∧ List.Pairwise (· ≤ ·) s.e ∧
        s.x0.length = s.e.length) →
      ∀ o, (geLoop F ty tol tl nr msI li ic fuel s tr st oc).res = some o →
      (nr = 1 → ∃ a b, o = Outcome.one a b) ∧
      (nr ≠ 1 → ∃ es xs, o = Outcome.many es xs ∧ es.length = xs.length ∧
        es.length ≤ nr ∧ List.Pairwise (· ≤ ·) es) := by
  intro fuel
  induction fuel with
  | zero =>
    intro s tr st oc hst o ho
    simp only [geLoop] at ho
    split at ho
    · exact Option.noConfusion ho
    · rename_i hstn
      obtain ⟨h1, h2, h3⟩ := hst hstn
      obtain ⟨c1, c2⟩ := geFin_cases F ty nr s.e s.x0 o h3 ho
      exact ⟨c1, fun hn => by
        obtain ⟨xs, hxs, hxl⟩ := c2 hn
        exact ⟨s.e, xs, hxs, hxl.symm, h1, h2⟩⟩
  | succ n ih =>
    intro s tr st oc hst o ho
    simp only [geLoop] at ho
    cases hc : geCycle F ty tol tl nr msI li ic s with
    | crash oc2 => rw [hc] at ho; simp at ho
    | conv e x0 i oc2 =>
      rw [hc] at ho
      obtain ⟨h1, h2, h3⟩ :=
        (geCycle_c1 F ty tol tl nr msI li ic s hs).1 e x0 i oc2 hc
      obtain ⟨c1, c2⟩ := geFin_cases F ty nr e x0 o h3 ho
      exact ⟨c1, fun hn => by
        obtain ⟨xs, hxs, hxl⟩ := c2 hn
        exact ⟨e, xs, hxs, hxl.symm, h1, h2⟩⟩
    | exh e x0 i oc2 =>
      rw [hc] at ho
      obtain ⟨h1, h2, h3⟩ :=
        (geCycle_c1 F ty tol tl nr msI li ic s hs).2.1 e x0 i oc2 hc
      obtain ⟨c1, c2⟩ := geFin_cases F ty nr e x0 o h3 ho
      exact ⟨c1, fun hn => by
        obtain ⟨xs, hxs, hxl⟩ := c2 hn
        exact ⟨e, xs, hxs, hxl.symm, h1, h2⟩⟩
    | next s2 i oc2 =>
      rw [hc] at ho
      refine ih s2 (tr ++ [i]) (st + 1) (oc + oc2) ?_ o ho
      intro _
      exact (geCycle_c1 F ty tol tl nr msI li ic s hs).2.2 s2 i oc2 hc

theorem qr_ne_nil {K : Type} [LinearOrderedField K] (sqrt : K → K)
    (xs : List (List K)) (h : xs ≠ []) : qr sqrt xs ≠ [] := by
  cases xs with
  | nil => exact absurd rfl h
  | cons x rest =>
    unfold qr
    have : ∀ (l : List (List K)) (qs : List (List K)), qs ≠ [] →
        l.foldl (fun qs xi =>
          let r := gsProj qs xi
          let n := normV sqrt r
          if qrThresh < n then qs ++ [divV r n] else qs) qs ≠ [] := by
      intro l
      induction l with
      | nil => intro qs hq; exact hq
      | cons a t ih =>
        intro qs hq
        refine ih _ ?_
        dsimp only []
        split
        · simp
        · exact hq
    exact this rest [divV x (normV sqrt x)] (by simp)

theorem eigSolve_first_oc (F : EigFns) (nr msI : ℕ) (s : ESt)
    (hf : s.fresh = true) (hx : s.x0 ≠ []) :
    ∀ oc, eigSolve F nr msI s = .error oc → 1 ≤ oc := by
  intro oc h
  unfold eigSolve at h
  dsimp only [] at h
  split_ifs at h with h0
  · exfalso
    have hq : (eigFresh F nr s).xt = qr F.sqrt s.x0 := by
      simp [eigFresh, hf]
    rw [hq] at h0
    exact qr_ne_nil F.sqrt s.x0 hx (List.length_eq_zero.mp h0)
  all_goals repeat' split at h
  all_goals first
    | exact Except.noConfusion h
    | (have h2 := Except.error.inj h; omega)
    | (have h2 := Except.error.inj h; split at h2 <;> omega)

theorem geSolve_first_oc (F : GeFns) (ty nr msI : ℕ) (s : GeSt)
    (hf : s.fresh = true) (hx : s.x0 ≠ []) :
    ∀ oc, geSolve F ty nr msI s = .error oc → 1 ≤ oc := by
  intro oc h
  unfold geSolve at h
  dsimp only [] at h
  split_ifs at h with h0
  · exfalso
    have hq : (geFresh F nr s).xt = qr F.sqrt s.x0 := by
      simp [geFresh, hf]
    rw [hq] at h0
    exact qr_ne_nil F.sqrt s.x0 hx (List.length_eq_zero.mp h0)
  all_goals repeat' split at h
  all_goals first
    | exact Except.noConfusion h
    | (have h2 := Except.error.inj h; omega)
    | (have h2 := Except.error.inj h; split at h2 <;> omega)

theorem geSolve_oc0 (F : GeFns) (ty nr msI : ℕ) (s : GeSt) (o : GSolveOut)
    (h : geSolve F ty nr msI s = .ok o) : 1 ≤ o.oc0 := by
  unfold geSolve at h
  dsimp only [] at h
  split_ifs at h
  all_goals repeat' split at h
  all_goals try exact Except.noConfusion h
  all_goals
    rename_i mscr hm hfill dscr de hde
    rw [← (Except.ok.inj h)]
    try dsimp only []
    try first
      | omega
      | (split <;> omega)

theorem eigTail_oc (F : EigFns) (tol tl : ℚ) (msI : ℕ)
    (xs2 ax2 : List Vec) (h2 : Mat2) (sp : ℕ) (eN : List ℚ)
    (x0n ax0n : List Vec) (info : CInfo) (oc : ℕ) :
    (∀ oc2, eigTail F tol tl msI xs2 ax2 h2 sp eN x0n ax0n info oc =
        .crash oc2 → oc2 = oc) ∧
    (∀ e x0 i oc2, eigTail F tol tl msI xs2 ax2 h2 sp eN x0n ax0n info oc =
        .conv e x0 i oc2 → oc2 = oc) ∧
    (∀ e x0 i oc2, eigTail F tol tl msI xs2 ax2 h2 sp eN x0n ax0n info oc =
        .exh e x0 i oc2 → oc2 = oc) ∧
    (∀ s2 i oc2, eigTail F tol tl msI xs2 ax2 h2 sp eN x0n ax0n info oc =
        .next s2 i oc2 → oc2 = oc) := by
  refine ⟨fun oc2 h => ?_, fun e x0 i oc2 h => ?_, fun e x0 i oc2 h => ?_,
    fun s2 i oc2 h => ?_⟩
  all_goals unfold eigTail at h
  all_goals dsimp only [] at h
  all_goals split_ifs at h
  all_goals first
    | exact CycRes.noConfusion h
    | exact (CycRes.crash.inj h).symm
    | exact ((CycRes.conv.inj h).2.2.2).symm
    | exact ((CycRes.exh.inj h).2.2.2).symm
    | exact ((CycRes.next.inj h).2.2).symm

set_option maxHeartbeats 1000000 in
theorem geTail_oc (F : GeFns) (ty : ℕ) (tol tl : ℚ) (msI : ℕ)
    (xs2 ax2 bx2 : List Vec) (h2 s2m : Mat2) (sp : ℕ) (eN : List ℚ)
    (x0n ax0n bx0n : List Vec) (info : CInfo) (oc : ℕ) :
    (∀ oc2, geTail F ty tol tl msI xs2 ax2 bx2 h2 s2m sp eN x0n ax0n bx0n
        info oc = .crash oc2 → oc2 = oc) ∧
    (∀ e x0 i oc2, geTail F ty tol tl msI xs2 ax2 bx2 h2 s2m sp eN x0n ax0n
        bx0n info oc = .conv e x0 i oc2 → oc2 = oc) ∧
    (∀ e x0 i oc2, geTail F ty tol tl msI xs2 ax2 bx2 h2 s2m sp eN x0n ax0n
        bx0n info oc = .exh e x0 i oc2 → oc2 = oc) ∧
    (∀ s2 i oc2, geTail F ty tol tl msI xs2 ax2 bx2 h2 s2m sp eN x0n ax0n
        bx0n info oc = .next s2 i oc2 → oc2 = oc) := by
  refine ⟨fun oc2 h => ?_, fun e x0 i oc2 h => ?_, fun e x0 i oc2 h => ?_,
    fun s2 i oc2 h => ?_⟩
  all_goals unfold geTail at h
  all_goals dsimp only [] at h
  all_goals split_ifs at h
  all_goals first
    | exact CycRes.noConfusion h
    | exact (CycRes.crash.inj h).symm
    | exact ((CycRes.conv.inj h).2.2.2).symm
    | exact ((CycRes.exh.inj h).2.2.2).symm
    | exact ((CycRes.next.inj h).2.2).symm



theorem eigCycle_oc (F : EigFns) (tol tl : ℚ) (nr msI : ℕ) (li ic : Bool)
    (s : ESt) (hf : s.fresh = true) (hx : s.x0 ≠ []) :
    (∀ oc2, eigCycle F tol tl nr msI li ic s = .crash oc2 → 1 ≤ oc2) ∧
    (∀ e x0 i oc2, eigCycle F tol tl nr msI li ic s = .conv e x0 i oc2 →
      1 ≤ oc2) ∧
    (∀ e x0 i oc2, eigCycle F tol tl nr msI li ic s = .exh e x0 i oc2 →
      1 ≤ oc2) ∧
    (∀ s2 i oc2, eigCycle F tol tl nr msI li ic s = .next s2 i oc2 →
      1 ≤ oc2) := by
  unfold eigCycle
  cases ho : eigSolve F nr msI s with
  | error oc1 =>
    have h1 := eigSolve_first_oc F nr msI s hf hx oc1 ho
    refine ⟨fun oc2 h => ?_, fun e x0 i oc2 h => CycRes.noConfusion h,
      fun e x0 i oc2 h => CycRes.noConfusion h,
      fun s2 i oc2 h => CycRes.noConfusion h⟩
    rw [← CycRes.crash.inj h]
    exact h1
  | ok o =>
    dsimp only []
    split
    · refine ⟨fun oc2 h => ?_, fun e x0 i oc2 h => ?_,
        fun e x0 i oc2 h => ?_, fun s2 i oc2 h => ?_⟩
      · have := (eigTail_oc _ _ _ _ _ _ _ _ _ _ _ _ _).1 oc2 h
        dsimp only [] at this
        try split at this
        all_goals omega
      · have := (eigTail_oc _ _ _ _ _ _ _ _ _ _ _ _ _).2.1 e x0 i oc2 h
        dsimp only [] at this
        try split at this
        all_goals omega
      · have := (eigTail_oc _ _ _ _ _ _ _ _ _ _ _ _ _).2.2.1 e x0 i oc2 h
        dsimp only [] at this
        try split at this
        all_goals omega
      · have := (eigTail_oc _ _ _ _ _ _ _ _ _ _ _ _ _).2.2.2 s2 i oc2 h
        dsimp only [] at this
        try split at this
        all_goals omega
    · refine ⟨fun oc2 h => ?_, fun e x0 i oc2 h => ?_,
        fun e x0 i oc2 h => ?_, fun s2 i oc2 h => ?_⟩
      · have := (eigTail_oc _ _ _ _ _ _ _ _ _ _ _ _ _).1 oc2 h
        dsimp only [] at this
        try split at this
        all_goals omega
      · have := (eigTail_oc _ _ _ _ _ _ _ _ _ _ _ _ _).2.1 e x0 i oc2 h
        dsimp only [] at this
        try split at this
        all_goals omega
      · have := (eigTail_oc _ _ _ _ _ _ _ _ _ _ _ _ _).2.2.1 e x0 i oc2 h
        dsimp only [] at this
        try split at this
        all_goals omega
      · have := (eigTail_oc _ _ _ _ _ _ _ _ _ _ _ _ _).2.2.2 s2 i oc2 h
        dsimp only [] at this
        try split at this
        all_goals omega

theorem geCycle_oc (F : GeFns) (ty : ℕ) (tol tl : ℚ) (nr msI : ℕ)
    (li ic : Bool) (s : GeSt) (hf : s.fresh = true) (hx : s.x0 ≠ []) :
    (∀ oc2, geCycle F ty tol tl nr msI li ic s = .crash oc2 → 1 ≤ oc2) ∧
    (∀ e x0 i oc2, geCycle F ty tol tl nr msI li ic s = .conv e x0 i oc2 →
      1 ≤ oc2) ∧
    (∀ e x0 i oc2, geCycle F ty tol tl nr msI li ic s = .exh e x0 i oc2 →
      1 ≤ oc2) ∧
    (∀ s2 i oc2, geCycle F ty tol tl nr msI li ic s = .next s2 i oc2 →
      1 ≤ oc2) := by
  unfold geCycle
  cases ho : geSolve F ty nr msI s with
  | error oc1 =>
    have h1 := geSolve_first_oc F ty nr msI s hf hx oc1 ho
    refine ⟨fun oc2 h => ?_, fun e x0 i oc2 h => CycRes.noConfusion h,
      fun e x0 i oc2 h => CycRes.noConfusion h,
      fun s2 i oc2 h => CycRes.noConfusion h⟩
    rw [← CycRes.crash.inj h]
    exact h1
  | ok o =>
    have h0 := geSolve_oc0 F ty nr msI s o ho
    dsimp only []
    split
    · refine ⟨fun oc2 h => ?_, fun e x0 i oc2 h => ?_,
        fun e x0 i oc2 h => ?_, fun s2 i oc2 h => ?_⟩
      · have := (geTail_oc _ _ _ _ _ _ _ _ _ _ _ _ _ _ _ _ _).1 oc2 h
        dsimp only [] at this
        try split at this
        all_goals omega
      · have := (geTail_oc _ _ _ _ _ _ _ _ _ _ _ _ _ _ _ _ _).2.1 e x0 i oc2 h
        dsimp only [] at this
        try split at this
        all_goals omega
      · have := (geTail_oc _ _ _ _ _ _ _ _ _ _ _ _ _ _ _ _ _).2.2.1 e x0 i oc2 h
        dsimp only [] at this
        try split at this
        all_goals omega
      · have := (geTail_oc _ _ _ _ _ _ _ _ _ _ _ _ _ _ _ _ _).2.2.2 s2 i oc2 h
        dsimp only [] at this
        try split at this
        all_goals omega
    · refine ⟨fun oc2 h => ?_, fun e x0 i oc2 h => ?_,
        fun e x0 i oc2 h => ?_, fun s2 i oc2 h => ?_⟩
      · have := (geTail_oc _ _ _ _ _ _ _ _ _ _ _ _ _ _ _ _ _).1 oc2 h
        dsimp only [] at this
        try split at this
        all_goals omega
      · have := (geTail_oc _ _ _ _ _ _ _ _ _ _ _ _ _ _ _ _ _).2.1 e x0 i oc2 h
        dsimp only [] at this
        try split at this
        all_goals omega
      · have := (geTail_oc _ _ _ _ _ _ _ _ _ _ _ _ _ _ _ _ _).2.2.1 e x0 i oc2 h
        dsimp only [] at this
        try split at this
        all_goals omega
      · have := (geTail_oc _ _ _ _ _ _ _ _ _ _ _ _ _ _ _ _ _).2.2.2 s2 i oc2 h
        dsimp only [] at this
        try split at this
        all_goals omega



theorem eigLoop_mono (F : EigFns) (tol tl : ℚ) (nr msI : ℕ)
    (li ic : Bool) :
    ∀ (fuel : ℕ) (s : ESt) (tr : List CInfo) (st oc : ℕ),
      st ≤ (eigLoop F tol tl nr msI li ic fuel s tr st oc).started ∧
      oc ≤ (eigLoop F tol tl nr msI li ic fuel s tr st oc).opCalls := by
  intro fuel
  induction fuel with
  | zero =>
    intro s tr st oc
    simp only [eigLoop]
    split <;> exact ⟨le_refl _, le_refl _⟩
  | succ n ih =>
    intro s tr st oc
    simp only [eigLoop]
    cases eigCycle F tol tl nr msI li ic s with
    | crash oc2 => exact ⟨by dsimp only []; omega, by dsimp only []; omega⟩
    | conv e x0 i oc2 => exact ⟨by dsimp only []; omega, by dsimp only []; omega⟩
    | exh e x0 i oc2 => exact ⟨by dsimp only []; omega, by dsimp only []; omega⟩
    | next s2 i oc2 =>
      obtain ⟨h1, h2⟩ := ih s2 (tr ++ [i]) (st + 1) (oc + oc2)
      exact ⟨by dsimp only []; omega, by dsimp only []; omega⟩

theorem geLoop_mono (F : GeFns) (ty : ℕ) (tol tl : ℚ) (nr msI : ℕ)
    (li ic : Bool) :
    ∀ (fuel : ℕ) (s : GeSt) (tr : List CInfo) (st oc : ℕ),
      st ≤ (geLoop F ty tol tl nr msI li ic fuel s tr st oc).started ∧
      oc ≤ (geLoop F ty tol tl nr msI li ic fuel s tr st oc).opCalls := by
  intro fuel
  induction fuel with
  | zero =>
    intro s tr st oc
    simp only [geLoop]
    split
    · exact ⟨le_refl _, le_refl _⟩
    · exact ⟨le_refl _, by dsimp only []; omega⟩
  | succ n ih =>
    intro s tr st oc
    simp only [geLoop]
    cases geCycle F ty tol tl nr msI li ic s with
    | crash oc2 => exact ⟨by dsimp only []; omega, by dsimp only []; omega⟩
    | conv e x0 i oc2 => exact ⟨by dsimp only []; omega, by dsimp only []; omega⟩
    | exh e x0 i oc2 => exact ⟨by dsimp only []; omega, by dsimp only []; omega⟩
    | next s2 i oc2 =>
      obtain ⟨h1, h2⟩ := ih s2 (tr ++ [i]) (st + 1) (oc + oc2)
      exact ⟨by dsimp only []; omega, by dsimp only []; omega⟩

theorem eigLoop_c7 (F : EigFns) (tol tl : ℚ) (nr msI : ℕ) (li ic : Bool)
    (fuel : ℕ) (s : ESt) (tr : List CInfo) (st oc : ℕ)
    (hf : s.fresh = true) (hx : s.x0 ≠ []) (h1 : 1 ≤ fuel) :
    st + 1 ≤ (eigLoop F tol tl nr msI li ic fuel s tr st oc).started ∧
    oc + 1 ≤ (eigLoop F tol tl nr msI li ic fuel s tr st oc).opCalls := by
  cases fuel with
  | zero => omega
  | succ n =>
    simp only [eigLoop]
    cases hc : eigCycle F tol tl nr msI li ic s with
    | crash oc2 =>
      have := (eigCycle_oc F tol tl nr msI li ic s hf hx).1 oc2 hc
      exact ⟨by dsimp only []; omega, by dsimp only []; omega⟩
    | conv e x0 i oc2 =>
      have := (eigCycle_oc F tol tl nr msI li ic s hf hx).2.1 e x0 i oc2 hc
      exact ⟨by dsimp only []; omega, by dsimp only []; omega⟩
    | exh e x0 i oc2 =>
      have := (eigCycle_oc F tol tl nr msI li ic s hf hx).2.2.1 e x0 i oc2 hc
      exact ⟨by dsimp only []; omega, by dsimp only []; omega⟩
    | next s2 i oc2 =>
      have hoc := (eigCycle_oc F tol tl nr msI li ic s hf hx).2.2.2 s2 i oc2 hc
      obtain ⟨h2, h3⟩ := eigLoop_mono F tol tl nr msI li ic n s2
        (tr ++ [i]) (st + 1) (oc + oc2)
      exact ⟨by dsimp only []; omega, by dsimp only []; omega⟩

theorem geLoop_c7 (F : GeFns) (ty : ℕ) (tol tl : ℚ) (nr msI : ℕ)
    (li ic : Bool) (fuel : ℕ) (s : GeSt) (tr : List CInfo) (st oc : ℕ)
    (hf : s.fresh = true) (hx : s.x0 ≠ []) (h1 : 1 ≤ fuel) :
    st + 1 ≤ (geLoop F ty tol tl nr msI li ic fuel s tr st oc).started ∧
    oc + 1 ≤ (geLoop F ty tol tl nr msI li ic fuel s tr st oc).opCalls := by
  cases fuel with
  | zero => omega
  | succ n =>
    simp only [geLoop]
    cases hc : geCycle F ty tol tl nr msI li ic s with
    | crash oc2 =>
      have := (geCycle_oc F ty tol tl nr msI li ic s hf hx).1 oc2 hc
      exact ⟨by dsimp only []; omega, by dsimp only []; omega⟩
    | conv e x0 i oc2 =>
      have := (geCycle_oc F ty tol tl nr msI li ic s hf hx).2.1 e x0 i oc2 hc
      exact ⟨by dsimp only []; omega, by dsimp only []; omega⟩
    | exh e x0 i oc2 =>
      have := (geCycle_oc F ty tol tl nr msI li ic s hf hx).2.2.1 e x0 i oc2 hc
      exact ⟨by dsimp only []; omega, by dsimp only []; omega⟩
    | next s2 i oc2 =>
      have hoc := (geCycle_oc F ty tol tl nr msI li ic s hf hx).2.2.2 s2 i oc2 hc
      obtain ⟨h2, h3⟩ := geLoop_mono F ty tol tl nr msI li ic n s2
        (tr ++ [i]) (st + 1) (oc + oc2)
      exact ⟨by dsimp only []; omega, by dsimp only []; omega⟩

theorem dotL_nil_right {K : Type} [Field K] (a : List K) : dotL a [] = 0 := by
  simp [dotL]

theorem dotL_comm {K : Type} [Field K] (a b : List K) : dotL a b = dotL b a := by
  induction a generalizing b with
  | nil => simp [dotL]
  | cons x t ih =>
    cases b with
    | nil => simp [dotL]
    | cons y u =>
      simp only [dotL, List.zipWith_cons_cons, List.sum_cons] at ih ⊢
      rw [ih, mul_comm]

theorem dotL_smul_right {K : Type} [Field K] (c : K) (a v : List K) :
    dotL a (smulV c v) = c * dotL a v := by
  induction a generalizing v with
  | nil => simp [dotL]
  | cons x t ih =>
    cases v with
    | nil => simp [dotL, smulV]
    | cons y u =>
      simp only [smulV, List.map_cons, dotL, List.zipWith_cons_cons,
        List.sum_cons] at ih ⊢
      rw [ih]
      ring

theorem dotL_div_right {K : Type} [Field K] (c : K) (a v : List K) :
    dotL a (divV v c) = dotL a v / c := by
  induction a generalizing v with
  | nil => simp [dotL]
  | cons x t ih =>
    cases v with
    | nil => simp [dotL, divV]
    | cons y u =>
      simp only [divV, List.map_cons, dotL, List.zipWith_cons_cons,
        List.sum_cons] at ih ⊢
      rw [ih]
      ring

theorem dotL_sub_right {K : Type} [Field K] (a u v : List K)
    (h : u.length = v.length) :
    dotL a (vsub u v) = dotL a u - dotL a v := by
  induction a generalizing u v with
  | nil => simp [dotL]
  | cons x t ih =>
    cases u with
    | nil =>
      cases v with
      | nil => simp [dotL, vsub]
      | cons y v' => exact absurd h.symm v'.length.succ_ne_zero
    | cons y u' =>
      cases v with
      | nil => exact absurd h u'.length.succ_ne_zero
      | cons z v' =>
        simp only [vsub, List.zipWith_cons_cons, dotL, List.sum_cons] at ih ⊢
        rw [ih u' v' (by simpa using h)]
        ring

theorem dotL_add_right {K : Type} [Field K] (a u v : List K)
    (h : u.length = v.length) :
    dotL a (vadd u v) = dotL a u + dotL a v := by
  induction a generalizing u v with
  | nil => simp [dotL]
  | cons x t ih =>
    cases u with
    | nil =>
      cases v with
      | nil => simp [dotL, vadd]
      | cons y v' => exact absurd h.symm v'.length.succ_ne_zero
    | cons y u' =>
      cases v with
      | nil => exact absurd h u'.length.succ_ne_zero
      | cons z v' =>
        simp only [vadd, List.zipWith_cons_cons, dotL, List.sum_cons] at ih ⊢
        rw [ih u' v' (by simpa using h)]
        ring

theorem dotL_self_nonneg {K : Type} [LinearOrderedField K] (v : List K) :
    0 ≤ dotL v v := by
  induction v with
  | nil => simp [dotL]
  | cons x t ih =>
    simp only [dotL, List.zipWith_cons_cons, List.sum_cons] at ih ⊢
    exact add_nonneg (mul_self_nonneg x) ih

theorem vsub_length {K : Type} [Field K] (a b : List K) :
    (vsub a b).length = min a.length b.length := by
  simp [vsub]

theorem vadd_length {K : Type} [Field K] (a b : List K) :
    (vadd a b).length = min a.length b.length := by
  simp [vadd]

theorem smulV_length {K : Type} [Field K] (c : K) (v : List K) :
    (smulV c v).length = v.length := by
  simp [smulV]

theorem divV_length {K : Type} [Field K] (c : K) (v : List K) :
    (divV v c).length = v.length := by
  simp [divV]



theorem gsProj_length {K : Type} [Field K] (N : ℕ) (qs : List (List K))
    (x : List K) (hqs : ∀ q ∈ qs, q.length = N) (hx : x.length = N) :
    (gsProj qs x).length = N := by
  induction qs generalizing x with
  | nil => exact hx
  | cons q qt ih =>
    simp only [gsProj, List.foldl_cons]
    refine ih _ (fun p hp => hqs p (List.mem_cons_of_mem q hp)) ?_
    rw [vsub_length, smulV_length, hx, hqs q (List.mem_cons_self q qt)]
    simp

theorem gsProj_dot_eq {K : Type} [Field K] (N : ℕ) (p : List K)
    (qs : List (List K)) (y : List K)
    (hqs : ∀ q ∈ qs, q.length = N) (hy : y.length = N)
    (hp : ∀ q ∈ qs, dotL p q = 0) :
    dotL p (gsProj qs y) = dotL p y := by
  induction qs generalizing y with
  | nil => rfl
  | cons q qt ih =>
    simp only [gsProj, List.foldl_cons] at ih ⊢
    have hq : q.length = N := hqs q (List.mem_cons_self q qt)
    have h1 : dotL p (vsub y (smulV (dotL q y) q)) = dotL p y := by
      rw [dotL_sub_right p y (smulV (dotL q y) q)
        (by rw [smulV_length, hy, hq]), dotL_smul_right,
        hp q (List.mem_cons_self q qt), mul_zero, sub_zero]
    rw [ih _ (fun r hr => hqs r (List.mem_cons_of_mem q hr))
      (by rw [vsub_length, smulV_length, hy, hq]; simp)
      (fun r hr => hp r (List.mem_cons_of_mem q hr)), h1]

theorem gsProj_orth {K : Type} [Field K] (N : ℕ) (qs : List (List K))
    (x : List K) (hqs : ∀ q ∈ qs, q.length = N)
    (hunit : ∀ q ∈ qs, dotL q q = 1)
    (horth : List.Pairwise (fun a b => dotL a b = 0) qs)
    (hx : x.length = N) :
    ∀ p ∈ qs, dotL p (gsProj qs x) = 0 := by
  induction qs generalizing x with
  | nil => intro p hp; exact absurd hp (List.not_mem_nil p)
  | cons q qt ih =>
    intro p hp
    have hq : q.length = N := hqs q (List.mem_cons_self q qt)
    have hx2 : (vsub x (smulV (dotL q x) q)).length = N := by
      rw [vsub_length, smulV_length, hx, hq]; simp
    simp only [gsProj, List.foldl_cons]
    rcases List.mem_cons.mp hp with hpq | hpt
    · subst hpq
      rw [show (qt.foldl (fun xi q => vsub xi (smulV (dotL q xi) q))
          (vsub x (smulV (dotL p x) p))) =
          gsProj qt (vsub x (smulV (dotL p x) p)) from rfl]
      rw [gsProj_dot_eq N p qt _
        (fun r hr => hqs r (List.mem_cons_of_mem p hr)) hx2
        (fun r hr => (List.pairwise_cons.mp horth).1 r hr)]
      rw [dotL_sub_right p x (smulV (dotL p x) p)
        (by rw [smulV_length, hx, hq]), dotL_smul_right,
        hunit p (List.mem_cons_self p qt), mul_one, sub_self]
    · exact ih _ (fun r hr => hqs r (List.mem_cons_of_mem q hr))
        (fun r hr => hunit r (List.mem_cons_of_mem q hr))
        (List.pairwise_cons.mp horth).2 hx2 p hpt



theorem unit_divV {K : Type} [LinearOrderedField K] (sqrt : K → K)
    (hsq : ∀ y : K, 0 ≤ y → sqrt y * sqrt y = y)
    (r : List K) (hr : 0 < dotL r r) :
    dotL (divV r (normV sqrt r)) (divV r (normV sqrt r)) = 1 := by
  unfold normV
  rw [dotL_div_right, dotL_comm, dotL_div_right, div_div,
    hsq _ (dotL_self_nonneg r), div_self (ne_of_gt hr)]

theorem qrThresh_pos {K : Type} [LinearOrderedField K] :
    (0 : K) < qrThresh := by
  unfold qrThresh
  positivity

theorem qr_step_inv {K : Type} [LinearOrderedField K] (sqrt : K → K)
    (hsq : ∀ y : K, 0 ≤ y → sqrt y * sqrt y = y)
    (hps : ∀ y : K, 0 < sqrt y → 0 < y) (N : ℕ) :
    ∀ (l : List (List K)) (qs : List (List K)),
      (∀ v ∈ l, v.length = N) →
      qs ≠ [] →
      (∀ q ∈ qs, q.length = N) →
      (∀ q ∈ qs, dotL q q = 1) →
      List.Pairwise (fun a b => dotL a b = 0) qs →
      (l.foldl (fun qs xi =>
          let r := gsProj qs xi
          let n := normV sqrt r
          if qrThresh < n then qs ++ [divV r n] else qs) qs) ≠ [] ∧
      (∀ q ∈ (l.foldl (fun qs xi =>
          let r := gsProj qs xi
          let n := normV sqrt r
          if qrThresh < n then qs ++ [divV r n] else qs) qs), q.length = N) ∧
      (∀ q ∈ (l.foldl (fun qs xi =>
          let r := gsProj qs xi
          let n := normV sqrt r
          if qrThresh < n then qs ++ [divV r n] else qs) qs), dotL q q = 1) ∧
      List.Pairwise (fun a b => dotL a b = 0)
        (l.foldl (fun qs xi =>
          let r := gsProj qs xi
          let n := normV sqrt r
          if qrThresh < n then qs ++ [divV r n] else qs) qs) ∧
      (l.foldl (fun qs xi =>
          let r := gsProj qs xi
          let n := normV sqrt r
          if qrThresh < n then qs ++ [divV r n] else qs) qs).headD [] =
        qs.headD [] := by
  intro l
  induction l with
  | nil =>
    intro qs hl hne hlen hunit horth
    exact ⟨hne, hlen, hunit, horth, rfl⟩
  | cons xi lt ih =>
    intro qs hl hne hlen hunit horth
    simp only [List.foldl_cons]
    have hxi : xi.length = N := hl xi (List.mem_cons_self xi lt)
    have hlt : ∀ v ∈ lt, v.length = N :=
      fun v hv => hl v (List.mem_cons_of_mem xi hv)
    by_cases hacc : qrThresh < normV sqrt (gsProj qs xi)
    · rw [if_pos hacc]
      have hr : 0 < dotL (gsProj qs xi) (gsProj qs xi) := by
        refine hps _ (lt_trans qrThresh_pos ?_)
        exact hacc
      have hq' : (divV (gsProj qs xi) (normV sqrt (gsProj qs xi))).length = N := by
        rw [divV_length]
        exact gsProj_length N qs xi hlen hxi
      have hu' : dotL (divV (gsProj qs xi) (normV sqrt (gsProj qs xi)))
          (divV (gsProj qs xi) (normV sqrt (gsProj qs xi))) = 1 :=
        unit_divV sqrt hsq _ hr
      have ho' : ∀ p ∈ qs, dotL p
          (divV (gsProj qs xi) (normV sqrt (gsProj qs xi))) = 0 := by
        intro p hpm
        rw [dotL_div_right, gsProj_orth N qs xi hlen hunit horth hxi p hpm,
          zero_div]
      obtain ⟨r1, r2, r3, r4, r5⟩ := ih (qs ++ [divV (gsProj qs xi) (normV sqrt (gsProj qs xi))])
        hlt (by simp)
        (by
          intro q hq
          rcases List.mem_append.mp hq with h | h
          · exact hlen q h
          · rw [List.mem_singleton.mp h]
            exact hq')
        (by
          intro q hq
          rcases List.mem_append.mp hq with h | h
          · exact hunit q h
          · rw [List.mem_singleton.mp h]
            exact hu')
        (by
          refine List.pairwise_append.mpr ⟨horth, List.pairwise_singleton _ _, ?_⟩
          intro a ha b hb
          rw [List.mem_singleton.mp hb]
          exact ho' a ha)
      refine ⟨r1, r2, r3, r4, ?_⟩
      rw [r5]
      cases qs with
      | nil => exact absurd rfl hne
      | cons q0 qt => rfl
    · rw [if_neg hacc]
      exact ih qs hlt hne hlen hunit horth

theorem qr_orthonormal {K : Type} [LinearOrderedField K] (sqrt : K → K)
    (hsq : ∀ y : K, 0 ≤ y → sqrt y * sqrt y = y)
    (hps : ∀ y : K, 0 < sqrt y → 0 < y)
    (N : ℕ) (x : List K) (rest : List (List K))
    (hx : x.length = N) (hrest : ∀ v ∈ rest, v.length = N)
    (hx0 : 0 < dotL x x) :
    (∀ q ∈ qr sqrt (x :: rest), q.length = N) ∧
    (∀ q ∈ qr sqrt (x :: rest), dotL q q = 1) ∧
    List.Pairwise (fun a b => dotL a b = 0) (qr sqrt (x :: rest)) ∧
    (qr sqrt (x :: rest)).headD [] = divV x (normV sqrt x) := by
  obtain ⟨r1, r2, r3, r4, r5⟩ := qr_step_inv sqrt hsq hps N rest
    [divV x (normV sqrt x)] hrest (by simp)
    (by
      intro q hq
      rw [List.mem_singleton.mp hq, divV_length]
      exact hx)
    (by
      intro q hq
      rw [List.mem_singleton.mp hq]
      exact unit_divV sqrt hsq x hx0)
    (List.pairwise_singleton _ _)
  exact ⟨r2, r3, r4, r5⟩
theorem getD_map_lt {α β : Type} (f : α → β) (l : List α) (i : ℕ)
    (d : α) (d2 : β) (h : i < l.length) :
    (l.map f).getD i d2 = f (l.getD i d) := by
  rw [List.getD_eq_getElem l d h,
    List.getD_eq_getElem (l.map f) d2 (by simpa using h),
    List.getElem_map]

theorem getD_mem_of_lt {α : Type} (l : List α) (i : ℕ) (d : α)
    (h : i < l.length) : l.getD i d ∈ l := by
  rw [List.getD_eq_getElem l d h]
  exact List.getElem_mem h

theorem matVec_smulV (A : List Vec) (c : ℚ) (v : Vec) :
    matVec A (smulV c v) = smulV c (matVec A v) := by
  simp only [matVec, smulV, List.map_map]
  refine List.map_congr_left ?_
  intro row _
  simp only [Function.comp_apply]
  exact dotL_smul_right c row v

theorem matVec_vadd (A : List Vec) (u v : Vec) (h : u.length = v.length) :
    matVec A (vadd u v) = vadd (matVec A u) (matVec A v) := by
  induction A with
  | nil => rfl
  | cons row At ih =>
    show dotL row (vadd u v) :: matVec At (vadd u v) =
      vadd (dotL row u :: matVec At u) (dotL row v :: matVec At v)
    rw [show vadd (dotL row u :: matVec At u) (dotL row v :: matVec At v) =
      (dotL row u + dotL row v) :: vadd (matVec At u) (matVec At v) from rfl]
    rw [dotL_add_right row u v h, ih]

theorem matVec_length (A : List Vec) (v : Vec) :
    (matVec A v).length = A.length := by
  simp [matVec]

theorem assembleOne_fold_comm (f : Vec → Vec) (N : ℕ)
    (hsm : ∀ c v, f (smulV c v) = smulV c (f v))
    (hva : ∀ u v, u.length = v.length → f (vadd u v) = vadd (f u) (f v))
    (hfl : ∀ v, (f v).length = N)
    (xs : List Vec) (col : List ℚ)
    (hxs : ∀ v ∈ xs, v.length = N) :
    ∀ (L : List ℕ) (acc : Vec), (∀ i ∈ L, i < xs.length) → acc.length = N →
      f (L.foldl (fun acc i =>
          vadd acc (smulV (col.getD i 0) (xs.getD i []))) acc) =
      L.foldl (fun acc i =>
          vadd acc (smulV (col.getD i 0) ((xs.map f).getD i []))) (f acc) := by
  intro L
  induction L with
  | nil => intro acc _ _; rfl
  | cons i Lt ih =>
    intro acc hL hacc
    have hi : i < xs.length := hL i (List.mem_cons_self i Lt)
    have hxi : (xs.getD i []).length = N :=
      hxs _ (getD_mem_of_lt xs i [] hi)
    simp only [List.foldl_cons]
    rw [ih _ (fun j hj => hL j (List.mem_cons_of_mem i hj))
      (by rw [vadd_length, smulV_length, hacc, hxi]; simp)]
    rw [hva acc _ (by rw [smulV_length, hacc, hxi]), hsm,
      getD_map_lt f xs i [] [] hi]

theorem assembleOne_comm (f : Vec → Vec) (N : ℕ)
    (hsm : ∀ c v, f (smulV c v) = smulV c (f v))
    (hva : ∀ u v, u.length = v.length → f (vadd u v) = vadd (f u) (f v))
    (hfl : ∀ v, (f v).length = N)
    (xs : List Vec) (col : List ℚ) (sp : ℕ)
    (hxs : ∀ v ∈ xs, v.length = N) (h1 : 1 ≤ sp) (h2 : sp ≤ xs.length) :
    f (assembleOne xs col sp) = assembleOne (xs.map f) col sp := by
  unfold assembleOne
  have hsp : sp - 1 < xs.length := by omega
  rw [assembleOne_fold_comm f N hsm hva hfl xs col hxs _ _
    (by
      intro j hj
      rw [List.mem_reverse, List.mem_range] at hj
      omega)
    (by
      rw [smulV_length]
      exact hxs _ (getD_mem_of_lt xs (sp - 1) [] hsp))]
  rw [hsm, getD_map_lt f xs (sp - 1) [] [] hsp]

theorem assembleOne_fold_length (N : ℕ) (xs : List Vec) (col : List ℚ)
    (hxs : ∀ v ∈ xs, v.length = N) :
    ∀ (L : List ℕ) (acc : Vec), (∀ i ∈ L, i < xs.length) → acc.length = N →
      (L.foldl (fun acc i =>
          vadd acc (smulV (col.getD i 0) (xs.getD i []))) acc).length = N := by
  intro L
  induction L with
  | nil => intro acc _ hacc; exact hacc
  | cons i Lt ih =>
    intro acc hL hacc
    have hi : i < xs.length := hL i (List.mem_cons_self i Lt)
    have hxi : (xs.getD i []).length = N :=
      hxs _ (getD_mem_of_lt xs i [] hi)
    simp only [List.foldl_cons]
    exact ih _ (fun j hj => hL j (List.mem_cons_of_mem i hj))
      (by rw [vadd_length, smulV_length, hacc, hxi]; simp)

theorem assembleOne_length (N : ℕ) (xs : List Vec) (col : List ℚ) (sp : ℕ)
    (hxs : ∀ v ∈ xs, v.length = N) (h1 : 1 ≤ sp) (h2 : sp ≤ xs.length) :
    (assembleOne xs col sp).length = N := by
  unfold assembleOne
  have hsp : sp - 1 < xs.length := by omega
  exact assembleOne_fold_length N xs col hxs _ _
    (by
      intro j hj
      rw [List.mem_reverse, List.mem_range] at hj
      omega)
    (by
      rw [smulV_length]
      exact hxs _ (getD_mem_of_lt xs (sp - 1) [] hsp))

theorem assemble_comm (f : Vec → Vec) (N : ℕ)
    (hsm : ∀ c v, f (smulV c v) = smulV c (f v))
    (hva : ∀ u v, u.length = v.length → f (vadd u v) = vadd (f u) (f v))
    (hfl : ∀ v, (f v).length = N)
    (xs : List Vec) (cols : List (List ℚ)) (sp : ℕ)
    (hxs : ∀ v ∈ xs, v.length = N) (h1 : 1 ≤ sp) (h2 : sp ≤ xs.length) :
    (assemble xs cols sp).map f = assemble (xs.map f) cols sp := by
  unfold assemble
  rw [List.map_map]
  refine List.map_congr_left ?_
  intro col _
  simp only [Function.comp_apply]
  exact assembleOne_comm f N hsm hva hfl xs col sp hxs h1 h2

theorem assemble_lengths (N : ℕ) (xs : List Vec) (cols : List (List ℚ))
    (sp : ℕ) (hxs : ∀ v ∈ xs, v.length = N) (h1 : 1 ≤ sp)
    (h2 : sp ≤ xs.length) :
    ∀ v ∈ assemble xs cols sp, v.length = N := by
  intro v hv
  unfold assemble at hv
  obtain ⟨col, _, hcol⟩ := List.mem_map.mp hv
  rw [← hcol]
  exact assembleOne_length N xs col sp hxs h1 h2

theorem qr_lengths {K : Type} [LinearOrderedField K] (sqrt : K → K) (N : ℕ)
    (xs : List (List K)) (hxs : ∀ v ∈ xs, v.length = N) :
    ∀ q ∈ qr sqrt xs, q.length = N := by
  cases xs with
  | nil => intro q hq; exact absurd hq (List.not_mem_nil q)
  | cons x rest =>
    unfold qr
    have hgen : ∀ (l : List (List K)) (qs : List (List K)),
        (∀ v ∈ l, v.length = N) → (∀ q ∈ qs, q.length = N) →
        ∀ q ∈ l.foldl (fun qs xi =>
          let r := gsProj qs xi
          let n := normV sqrt r
          if qrThresh < n then qs ++ [divV r n] else qs) qs, q.length = N := by
      intro l
      induction l with
      | nil => intro qs _ hqs q hq; exact hqs q hq
      | cons xi lt ih =>
        intro qs hl hqs
        simp only [List.foldl_cons]
        refine ih _ (fun v hv => hl v (List.mem_cons_of_mem xi hv)) ?_
        intro q hq
        split at hq
        · rcases List.mem_append.mp hq with h | h
          · exact hqs q h
          · rw [List.mem_singleton.mp h, divV_length]
            exact gsProj_length N qs xi hqs (hl xi (List.mem_cons_self xi lt))
        · exact hqs q hq
    refine hgen rest [divV x (normV sqrt x)]
      (fun v hv => hxs v (List.mem_cons_of_mem x hv)) ?_
    intro q hq
    rw [List.mem_singleton.mp hq, divV_length]
    exact hxs x (List.mem_cons_self x rest)

theorem eigFresh_wfp (F : EigFns) (A : List Vec) (N nr : ℕ) (s : ESt)
    (hwf : WFe A N s) :
    (∀ v ∈ (eigFresh F nr s).xs, v.length = N) ∧
    (eigFresh F nr s).ax = matVecs A (eigFresh F nr s).xs ∧
    (eigFresh F nr s).xs.length = (eigFresh F nr s).space ∧
    (∀ v ∈ (eigFresh F nr s).xt, v.length = N) := by
  obtain ⟨h1, h2, h3, h4, h5⟩ := hwf
  unfold eigFresh
  split_ifs with hf hq
  · refine ⟨by simp, rfl, rfl, ?_⟩
    dsimp only []
    exact qr_lengths F.sqrt N s.x0 h5
  · refine ⟨h1, h2, h3, ?_⟩
    dsimp only []
    intro v hv
    exact qr_lengths F.sqrt N s.xt h4 v (List.mem_of_mem_take hv)
  · exact ⟨h1, h2, h3, h4⟩

theorem eigSolve_wf (F : EigFns) (A : List Vec) (N nr msI : ℕ) (s : ESt)
    (o : ESolveOut) (Hop : F.aop = matVecs A) (hwf : WFe A N s)
    (h : eigSolve F nr msI s = .ok o) :
    (∀ v ∈ o.xs2, v.length = N) ∧ o.ax2 = matVecs A o.xs2 ∧
    o.xs2.length = o.space ∧ 1 ≤ o.space := by
  obtain ⟨f1, f2, f3, f4⟩ := eigFresh_wfp F A N nr s hwf
  unfold eigSolve at h
  dsimp only [] at h
  split_ifs at h with hz hshort
  all_goals repeat' split at h
  all_goals try exact Except.noConfusion h
  all_goals
    rename_i mscr hm hfill dscr de hde
    have ho := (Except.ok.inj h).symm
    subst ho
    dsimp only []
    have htake : List.take (eigFresh F nr s).xt.length
        (matVecs A (eigFresh F nr s).xt) = matVecs A (eigFresh F nr s).xt :=
      List.take_of_length_le (by simp [matVecs])
    refine ⟨?_, ?_, ?_, by omega⟩
    · intro v hv
      rcases List.mem_append.mp hv with hm2 | hm2
      · exact f1 v hm2
      · exact f4 v hm2
    · rw [f2, Hop, htake]
      exact (List.map_append _ _ _).symm
    · rw [List.length_append, f3]

theorem eigTail_oc_irrel (F : EigFns) (tol tl : ℚ) (msI : ℕ)
    (xs2 ax2 : List Vec) (h2 : Mat2) (sp : ℕ) (eN : List ℚ)
    (x0n ax0n : List Vec) (info : CInfo) (oc1 oc2 : ℕ) :
    stripE (eigTail F tol tl msI xs2 ax2 h2 sp eN x0n ax0n info oc1) =
    stripE (eigTail F tol tl msI xs2 ax2 h2 sp eN x0n ax0n info oc2) := by
  unfold eigTail
  dsimp only []
  split_ifs <;> rfl

theorem reorthFold_length (N : ℕ) (xs : List Vec)
    (hxs : ∀ q ∈ xs, q.length = N) :
    ∀ (y : Vec), y.length = N →
      (xs.foldl (fun xi xsi => vsub xi (smulV (dotL xi xsi) xsi)) y).length
        = N := by
  induction xs with
  | nil => intro y hy; exact hy
  | cons q qt ih =>
    intro y hy
    simp only [List.foldl_cons]
    refine ih (fun p hp => hxs p (List.mem_cons_of_mem q hp)) _ ?_
    rw [vsub_length, smulV_length, hy, hxs q (List.mem_cons_self q qt)]
    simp

theorem eigTail_next_wf (F : EigFns) (tol tl : ℚ) (msI : ℕ) (N : ℕ)
    (xs2 ax2 : List Vec) (h2 : Mat2) (sp : ℕ) (eN : List ℚ)
    (x0n ax0n : List Vec) (info : CInfo) (oc : ℕ) (s2 : ESt)
    (i2 : CInfo) (oc2 : ℕ)
    (Hpre : ∀ r e x, (F.precond r e x).length = r.length)
    (hxs2 : ∀ v ∈ xs2, v.length = N)
    (hx0n : ∀ v ∈ x0n, v.length = N)
    (hax0n : ∀ v ∈ ax0n, v.length = N)
    (hxl : eN.length ≤ x0n.length) (hal : eN.length ≤ ax0n.length)
    (h : eigTail F tol tl msI xs2 ax2 h2 sp eN x0n ax0n info oc =
      .next s2 i2 oc2) :
    s2.xs = xs2 ∧ s2.ax = ax2 ∧ s2.space = sp ∧
    (∀ v ∈ s2.xt, v.length = N) ∧ (∀ v ∈ s2.x0, v.length = N) := by
  unfold eigTail at h
  dsimp only [] at h
  split_ifs at h
  all_goals try exact CycRes.noConfusion h
  obtain ⟨h1, h2a, h3⟩ := CycRes.next.inj h
  rw [← h1]
  refine ⟨rfl, rfl, rfl, ?_, hx0n⟩
  intro v hv
  dsimp only [] at hv
  obtain ⟨xi, hxi, hcond⟩ := List.mem_filterMap.mp hv
  split at hcond
  · rw [← Option.some.inj hcond, smulV_length]
    obtain ⟨x1, hx1, hfold⟩ := List.mem_map.mp hxi
    rw [← hfold]
    obtain ⟨k, hk, hsome⟩ := List.mem_filterMap.mp hx1
    rw [List.mem_range] at hk
    split at hsome
    · rw [← Option.some.inj hsome]
      refine reorthFold_length N xs2 hxs2 _ ?_
      rw [smulV_length, Hpre]
      have hdxt : ((List.range eN.length).map (fun k =>
          vsub (ax0n.getD k []) (smulV (eN.getD k 0) (x0n.getD k [])))).getD
          k [] = vsub (ax0n.getD k []) (smulV (eN.getD k 0) (x0n.getD k [])) := by
        rw [List.getD_eq_getElem _ _ (by simpa using hk), List.getElem_map,
          List.getElem_range]
      rw [hdxt, vsub_length, smulV_length,
        hax0n _ (getD_mem_of_lt ax0n k [] (lt_of_lt_of_le hk hal)),
        hx0n _ (getD_mem_of_lt x0n k [] (lt_of_lt_of_le hk hxl))]
      simp
    · exact Option.noConfusion hsome
  · exact Option.noConfusion hcond



theorem matVecs_lengths (A : List Vec) (xs : List Vec) :
    ∀ v ∈ matVecs A xs, v.length = A.length := by
  intro v hv
  obtain ⟨u, _, hu⟩ := List.mem_map.mp hv
  rw [← hu]
  exact matVec_length A u

theorem eigCycle_equiv (F : EigFns) (A : List Vec) (tol tl : ℚ)
    (nr msI : ℕ) (s : ESt) (N : ℕ)
    (Hop : F.aop = matVecs A) (hAl : A.length = N) (hwf : WFe A N s)
    (li1 ic1 li2 ic2 : Bool) :
    stripE (eigCycle F tol tl nr msI li1 ic1 s) =
    stripE (eigCycle F tol tl nr msI li2 ic2 s) := by
  unfold eigCycle
  cases ho : eigSolve F nr msI s with
  | error oc => rfl
  | ok o =>
    obtain ⟨w1, w2, w3, w4⟩ := eigSolve_wf F A N nr msI s o Hop hwf ho
    have hax : F.aop (assemble o.xs2 o.vSel o.space) =
        assemble o.ax2 o.vSel o.space := by
      rw [Hop, w2]
      exact assemble_comm (matVec A) N (matVec_smulV A) (matVec_vadd A)
        (fun v => by rw [matVec_length A v, hAl])
        o.xs2 o.vSel o.space w1 w4 w3.symm.le
    dsimp only []
    split <;> split <;> (dsimp only []; try rw [hax]) <;>
      exact eigTail_oc_irrel _ _ _ _ _ _ _ _ _ _ _ _ _ _

theorem eigCycle_wf (F : EigFns) (A : List Vec) (tol tl : ℚ)
    (nr msI : ℕ) (li ic : Bool) (s : ESt) (N : ℕ)
    (Hop : F.aop = matVecs A) (hAl : A.length = N)
    (Hpre : ∀ r e x, (F.precond r e x).length = r.length)
    (hwf : WFe A N s) :
    ∀ s2 i oc2, eigCycle F tol tl nr msI li ic s = .next s2 i oc2 →
      WFe A N s2 := by
  intro s2 i oc2 h
  unfold eigCycle at h
  cases ho : eigSolve F nr msI s with
  | error oc =>
    rw [ho] at h
    exact CycRes.noConfusion h
  | ok o =>
    rw [ho] at h
    obtain ⟨w1, w2, w3, w4⟩ := eigSolve_wf F A N nr msI s o Hop hwf ho
    obtain ⟨hvs, _⟩ := eigSolve_shape F nr msI s o ho
    have hx0l : ∀ v ∈ assemble o.xs2 o.vSel o.space, v.length = N :=
      assemble_lengths N o.xs2 o.vSel o.space w1 w4 w3.symm.le
    have hxlen : (assemble o.xs2 o.vSel o.space).length = o.eNew.length := by
      rw [assemble_length, hvs]
    have hax2 : ∀ v ∈ o.ax2, v.length = N := by
      rw [w2]
      intro v hv
      rw [matVecs_lengths A o.xs2 v hv, hAl]
    dsimp only [] at h
    split at h
    · dsimp only [] at h
      obtain ⟨t1, t2, t3, t4, t5⟩ := eigTail_next_wf F tol tl msI N
        o.xs2 o.ax2 o.heff2 o.space o.eNew
        (assemble o.xs2 o.vSel o.space) (F.aop (assemble o.xs2 o.vSel o.space))
        ⟨o.freshIn, o.space, o.de, o.eNew, false⟩ 2 s2 i oc2 Hpre
        w1 hx0l
        (by
          rw [Hop]
          intro v hv
          rw [matVecs_lengths A _ v hv, hAl])
        hxlen.symm.le
        (by rw [Hop]; simp [matVecs, hxlen]) h
      refine ⟨?_, ?_, ?_, t4, t5⟩
      · rw [t1]; exact w1
      · rw [t2, t1]; exact w2
      · rw [t1, t3]; exact w3
    · dsimp only [] at h
      obtain ⟨t1, t2, t3, t4, t5⟩ := eigTail_next_wf F tol tl msI N
        o.xs2 o.ax2 o.heff2 o.space o.eNew
        (assemble o.xs2 o.vSel o.space) (assemble o.ax2 o.vSel o.space)
        ⟨o.freshIn, o.space, o.de, o.eNew, false⟩ 1 s2 i oc2 Hpre
        w1 hx0l
        (assemble_lengths N o.ax2 o.vSel o.space hax2 w4
          (by rw [w2]; simp only [matVecs, List.length_map]; omega))
        hxlen.symm.le
        (by rw [assemble_length, hvs]) h
      refine ⟨?_, ?_, ?_, t4, t5⟩
      · rw [t1]; exact w1
      · rw [t2, t1]; exact w2
      · rw [t1, t3]; exact w3



theorem eigLoop_c6 (F : EigFns) (A : List Vec) (tol tl : ℚ) (nr msI : ℕ)
    (N : ℕ) (Hop : F.aop = matVecs A) (hAl : A.length = N)
    (Hpre : ∀ r e x, (F.precond r e x).length = r.length)
    (li1 ic1 li2 ic2 : Bool) :
    ∀ (fuel : ℕ) (s : ESt) (tr : List CInfo) (st oc1 oc0 : ℕ),
      WFe A N s →
      (eigLoop F tol tl nr msI li1 ic1 fuel s tr st oc1).term =
        (eigLoop F tol tl nr msI li2 ic2 fuel s tr st oc0).term ∧
      (eigLoop F tol tl nr msI li1 ic1 fuel s tr st oc1).res =
        (eigLoop F tol tl nr msI li2 ic2 fuel s tr st oc0).res ∧
      (eigLoop F tol tl nr msI li1 ic1 fuel s tr st oc1).finalE =
        (eigLoop F tol tl nr msI li2 ic2 fuel s tr st oc0).finalE ∧
      (eigLoop F tol tl nr msI li1 ic1 fuel s tr st oc1).finalX =
        (eigLoop F tol tl nr msI li2 ic2 fuel s tr st oc0).finalX ∧
      (eigLoop F tol tl nr msI li1 ic1 fuel s tr st oc1).trace =
        (eigLoop F tol tl nr msI li2 ic2 fuel s tr st oc0).trace ∧
      (eigLoop F tol tl nr msI li1 ic1 fuel s tr st oc1).started =
        (eigLoop F tol tl nr msI li2 ic2 fuel s tr st oc0).started := by
  intro fuel
  induction fuel with
  | zero =>
    intro s tr st oc1 oc0 _
    simp only [eigLoop]
    split_ifs <;> simp
  | succ n ih =>
    intro s tr st oc1 oc0 hwf
    have hstrip := eigCycle_equiv F A tol tl nr msI s N Hop hAl hwf
      li1 ic1 li2 ic2
    simp only [eigLoop]
    cases hc1 : eigCycle F tol tl nr msI li1 ic1 s with
    | crash oca =>
      cases hc2 : eigCycle F tol tl nr msI li2 ic2 s with
      | crash ocb => exact ⟨rfl, rfl, rfl, rfl, rfl, rfl⟩
      | conv e2 x2 i2 ocb =>
        rw [hc1, hc2] at hstrip
        simp only [stripE] at hstrip
        exact CycRes.noConfusion hstrip
      | exh e2 x2 i2 ocb =>
        rw [hc1, hc2] at hstrip
        simp only [stripE] at hstrip
        exact CycRes.noConfusion hstrip
      | next s2b i2 ocb =>
        rw [hc1, hc2] at hstrip
        simp only [stripE] at hstrip
        exact CycRes.noConfusion hstrip
    | conv e1 x1 i1 oca =>
      cases hc2 : eigCycle F tol tl nr msI li2 ic2 s with
      | crash ocb =>
        rw [hc1, hc2] at hstrip
        simp only [stripE] at hstrip
        exact CycRes.noConfusion hstrip
      | conv e2 x2 i2 ocb =>
        rw [hc1, hc2] at hstrip
        simp only [stripE] at hstrip
        obtain ⟨he, hx, hi, _⟩ := CycRes.conv.inj hstrip
        subst he
        subst hx
        subst hi
        exact ⟨rfl, rfl, rfl, rfl, rfl, rfl⟩
      | exh e2 x2 i2 ocb =>
        rw [hc1, hc2] at hstrip
        simp only [stripE] at hstrip
        exact CycRes.noConfusion hstrip
      | next s2b i2 ocb =>
        rw [hc1, hc2] at hstrip
        simp only [stripE] at hstrip
        exact CycRes.noConfusion hstrip
    | exh e1 x1 i1 oca =>
      cases hc2 : eigCycle F tol tl nr msI li2 ic2 s with
      | crash ocb =>
        rw [hc1, hc2] at hstrip
        simp only [stripE] at hstrip
        exact CycRes.noConfusion hstrip
      | conv e2 x2 i2 ocb =>
        rw [hc1, hc2] at hstrip
        simp only [stripE] at hstrip
        exact CycRes.noConfusion hstrip
      | exh e2 x2 i2 ocb =>
        rw [hc1, hc2] at hstrip
        simp only [stripE] at hstrip
        obtain ⟨he, hx, hi, _⟩ := CycRes.exh.inj hstrip
        subst he
        subst hx
        subst hi
        exact ⟨rfl, rfl, rfl, rfl, rfl, rfl⟩
      | next s2b i2 ocb =>
        rw [hc1, hc2] at hstrip
        simp only [stripE] at hstrip
        exact CycRes.noConfusion hstrip
    | next s2 i1 oca =>
      cases hc2 : eigCycle F tol tl nr msI li2 ic2 s with
      | crash ocb =>
        rw [hc1, hc2] at hstrip
        simp only [stripE] at hstrip
        exact CycRes.noConfusion hstrip
      | conv e2 x2 i2 ocb =>
        rw [hc1, hc2] at hstrip
        simp only [stripE] at hstrip
        exact CycRes.noConfusion hstrip
      | exh e2 x2 i2 ocb =>
        rw [hc1, hc2] at hstrip
        simp only [stripE] at hstrip
        exact CycRes.noConfusion hstrip
      | next s2b i2 ocb =>
        rw [hc1, hc2] at hstrip
        simp only [stripE] at hstrip
        obtain ⟨hs, hi, _⟩ := CycRes.next.inj hstrip
        subst hs
        subst hi
        exact ih s2 (tr ++ [i1]) (st + 1) (oc1 + oca) (oc0 + ocb)
          (eigCycle_wf F A tol tl nr msI li1 ic1 s N Hop hAl Hpre hwf
            s2 i1 oca hc1)

theorem eigRun_c6 (F : EigFns) (A : List Vec) (x0 : List Vec) (tol : ℚ)
    (mc ms : ℕ) (l mm1 mm2 : ℚ) (nr : ℕ) (li1 li2 : Bool)
    (Hop : F.aop = matVecs A)
    (Hpre : ∀ r e x, (F.precond r e x).length = r.length)
    (hvx : ∀ v ∈ x0, v.length = A.length) :
    (eigRun F x0 tol mc ms l mm1 nr li1).term =
      (eigRun F x0 tol mc ms l mm2 nr li2).term ∧
    (eigRun F x0 tol mc ms l mm1 nr li1).res =
      (eigRun F x0 tol mc ms l mm2 nr li2).res ∧
    (eigRun F x0 tol mc ms l mm1 nr li1).finalE =
      (eigRun F x0 tol mc ms l mm2 nr li2).finalE ∧
    (eigRun F x0 tol mc ms l mm1 nr li1).finalX =
      (eigRun F x0 tol mc ms l mm2 nr li2).finalX ∧
    (eigRun F x0 tol mc ms l mm1 nr li1).trace =
      (eigRun F x0 tol mc ms l mm2 nr li2).trace ∧
    (eigRun F x0 tol mc ms l mm1 nr li1).started =
      (eigRun F x0 tol mc ms l mm2 nr li2).started := by
  cases x0 with
  | nil => exact ⟨rfl, rfl, rfl, rfl, rfl, rfl⟩
  | cons g0 rest =>
    unfold eigRun
    dsimp only []
    by_cases hz : g0.length = 0
    · simp only [if_pos hz]
      refine ⟨?_, ?_, ?_, ?_, ?_, ?_⟩ <;> trivial
    · simp only [if_neg hz]
      exact eigLoop_c6 F A tol _ nr _ A.length Hop rfl Hpre li1 _ li2 _
        _ _ _ _ _ _
        ⟨fun v hv => absurd hv (List.not_mem_nil v), rfl, rfl,
         fun v hv => absurd hv (List.not_mem_nil v), hvx⟩

theorem geOpA_smul (A B : List Vec) (ty : ℕ) (c : ℚ) (v : Vec) :
    geOpA A B ty (smulV c v) = smulV c (geOpA A B ty v) := by
  unfold geOpA
  split_ifs
  · rw [matVec_smulV, matVec_smulV]
  · rw [matVec_smulV]

theorem geOpA_vadd (A B : List Vec) (ty : ℕ) (u v : Vec)
    (h : u.length = v.length) :
    geOpA A B ty (vadd u v) = vadd (geOpA A B ty u) (geOpA A B ty v) := by
  unfold geOpA
  split_ifs
  · rw [matVec_vadd B u v h,
      matVec_vadd A _ _ (by rw [matVec_length, matVec_length])]
  · rw [matVec_vadd A u v h]

theorem geOpA_length (A B : List Vec) (ty : ℕ) (v : Vec) :
    (geOpA A B ty v).length = A.length := by
  unfold geOpA
  split_ifs <;> rw [matVec_length]

theorem geFresh_wfp (F : GeFns) (A B : List Vec) (ty N nr : ℕ) (s : GeSt)
    (hwf : WFg A B ty N s) :
    (∀ v ∈ (geFresh F nr s).xs, v.length = N) ∧
    (geFresh F nr s).ax = (geFresh F nr s).xs.map (geOpA A B ty) ∧
    (geFresh F nr s).bx = matVecs B (geFresh F nr s).xs ∧
    (geFresh F nr s).xs.length = (geFresh F nr s).space ∧
    (∀ v ∈ (geFresh F nr s).xt, v.length = N) := by
  obtain ⟨h1, h2, h3, h4, h5, h6⟩ := hwf
  unfold geFresh
  split_ifs with hf hq
  · refine ⟨by simp, rfl, rfl, rfl, ?_⟩
    dsimp only []
    exact qr_lengths F.sqrt N s.x0 h6
  · refine ⟨h1, h2, h3, h4, ?_⟩
    dsimp only []
    intro v hv
    exact qr_lengths F.sqrt N s.xt h5 v (List.mem_of_mem_take hv)
  · exact ⟨h1, h2, h3, h4, h5⟩

theorem axt_map (F : GeFns) (A B : List Vec) (ty : ℕ) (xt : List Vec)
    (Hab : F.abop = fun vs => (matVecs A vs, matVecs B vs)) :
    (if 1 < ty then (F.abop (F.abop xt).2).1 else (F.abop xt).1) =
      xt.map (geOpA A B ty) := by
  simp only [Hab]
  by_cases hty : 1 < ty
  · rw [if_pos hty]
    simp only [matVecs, List.map_map]
    refine List.map_congr_left ?_
    intro v _
    simp only [Function.comp_apply, geOpA, if_pos hty]
  · rw [if_neg hty]
    simp only [matVecs]
    refine List.map_congr_left ?_
    intro v _
    simp only [geOpA, if_neg hty]

theorem geSolve_wf (F : GeFns) (A B : List Vec) (ty N nr msI : ℕ)
    (s : GeSt) (o : GSolveOut)
    (Hab : F.abop = fun vs => (matVecs A vs, matVecs B vs))
    (hwf : WFg A B ty N s) (h : geSolve F ty nr msI s = .ok o) :
    (∀ v ∈ o.xs2, v.length = N) ∧ o.ax2 = o.xs2.map (geOpA A B ty) ∧
    o.bx2 = matVecs B o.xs2 ∧ o.xs2.length = o.space ∧ 1 ≤ o.space := by
  obtain ⟨f1, f2, f3, f4, f5⟩ := geFresh_wfp F A B ty N nr s hwf
  unfold geSolve at h
  dsimp only [] at h
  rw [show ((if 1 < ty then (F.abop (F.abop (geFresh F nr s).xt).2).1
      else (F.abop (geFresh F nr s).xt).1)) =
      (geFresh F nr s).xt.map (geOpA A B ty) from
      axt_map F A B ty (geFresh F nr s).xt Hab] at h
  simp only [Hab] at h
  split_ifs at h with hz hshort
  all_goals repeat' split at h
  all_goals try exact Except.noConfusion h
  all_goals
    rename_i mscr hm hfill dscr de hde
    have ho := (Except.ok.inj h).symm
    subst ho
    dsimp only []
    have htakeA : List.take (geFresh F nr s).xt.length
        ((geFresh F nr s).xt.map (geOpA A B ty)) =
        (geFresh F nr s).xt.map (geOpA A B ty) :=
      List.take_of_length_le (by simp)
    have htakeB : List.take (geFresh F nr s).xt.length
        (matVecs B (geFresh F nr s).xt) = matVecs B (geFresh F nr s).xt :=
      List.take_of_length_le (by simp [matVecs])
    refine ⟨?_, ?_, ?_, ?_, by omega⟩
    · intro v hv
      rcases List.mem_append.mp hv with hm2 | hm2
      · exact f1 v hm2
      · exact f5 v hm2
    · rw [f2, htakeA]
      exact (List.map_append _ _ _).symm
    · rw [f3, htakeB]
      exact (List.map_append _ _ _).symm
    · rw [List.length_append, f4]

set_option maxHeartbeats 1000000 in
theorem geTail_oc_irrel (F : GeFns) (ty : ℕ) (tol tl : ℚ) (msI : ℕ)
    (xs2 ax2 bx2 : List Vec) (h2 s2m : Mat2) (sp : ℕ) (eN : List ℚ)
    (x0n ax0n bx0n : List Vec) (info : CInfo) (oc1 oc2 : ℕ) :
    stripG (geTail F ty tol tl msI xs2 ax2 bx2 h2 s2m sp eN x0n ax0n bx0n
      info oc1) =
    stripG (geTail F ty tol tl msI xs2 ax2 bx2 h2 s2m sp eN x0n ax0n bx0n
      info oc2) := by
  unfold geTail
  dsimp only []
  split_ifs <;> rfl

set_option maxHeartbeats 1000000 in
theorem geTail_next_wf (F : GeFns) (ty : ℕ) (tol tl : ℚ) (msI N : ℕ)
    (xs2 ax2 bx2 : List Vec) (h2 s2m : Mat2) (sp : ℕ) (eN : List ℚ)
    (x0n ax0n bx0n : List Vec) (info : CInfo) (oc : ℕ) (s2 : GeSt)
    (i2 : CInfo) (oc2 : ℕ)
    (Hpre : ∀ r e x, (F.precond r e x).length = r.length)
    (hxs2 : ∀ v ∈ xs2, v.length = N)
    (hx0n : ∀ v ∈ x0n, v.length = N)
    (hax0n : ∀ v ∈ ax0n, v.length = N)
    (hbx0n : ∀ v ∈ bx0n, v.length = N)
    (hxl : eN.length ≤ x0n.length) (hal : eN.length ≤ ax0n.length)
    (hbl : eN.length ≤ bx0n.length)
    (h : geTail F ty tol tl msI xs2 ax2 bx2 h2 s2m sp eN x0n ax0n bx0n
      info oc = .next s2 i2 oc2) :
    s2.xs = xs2 ∧ s2.ax = ax2 ∧ s2.bx = bx2 ∧ s2.space = sp ∧
    (∀ v ∈ s2.xt, v.length = N) ∧ (∀ v ∈ s2.x0, v.length = N) := by
  unfold geTail at h
  dsimp only [] at h
  split_ifs at h
  all_goals try exact CycRes.noConfusion h
  all_goals
    obtain ⟨h1, h2a, h3⟩ := CycRes.next.inj h
    rw [← h1]
    refine ⟨rfl, rfl, rfl, rfl, ?_, hx0n⟩
    intro v hv
    dsimp only [] at hv
    obtain ⟨xi, hxi, hcond⟩ := List.mem_filterMap.mp hv
    split at hcond
    · rw [← Option.some.inj hcond, smulV_length]
      obtain ⟨x1, hx1, hfold⟩ := List.mem_map.mp hxi
      rw [← hfold]
      obtain ⟨k, hk, hsome⟩ := List.mem_filterMap.mp hx1
      rw [List.mem_range] at hk
      split at hsome
      · rw [← Option.some.inj hsome]
        refine reorthFold_length N xs2 hxs2 _ ?_
        rw [smulV_length, Hpre]
        rw [List.getD_eq_getElem _ _ (by simpa using hk), List.getElem_map,
          List.getElem_range]
        try split
        all_goals
          first
            | (rw [vsub_length, smulV_length,
                hax0n _ (getD_mem_of_lt ax0n k [] (lt_of_lt_of_le hk hal)),
                hbx0n _ (getD_mem_of_lt bx0n k [] (lt_of_lt_of_le hk hbl))]
               simp)
            | (rw [vsub_length, smulV_length,
                hax0n _ (getD_mem_of_lt ax0n k [] (lt_of_lt_of_le hk hal)),
                hx0n _ (getD_mem_of_lt x0n k [] (lt_of_lt_of_le hk hxl))]
               simp)
      · exact Option.noConfusion hsome
    · exact Option.noConfusion hcond



theorem geCycle_equiv (F : GeFns) (A B : List Vec) (ty : ℕ) (tol tl : ℚ)
    (nr msI : ℕ) (s : GeSt) (N : ℕ)
    (Hab : F.abop = fun vs => (matVecs A vs, matVecs B vs))
    (hAl : A.length = N) (HB : B.length = N) (hwf : WFg A B ty N s)
    (li1 ic1 li2 ic2 : Bool) :
    stripG (geCycle F ty tol tl nr msI li1 ic1 s) =
    stripG (geCycle F ty tol tl nr msI li2 ic2 s) := by
  unfold geCycle
  cases ho : geSolve F ty nr msI s with
  | error oc => rfl
  | ok o =>
    obtain ⟨w1, w2, w3, w4, w5⟩ := geSolve_wf F A B ty N nr msI s o Hab hwf ho
    have hA1 : (if 1 < ty then
        (F.abop (F.abop (assemble o.xs2 o.cols o.space)).2).1
        else (F.abop (assemble o.xs2 o.cols o.space)).1) =
        assemble o.ax2 o.cols o.space := by
      rw [axt_map F A B ty _ Hab, w2]
      exact assemble_comm (geOpA A B ty) N (geOpA_smul A B ty)
        (geOpA_vadd A B ty) (fun v => by rw [geOpA_length, hAl])
        o.xs2 o.cols o.space w1 w5 w4.symm.le
    have hB1 : (F.abop (assemble o.xs2 o.cols o.space)).2 =
        assemble o.bx2 o.cols o.space := by
      simp only [Hab]
      rw [w3]
      exact assemble_comm (matVec B) N (matVec_smulV B) (matVec_vadd B)
        (fun v => by rw [matVec_length, HB])
        o.xs2 o.cols o.space w1 w5 w4.symm.le
    dsimp only []
    rw [hA1, hB1]
    repeat' split
    all_goals
      first
        | (dsimp only []
           exact geTail_oc_irrel _ _ _ _ _ _ _ _ _ _ _ _ _ _ _ _ _ _)
        | dsimp only []

theorem geCycle_wf (F : GeFns) (A B : List Vec) (ty : ℕ) (tol tl : ℚ)
    (nr msI : ℕ) (li ic : Bool) (s : GeSt) (N : ℕ)
    (Hab : F.abop = fun vs => (matVecs A vs, matVecs B vs))
    (hAl : A.length = N) (HB : B.length = N)
    (Hpre : ∀ r e x, (F.precond r e x).length = r.length)
    (hwf : WFg A B ty N s) :
    ∀ s2 i oc2, geCycle F ty tol tl nr msI li ic s = .next s2 i oc2 →
      WFg A B ty N s2 := by
  intro s2 i oc2 h
  unfold geCycle at h
  cases ho : geSolve F ty nr msI s with
  | error oc =>
    rw [ho] at h
    exact CycRes.noConfusion h
  | ok o =>
    rw [ho] at h
    obtain ⟨w1, w2, w3, w4, w5⟩ := geSolve_wf F A B ty N nr msI s o Hab hwf ho
    obtain ⟨hcl, _⟩ := geSolve_shape F ty nr msI s o ho
    have hx0l : ∀ v ∈ assemble o.xs2 o.cols o.space, v.length = N :=
      assemble_lengths N o.xs2 o.cols o.space w1 w5 w4.symm.le
    have hxlen : (assemble o.xs2 o.cols o.space).length = o.eNew.length := by
      rw [assemble_length, hcl]
    have hax2N : ∀ v ∈ o.ax2, v.length = N := by
      rw [w2]
      intro v hv
      obtain ⟨u, _, hu⟩ := List.mem_map.mp hv
      rw [← hu, geOpA_length, hAl]
    have hbx2N : ∀ v ∈ o.bx2, v.length = N := by
      rw [w3]
      intro v hv
      rw [matVecs_lengths B o.xs2 v hv, HB]
    dsimp only [] at h
    split at h
    · dsimp only [] at h
      rw [axt_map F A B ty _ Hab] at h
      rw [show (F.abop (assemble o.xs2 o.cols o.space)).2 =
          matVecs B (assemble o.xs2 o.cols o.space) by simp [Hab]] at h
      obtain ⟨t1, t2, t3, t4, t5, t6⟩ := geTail_next_wf F ty tol tl msI N
        o.xs2 o.ax2 o.bx2 o.heff2 o.seff2 o.space o.eNew
        (assemble o.xs2 o.cols o.space)
        ((assemble o.xs2 o.cols o.space).map (geOpA A B ty))
        (matVecs B (assemble o.xs2 o.cols o.space))
        ⟨o.freshIn, o.space, o.de, o.eNew, false⟩ _ s2 i oc2 Hpre
        w1 hx0l
        (by
          intro v hv
          obtain ⟨u, _, hu⟩ := List.mem_map.mp hv
          rw [← hu, geOpA_length, hAl])
        (by
          intro v hv
          rw [matVecs_lengths B _ v hv, HB])
        hxlen.symm.le
        (by simp [hxlen])
        (by simp [matVecs, hxlen]) h
      refine ⟨?_, ?_, ?_, ?_, t5, t6⟩
      · rw [t1]; exact w1
      · rw [t2, t1]; exact w2
      · rw [t3, t1]; exact w3
      · rw [t1, t4]; exact w4
    · dsimp only [] at h
      obtain ⟨t1, t2, t3, t4, t5, t6⟩ := geTail_next_wf F ty tol tl msI N
        o.xs2 o.ax2 o.bx2 o.heff2 o.seff2 o.space o.eNew
        (assemble o.xs2 o.cols o.space)
        (assemble o.ax2 o.cols o.space)
        (assemble o.bx2 o.cols o.space)
        ⟨o.freshIn, o.space, o.de, o.eNew, false⟩ _ s2 i oc2 Hpre
        w1 hx0l
        (assemble_lengths N o.ax2 o.cols o.space hax2N w5
          (by rw [w2]; simp only [List.length_map]; omega))
        (assemble_lengths N o.bx2 o.cols o.space hbx2N w5
          (by rw [w3]; simp only [matVecs, List.length_map]; omega))
        hxlen.symm.le
        (by rw [assemble_length, hcl])
        (by rw [assemble_length, hcl]) h
      refine ⟨?_, ?_, ?_, ?_, t5, t6⟩
      · rw [t1]; exact w1
      · rw [t2, t1]; exact w2
      · rw [t3, t1]; exact w3
      · rw [t1, t4]; exact w4



theorem geLoop_c6 (F : GeFns) (A B : List Vec) (ty : ℕ) (tol tl : ℚ)
    (nr msI : ℕ) (N : ℕ)
    (Hab : F.abop = fun vs => (matVecs A vs, matVecs B vs))
    (hAl : A.length = N) (HB : B.length = N)
    (Hpre : ∀ r e x, (F.precond r e x).length = r.length)
    (li1 ic1 li2 ic2 : Bool) :
    ∀ (fuel : ℕ) (s : GeSt) (tr : List CInfo) (st oc1 oc0 : ℕ),
      WFg A B ty N s →
      (geLoop F ty tol tl nr msI li1 ic1 fuel s tr st oc1).term =
        (geLoop F ty tol tl nr msI li2 ic2 fuel s tr st oc0).term ∧
      (geLoop F ty tol tl nr msI li1 ic1 fuel s tr st oc1).res =
        (geLoop F ty tol tl nr msI li2 ic2 fuel s tr st oc0).res ∧
      (geLoop F ty tol tl nr msI li1 ic1 fuel s tr st oc1).finalE =
        (geLoop F ty tol tl nr msI li2 ic2 fuel s tr st oc0).finalE ∧
      (geLoop F ty tol tl nr msI li1 ic1 fuel s tr st oc1).finalX =
        (geLoop F ty tol tl nr msI li2 ic2 fuel s tr st oc0).finalX ∧
      (geLoop F ty tol tl nr msI li1 ic1 fuel s tr st oc1).trace =
        (geLoop F ty tol tl nr msI li2 ic2 fuel s tr st oc0).trace ∧
      (geLoop F ty tol tl nr msI li1 ic1 fuel s tr st oc1).started =
        (geLoop F ty tol tl nr msI li2 ic2 fuel s tr st oc0).started := by
  intro fuel
  induction fuel with
  | zero =>
    intro s tr st oc1 oc0 _
    simp only [geLoop]
    split_ifs <;> simp
  | succ n ih =>
    intro s tr st oc1 oc0 hwf
    have hstrip := geCycle_equiv F A B ty tol tl nr msI s N Hab hAl HB hwf
      li1 ic1 li2 ic2
    simp only [geLoop]
    cases hc1 : geCycle F ty tol tl nr msI li1 ic1 s with
    | crash oca =>
      cases hc2 : geCycle F ty tol tl nr msI li2 ic2 s with
      | crash ocb => exact ⟨rfl, rfl, rfl, rfl, rfl, rfl⟩
      | conv e2 x2 i2 ocb =>
        rw [hc1, hc2] at hstrip
        simp only [stripG] at hstrip
        exact CycRes.noConfusion hstrip
      | exh e2 x2 i2 ocb =>
        rw [hc1, hc2] at hstrip
        simp only [stripG] at hstrip
        exact CycRes.noConfusion hstrip
      | next s2b i2 ocb =>
        rw [hc1, hc2] at hstrip
        simp only [stripG] at hstrip
        exact CycRes.noConfusion hstrip
    | conv e1 x1 i1 oca =>
      cases hc2 : geCycle F ty tol tl nr msI li2 ic2 s with
      | crash ocb =>
        rw [hc1, hc2] at hstrip
        simp only [stripG] at hstrip
        exact CycRes.noConfusion hstrip
      | conv e2 x2 i2 ocb =>
        rw [hc1, hc2] at hstrip
        simp only [stripG] at hstrip
        obtain ⟨he, hx, hi, _⟩ := CycRes.conv.inj hstrip
        subst he
        subst hx
        subst hi
        exact ⟨rfl, rfl, rfl, rfl, rfl, rfl⟩
      | exh e2 x2 i2 ocb =>
        rw [hc1, hc2] at hstrip
        simp only [stripG] at hstrip
        exact CycRes.noConfusion hstrip
      | next s2b i2 ocb =>
        rw [hc1, hc2] at hstrip
        simp only [stripG] at hstrip
        exact CycRes.noConfusion hstrip
    | exh e1 x1 i1 oca =>
      cases hc2 : geCycle F ty tol tl nr msI li2 ic2 s with
      | crash ocb =>
        rw [hc1, hc2] at hstrip
        simp only [stripG] at hstrip
        exact CycRes.noConfusion hstrip
      | conv e2 x2 i2 ocb =>
        rw [hc1, hc2] at hstrip
        simp only [stripG] at hstrip
        exact CycRes.noConfusion hstrip
      | exh e2 x2 i2 ocb =>
        rw [hc1, hc2] at hstrip
        simp only [stripG] at hstrip
        obtain ⟨he, hx, hi, _⟩ := CycRes.exh.inj hstrip
        subst he
        subst hx
        subst hi
        exact ⟨rfl, rfl, rfl, rfl, rfl, rfl⟩
      | next s2b i2 ocb =>
        rw [hc1, hc2] at hstrip
        simp only [stripG] at hstrip
        exact CycRes.noConfusion hstrip
    | next s2 i1 oca =>
      cases hc2 : geCycle F ty tol tl nr msI li2 ic2 s with
      | crash ocb =>
        rw [hc1, hc2] at hstrip
        simp only [stripG] at hstrip
        exact CycRes.noConfusion hstrip
      | conv e2 x2 i2 ocb =>
        rw [hc1, hc2] at hstrip
        simp only [stripG] at hstrip
        exact CycRes.noConfusion hstrip
      | exh e2 x2 i2 ocb =>
        rw [hc1, hc2] at hstrip
        simp only [stripG] at hstrip
        exact CycRes.noConfusion hstrip
      | next s2b i2 ocb =>
        rw [hc1, hc2] at hstrip
        simp only [stripG] at hstrip
        obtain ⟨hs, hi, _⟩ := CycRes.next.inj hstrip
        subst hs
        subst hi
        exact ih s2 (tr ++ [i1]) (st + 1) (oc1 + oca) (oc0 + ocb)
          (geCycle_wf F A B ty tol tl nr msI li1 ic1 s N Hab hAl HB Hpre hwf
            s2 i1 oca hc1)

theorem geRun_c6 (F : GeFns) (A B : List Vec) (x0 : List Vec) (ty : ℕ)
    (tol : ℚ) (mc ms : ℕ) (l mm1 mm2 : ℚ) (nr : ℕ) (li1 li2 : Bool)
    (Hab : F.abop = fun vs => (matVecs A vs, matVecs B vs))
    (HB : B.length = A.length)
    (Hpre : ∀ r e x, (F.precond r e x).length = r.length)
    (hvx : ∀ v ∈ x0, v.length = A.length) :
    (geRun F x0 ty tol mc ms l mm1 nr li1).term =
      (geRun F x0 ty tol mc ms l mm2 nr li2).term ∧
    (geRun F x0 ty tol mc ms l mm1 nr li1).res =
      (geRun F x0 ty tol mc ms l mm2 nr li2).res ∧
    (geRun F x0 ty tol mc ms l mm1 nr li1).finalE =
      (geRun F x0 ty tol mc ms l mm2 nr li2).finalE ∧
    (geRun F x0 ty tol mc ms l mm1 nr li1).finalX =
      (geRun F x0 ty tol mc ms l mm2 nr li2).finalX ∧
    (geRun F x0 ty tol mc ms l mm1 nr li1).trace =
      (geRun F x0 ty tol mc ms l mm2 nr li2).trace ∧
    (geRun F x0 ty tol mc ms l mm1 nr li1).started =
      (geRun F x0 ty tol mc ms l mm2 nr li2).started := by
  cases x0 with
  | nil => exact ⟨rfl, rfl, rfl, rfl, rfl, rfl⟩
  | cons g0 rest =>
    unfold geRun
    dsimp only []
    by_cases hz : g0.length = 0
    · simp only [if_pos hz]
      refine ⟨?_, ?_, ?_, ?_, ?_, ?_⟩ <;> trivial
    · simp only [if_neg hz]
      exact geLoop_c6 F A B ty tol _ nr _ A.length Hab rfl HB Hpre li1 _ li2 _
        _ _ _ _ _ _
        ⟨fun v hv => absurd hv (List.not_mem_nil v), rfl, rfl, rfl,
         fun v hv => absurd hv (List.not_mem_nil v), hvx⟩

/-! # Claims -/

/-- **C8**: for every eigenvalue array `w`, eigenvector matrix `v` and count
`nroots`, the default selector `pickeig` returns at most `nroots` indices,
each pointing at an eigenvalue with imaginary part exactly zero, the
selected eigenvalues are in ascending order of real part, and they are the
smallest such real eigenvalues (every unselected real eigenvalue is at
least as large as every selected one). -/
theorem c8_theorem (w : List Cx) (v : List (List Cx)) (nroots : ℕ) :
    (pickeig w v nroots).length ≤ nroots ∧
    (∀ i ∈ pickeig w v nroots, i < w.length ∧ (w.getD i ⟨0, 0⟩).im = 0) ∧
    List.Chain' (· ≤ ·)
      ((pickeig w v nroots).map (fun i => (w.getD i ⟨0, 0⟩).re)) ∧
    (∀ i ∈ pickeig w v nroots, ∀ j, j < w.length →
      (w.getD j ⟨0, 0⟩).im = 0 → j ∉ pickeig w v nroots →
      (w.getD i ⟨0, 0⟩).re ≤ (w.getD j ⟨0, 0⟩).re) := by
  refine ⟨?_, pickeig_mem_realidx w v nroots, ?_, pickeig_min w v nroots⟩
  · rw [pickeig_take]; exact le_trans (List.length_take_le _ _) le_rfl
  · exact (List.chain'_map _).mpr (pickeig_sorted w v nroots).chain'

/-- Witness for `c8_theorem`: the concrete spectrum `wEx` with
`nroots = 2`, whose selection evaluates to `[2, 0]` (the real eigenvalues
0 and 3 in ascending order, skipping the strictly complex entry). -/
theorem c8_witness :
    pickeig wEx [] 2 = [2, 0] ∧
    ((pickeig wEx [] 2).length ≤ 2 ∧
     (∀ i ∈ pickeig wEx [] 2, i < wEx.length ∧ (wEx.getD i ⟨0, 0⟩).im = 0) ∧
     List.Chain' (· ≤ ·)
       ((pickeig wEx [] 2).map (fun i => (wEx.getD i ⟨0, 0⟩).re)) ∧
     (∀ i ∈ pickeig wEx [] 2, ∀ j, j < wEx.length →
       (wEx.getD j ⟨0, 0⟩).im = 0 → j ∉ pickeig wEx [] 2 →
       (wEx.getD i ⟨0, 0⟩).re ≤ (wEx.getD j ⟨0, 0⟩).re)) :=
  ⟨by decide, c8_theorem wEx [] 2⟩

/-- **C9**: the `lindep` argument has no effect: two calls to `eig`
(respectively `dgeev`) identical except for `lindep` return identical
results.  In the source `lindep` is accepted (lines 16-18, 257-260) and
never read. -/
theorem c9_theorem :
    (∀ (F : EigFns) (x0 : List Vec) (tol : ℚ) (mc ms : ℕ) (l₁ l₂ mm : ℚ)
      (nr : ℕ) (li : Bool),
      eigRun F x0 tol mc ms l₁ mm nr li = eigRun F x0 tol mc ms l₂ mm nr li) ∧
    (∀ (F : GeFns) (x0 : List Vec) (ty : ℕ) (tol : ℚ) (mc ms : ℕ)
      (l₁ l₂ mm : ℚ) (nr : ℕ) (li : Bool),
      geRun F x0 ty tol mc ms l₁ mm nr li =
        geRun F x0 ty tol mc ms l₂ mm nr li) :=
  ⟨fun _ _ _ _ _ _ _ _ _ _ => rfl, fun _ _ _ _ _ _ _ _ _ _ _ => rfl⟩

/-- **C10**: each solver executes at most `min max_cycle N` outer cycles,
where `N` is the dimension of the first guess vector (`max_cycle` is
reduced to `min(max_cycle, x0[0].size)` before the loop, lines 90 / 287). -/
theorem c10_theorem :
    (∀ (F : EigFns) (x0 : List Vec) (tol : ℚ) (mc ms : ℕ) (l mm : ℚ)
      (nr : ℕ) (li : Bool),
      (eigRun F x0 tol mc ms l mm nr li).started ≤
        min mc ((x0.headD []).length)) ∧
    (∀ (F : GeFns) (x0 : List Vec) (ty : ℕ) (tol : ℚ) (mc ms : ℕ)
      (l mm : ℚ) (nr : ℕ) (li : Bool),
      (geRun F x0 ty tol mc ms l mm nr li).started ≤
        min mc ((x0.headD []).length)) := by
  constructor
  · intro F x0 tol mc ms l mm nr li
    cases x0 with
    | nil => simp [eigRun]
    | cons g0 rest =>
      simp only [eigRun]
      split
      · simp
      · simpa using eigLoop_started F tol _ nr _ li _ (min mc g0.length)
          ⟨[], [], 0, fun _ _ => 0, [], [], g0 :: rest, true⟩ [] 0 0
  · intro F x0 ty tol mc ms l mm nr li
    cases x0 with
    | nil => simp [geRun]
    | cons g0 rest =>
      simp only [geRun]
      split
      · simp
      · simpa using geLoop_started F ty tol _ nr _ li _ (min mc g0.length)
          ⟨[], [], [], 0, fun _ _ => 0, fun _ _ => 0, [], [], g0 :: rest, true⟩ [] 0 0

/-- **C2** (amended): the subspace dimension recorded by any completed
cycle never exceeds `max_space + nroots*2`, the bound the code actually
enforces after inflating the caller's `max_space` (line 91 / 288) — the
caller's own value can be exceeded (see the counterexample).  When
appending the surviving trial vectors would overflow that bound, the
forced-restart flag for the next cycle is exactly
`space + len(xt) > max_space` (line 239 / 405), and a fresh-start cycle
rebuilds the basis by orthonormalizing the held `x0` — the Ritz vectors of
the previous cycle. -/
theorem c2_theorem :
    (∀ (F : EigFns) (x0 : List Vec) (tol : ℚ) (mc ms : ℕ) (l mm : ℚ)
      (nr : ℕ) (li : Bool),
      ∀ j ∈ (eigRun F x0 tol mc ms l mm nr li).trace,
        j.space ≤ ms + nr * 2) ∧
    (∀ (F : GeFns) (x0 : List Vec) (ty : ℕ) (tol : ℚ) (mc ms : ℕ)
      (l mm : ℚ) (nr : ℕ) (li : Bool),
      ∀ j ∈ (geRun F x0 ty tol mc ms l mm nr li).trace,
        j.space ≤ ms + nr * 2) ∧
    (∀ (F : EigFns) (tol tl : ℚ) (nr msI : ℕ) (li ic : Bool) (s s' : ESt)
      (i2 : CInfo) (oc2 : ℕ),
      eigCycle F tol tl nr msI li ic s = .next s' i2 oc2 →
      s'.fresh = decide (msI < s'.space + s'.xt.length)) ∧
    (∀ (F : GeFns) (ty : ℕ) (tol tl : ℚ) (nr msI : ℕ) (li ic : Bool)
      (s s' : GeSt) (i2 : CInfo) (oc2 : ℕ),
      geCycle F ty tol tl nr msI li ic s = .next s' i2 oc2 →
      s'.fresh = decide (msI < s'.space + s'.xt.length)) ∧
    (∀ (F : EigFns) (nr msI : ℕ) (s : ESt) (o : ESolveOut),
      s.fresh = true → eigSolve F nr msI s = .ok o →
      o.xs2 = qr F.sqrt s.x0) ∧
    (∀ (F : GeFns) (ty nr msI : ℕ) (s : GeSt) (o : GSolveOut),
      s.fresh = true → geSolve F ty nr msI s = .ok o →
      o.xs2 = qr F.sqrt s.x0) := by
  refine ⟨?_, ?_, ?_, ?_, ?_, ?_⟩
  · intro F x0 tol mc ms l mm nr li j hj
    cases x0 with
    | nil => simp [eigRun] at hj
    | cons g0 rest =>
      simp only [eigRun] at hj
      split at hj
      · simp at hj
      · exact eigLoop_trace_space F tol _ nr _ li _ _ _ _ _ _ (by simp) j hj
  · intro F x0 ty tol mc ms l mm nr li j hj
    cases x0 with
    | nil => simp [geRun] at hj
    | cons g0 rest =>
      simp only [geRun] at hj
      split at hj
      · simp at hj
      · exact geLoop_trace_space F ty tol _ nr _ li _ _ _ _ _ _ (by simp) j hj
  · exact fun F tol tl nr msI li ic s s' i2 oc2 h =>
      eigCycle_next_fresh F tol tl nr msI li ic s s' i2 oc2 h
  · exact fun F ty tol tl nr msI li ic s s' i2 oc2 h =>
      geCycle_next_fresh F ty tol tl nr msI li ic s s' i2 oc2 h
  · exact fun F nr msI s o hf h => eigSolve_fresh_xs F nr msI s o hf h
  · exact fun F ty nr msI s o hf h => geSolve_fresh_xs F ty nr msI s o hf h

/-- Witness for `c2_theorem`: concrete runs and cycles for every part —
the `eig` run of the counterexample (trace entry with `space = 2`), a
`dgeev` run, first cycles producing `.next` states, and fresh-start solve
phases seeding from the held guess. -/
theorem c2_witness :
    ((⟨false, 2, [-16], [0], false⟩ : CInfo) ∈
        (eigRun FA [[1, 0]] 0 10 1 0 2000 1 false).trace ∧
      (⟨false, 2, [-16], [0], false⟩ : CInfo).space ≤ 1 + 1 * 2) ∧
    ((⟨true, 1, [16], [16], false⟩ : CInfo) ∈
        (geRun GA [[1, 0]] 1 (1/10^14) 50 12 (1/10^14) 2000 2 false).trace ∧
      (⟨true, 1, [16], [16], false⟩ : CInfo).space ≤ 12 + 2 * 2) ∧
    (eigCycle FA 0 0 1 3 false true (eInit [[1, 0]]) =
        .next c2NextE ⟨true, 1, [16], [16], false⟩ 1 ∧
      c2NextE.fresh = decide (3 < c2NextE.space + c2NextE.xt.length)) ∧
    (geCycle GB 1 0 0 1 16 false true (gInit [[1, 0]]) =
        .next c2NextG ⟨true, 1, [16], [16], false⟩ 1 ∧
      c2NextG.fresh = decide (16 < c2NextG.space + c2NextG.xt.length)) ∧
    ((eInit [[1, 0]]).fresh = true ∧
      eigSolve FA 1 3 (eInit [[1, 0]]) = .ok c2SolveE ∧
      c2SolveE.xs2 = qr sqrtQ (eInit [[1, 0]]).x0) ∧
    ((gInit [[1, 0]]).fresh = true ∧
      geSolve GB 1 1 16 (gInit [[1, 0]]) = .ok c2SolveG ∧
      c2SolveG.xs2 = qr sqrtQ (gInit [[1, 0]]).x0) :=
  ⟨⟨by decide, c2_theorem.1 FA [[1, 0]] 0 10 1 0 2000 1 false _ (by decide)⟩,
   ⟨by decide, c2_theorem.2.1 GA [[1, 0]] 1 (1/10^14) 50 12 (1/10^14) 2000 2
      false _ (by decide)⟩,
   ⟨rfl, c2_theorem.2.2.1 FA 0 0 1 3 false true (eInit [[1, 0]]) c2NextE
      ⟨true, 1, [16], [16], false⟩ 1 rfl⟩,
   ⟨rfl, c2_theorem.2.2.2.1 GB 1 0 0 1 16 false true (gInit [[1, 0]]) c2NextG
      ⟨true, 1, [16], [16], false⟩ 1 rfl⟩,
   ⟨rfl, rfl, c2_theorem.2.2.2.2.1 FA 1 3 (eInit [[1, 0]]) c2SolveE rfl rfl⟩,
   ⟨rfl, rfl, c2_theorem.2.2.2.2.2 GB 1 1 16 (gInit [[1, 0]]) c2SolveG rfl rfl⟩⟩

/-- **C3** (amended): on the very first small-eigenproblem solve after any
fresh start the eigenvalue deltas are *not* skipped: the register `e` is
zero-initialized (`e = numpy.zeros(nroots)`), so the recorded deltas equal
the raw selected eigenvalues (`de = w - 0`, or `de = w[:nroots]` in the
short-selection branch), and the delta-based convergence check is applied
to them — it can therefore fire on the first solve (see the
counterexample) whenever the selected eigenvalues are all within `tol` of
zero. -/
theorem c3_theorem :
    (∀ (F : EigFns) (tol tl : ℚ) (nr msI : ℕ) (li ic : Bool) (s : ESt)
      (i : CInfo), s.fresh = true →
      cycInfo (eigCycle F tol tl nr msI li ic s) = some i →
      i.de = i.e ∧ i.fresh = true) ∧
    (∀ (F : GeFns) (ty : ℕ) (tol tl : ℚ) (nr msI : ℕ) (li ic : Bool)
      (s : GeSt) (i : CInfo), s.fresh = true →
      cycInfo (geCycle F ty tol tl nr msI li ic s) = some i →
      i.de = i.e ∧ i.fresh = true) :=
  ⟨fun F tol tl nr msI li ic s i => c3_eig F tol tl nr msI li ic s i,
   fun F ty tol tl nr msI li ic s i => c3_ge F ty tol tl nr msI li ic s i⟩

/-- Witness for `c3_theorem`: concrete fresh-start cycles of both solvers
(`eig` on `matSwap`, `dgeev` on `(matA, I)`), whose recorded deltas equal
the raw first-cycle eigenvalues. -/
theorem c3_witness :
    (cycInfo (eigCycle FS (1/10^14) (1/10^9) 1 14 false true
        ⟨[], [], 0, fun _ _ => 0, [], [], [[1, 0]], true⟩) =
      some ⟨true, 1, [0], [0], true⟩ ∧
     (⟨true, 1, [0], [0], true⟩ : CInfo).de = (⟨true, 1, [0], [0], true⟩ : CInfo).e ∧
     (⟨true, 1, [0], [0], true⟩ : CInfo).fresh = true) ∧
    (cycInfo (geCycle GA 1 (1/10^14) (1/10^9) 2 16 false true
        ⟨[], [], [], 0, fun _ _ => 0, fun _ _ => 0, [], [], [[1, 0]], true⟩) =
      some ⟨true, 1, [16], [16], false⟩ ∧
     (⟨true, 1, [16], [16], false⟩ : CInfo).de =
       (⟨true, 1, [16], [16], false⟩ : CInfo).e ∧
     (⟨true, 1, [16], [16], false⟩ : CInfo).fresh = true) :=
  ⟨⟨by decide,
    c3_theorem.1 FS (1/10^14) (1/10^9) 1 14 false true
      ⟨[], [], 0, fun _ _ => 0, [], [], [[1, 0]], true⟩
      ⟨true, 1, [0], [0], true⟩ rfl (by decide)⟩,
   ⟨by decide,
    c3_theorem.2 GA 1 (1/10^14) (1/10^9) 2 16 false true
      ⟨[], [], [], 0, fun _ _ => 0, fun _ _ => 0, [], [], [[1, 0]], true⟩
      ⟨true, 1, [16], [16], false⟩ rfl (by decide)⟩⟩

/-- **C1** (counterexample): `eig` called with `nroots = 2` on `matSwap`
with a single guess vector reaches the return statement but returns only
one eigenvalue paired with one eigenvector, not two of each. -/
theorem c1_counterexample :
    (eigRun FS [[1, 0]] (1/10^14) 50 12 (1/10^14) 2000 2 false).res =
      some (Outcome.many [0] [[1, 0]]) ∧
    ([(0 : ℚ)].length = 2 → False) := by decide

/-- **C2** (counterexample): `eig` called with `max_space = 1` reaches
subspace dimension 2 in its second cycle, so the variable `space` exceeds
the caller's `max_space` argument (the code only bounds it by
`max_space + nroots*2`, line 288). -/
theorem c2_counterexample :
    ((eigRun FA [[1, 0]] 0 10 1 0 2000 1 false).trace.map CInfo.space) =
      [1, 2] ∧ ¬ (2 ≤ 1) := by decide

/-- **C3** (counterexample): on the very first small-eigenproblem solve of
the initial fresh start the per-root deltas are not skipped: they are taken
against the zero-initialized eigenvalues (`de = w[:nroots] - 0`), and the
delta-based check fires.  `eig` on `matSwap` converges in cycle 0 (the one
fresh cycle, with the check-A flag set) because `heff[0,0] = 0` is within
`tol` of the zero initialization — even though `[1,0]` is no eigenvector
of `matSwap`. -/
theorem c3_counterexample :
    (eigRun FS [[1, 0]] (1/10^14) 50 12 (1/10^14) 2000 1 false).term =
      TermKind.converged ∧
    (eigRun FS [[1, 0]] (1/10^14) 50 12 (1/10^14) 2000 1 false).trace =
      [⟨true, 1, [0], [0], true⟩] := by decide

/-- **C5** (counterexample): `dgeev` with `type = 3` and `nroots = 2`
hitting linear-dependence exhaustion with only one available Ritz vector
raises (IndexError in the post-loop B-transform, lines 244-246) instead of
returning best-available Ritz pairs. -/
theorem c5_counterexample :
    (geRun GA [[1, 0]] 3 (1/10^14) 50 12 (1/10^14) 2000 2 false).term =
      TermKind.lindep ∧
    (geRun GA [[1, 0]] 3 (1/10^14) 50 12 (1/10^14) 2000 2 false).res =
      none := by decide

/-- **C7** (counterexample): with guess dimension 2 and operator images of
dimension 3, `eig` does not fail before iterating: the first outer cycle
starts and the operator callback is invoked once; the failure surfaces
only afterwards (mismatched inner product in the projected-matrix build). -/
theorem c7_counterexample :
    (eigRun FMis [[1, 0]] (1/10^14) 50 12 (1/10^14) 2000 1 false).started = 1 ∧
    (eigRun FMis [[1, 0]] (1/10^14) 50 12 (1/10^14) 2000 1 false).opCalls = 1 ∧
    (eigRun FMis [[1, 0]] (1/10^14) 50 12 (1/10^14) 2000 1 false).res = none := by
  decide

/-- **C5**: when the Davidson loop exhausts all candidate directions
(linear-dependence break at lines 205-208 / 399-401), both solvers return
normally, in the same shape as a converged run, built from the best
eigenpairs available so far: a scalar/vector pair when `nroots = 1` and
paired lists otherwise.  The one exception, excluded by the hypothesis,
is `type = 3` with fewer than `nroots` held Ritz vectors, where the
post-loop transform `x0[k] = abop(x0[k])[1]` raises IndexError
(witnessed separately by the counterexample). -/
theorem c5_theorem :
    (∀ (F : EigFns) (x0 : List Vec) (tol : ℚ) (mc ms : ℕ) (l mm : ℚ)
      (nr : ℕ) (li : Bool),
      (eigRun F x0 tol mc ms l mm nr li).term = .lindep →
      ∃ o, (eigRun F x0 tol mc ms l mm nr li).res = some o ∧
        (nr = 1 → ∃ a b, o = .one a b) ∧
        (nr ≠ 1 → o = .many (eigRun F x0 tol mc ms l mm nr li).finalE
          (eigRun F x0 tol mc ms l mm nr li).finalX)) ∧
    (∀ (F : GeFns) (x0 : List Vec) (ty : ℕ) (tol : ℚ) (mc ms : ℕ)
      (l mm : ℚ) (nr : ℕ) (li : Bool),
      (geRun F x0 ty tol mc ms l mm nr li).term = .lindep →
      (ty ≠ 3 ∨ nr ≤ (geRun F x0 ty tol mc ms l mm nr li).finalX.length) →
      ∃ o, (geRun F x0 ty tol mc ms l mm nr li).res = some o ∧
        (nr = 1 → ∃ a b, o = .one a b) ∧
        (nr ≠ 1 → ∃ xs,
          o = .many (geRun F x0 ty tol mc ms l mm nr li).finalE xs)) := by
  constructor
  · intro F x0 tol mc ms l mm nr li ht
    cases x0 with
    | nil => simp [eigRun] at ht
    | cons g0 rest =>
      unfold eigRun at ht ⊢
      dsimp only [] at ht ⊢
      split at ht
      · simp at ht
      · rename_i hz
        rw [if_neg hz]
        obtain ⟨h1, h2, h3⟩ := eigLoop_lindep F tol _ nr _ li _ _ _ _ _ _ ht
        obtain ⟨o, ho, hsh1, hsh2⟩ := fmtRes_some nr _ _ h1 h2
        exact ⟨o, by rw [h3]; exact ho, hsh1, fun hn => by rw [hsh2 hn]⟩
  · intro F x0 ty tol mc ms l mm nr li ht hty
    cases x0 with
    | nil => simp [geRun] at ht
    | cons g0 rest =>
      unfold geRun at ht hty ⊢
      dsimp only [] at ht hty ⊢
      split at ht
      · simp at ht
      · rename_i hz
        rw [if_neg hz]
        rw [if_neg hz] at hty
        obtain ⟨h1, h2, h3⟩ := geLoop_lindep F ty tol _ nr _ li _ _ _ _ _ _ ht
        obtain ⟨x1, hx1, hlen⟩ := gePost_ok F ty nr _ hty
        obtain ⟨o, ho, hsh1, hsh2⟩ := fmtRes_some nr _ x1 h1 (by rw [hlen, h2])
        refine ⟨o, ?_, hsh1, fun hn => ⟨x1, by rw [hsh2 hn]⟩⟩
        rw [h3]
        unfold geFin
        rw [hx1]
        exact ho

theorem c5_witness :
    (∃ o, (eigRun FA [[1, 0]] 0 10 1 0 2000 1 false).res = some o ∧
      ((1 : ℕ) = 1 → ∃ a b, o = Outcome.one a b) ∧
      ((1 : ℕ) ≠ 1 →
        o = Outcome.many (eigRun FA [[1, 0]] 0 10 1 0 2000 1 false).finalE
          (eigRun FA [[1, 0]] 0 10 1 0 2000 1 false).finalX)) ∧
    (∃ o,
      (geRun GA [[1, 0]] 1 (1/10^14) 50 12 (1/10^14) 2000 2 false).res =
        some o ∧
      ((2 : ℕ) = 1 → ∃ a b, o = Outcome.one a b) ∧
      ((2 : ℕ) ≠ 1 → ∃ xs,
        o = Outcome.many
          (geRun GA [[1, 0]] 1 (1/10^14) 50 12 (1/10^14) 2000 2 false).finalE
          xs)) :=
  ⟨c5_theorem.1 FA [[1, 0]] 0 10 1 0 2000 1 false (by decide),
   c5_theorem.2 GA [[1, 0]] 1 (1/10^14) 50 12 (1/10^14) 2000 2 false
     (by decide) (Or.inl (by decide))⟩

/-- **C1** (amended): whenever `eig` or `dgeev` reaches its return
statement (`res = some o`), the result has the converged shape —
a single scalar eigenvalue with a single eigenvector for `nroots = 1`,
and otherwise parallel sequences of equal length, at most `nroots` long,
with the eigenvalues ascending.  The count can fall short of `nroots`
(see the counterexample), so "exactly nroots entries" is weakened to
"at most".  The `eig` half assumes the default selector `pick = pickeig`;
the `dgeev` half assumes the `scipy.linalg.eigh` oracle returns its
eigenvalues in ascending order, which the library guarantees. -/
theorem c1_theorem :
    (∀ (F : EigFns) (x0 : List Vec) (tol : ℚ) (mc ms : ℕ) (l mm : ℚ)
      (nr : ℕ) (li : Bool) (o : Outcome),
      F.pick = pickeig →
      (eigRun F x0 tol mc ms l mm nr li).res = some o →
      (nr = 1 → ∃ a b, o = Outcome.one a b) ∧
      (nr ≠ 1 → ∃ es xs, o = Outcome.many es xs ∧ es.length = xs.length ∧
        es.length ≤ nr ∧ List.Pairwise (· ≤ ·) es)) ∧
    (∀ (F : GeFns) (x0 : List Vec) (ty : ℕ) (tol : ℚ) (mc ms : ℕ)
      (l mm : ℚ) (nr : ℕ) (li : Bool) (o : Outcome),
      (∀ a b, List.Pairwise (· ≤ ·) (F.eighO a b).1) →
      (geRun F x0 ty tol mc ms l mm nr li).res = some o →
      (nr = 1 → ∃ a b, o = Outcome.one a b) ∧
      (nr ≠ 1 → ∃ es xs, o = Outcome.many es xs ∧ es.length = xs.length ∧
        es.length ≤ nr ∧ List.Pairwise (· ≤ ·) es)) := by
  constructor
  · intro F x0 tol mc ms l mm nr li o hp ho
    cases x0 with
    | nil => simp [eigRun] at ho
    | cons g0 rest =>
      unfold eigRun at ho
      dsimp only [] at ho
      split at ho
      · simp at ho
      · exact eigLoop_c1 F tol _ nr _ li _ hp _ _ _ _ _
          (fun h => absurd rfl h) o ho
  · intro F x0 ty tol mc ms l mm nr li o hsrt ho
    cases x0 with
    | nil => simp [geRun] at ho
    | cons g0 rest =>
      unfold geRun at ho
      dsimp only [] at ho
      split at ho
      · simp at ho
      · exact geLoop_c1 F ty tol _ nr _ li _ hsrt _ _ _ _ _
          (fun h => absurd rfl h) o ho

/-- Witness for `c1_theorem`: both halves applied to concrete runs —
`eig` on `matSwap` with `nroots = 1` (scalar/vector result) and `dgeev`
type 1 on `(matA, I)` with `nroots = 2` (one surviving Ritz pair, a
sorted length-1 list). -/
theorem c1_witness :
    (((1 : ℕ) = 1 →
        ∃ a b, (Outcome.one 0 [1, 0] : Outcome) = Outcome.one a b) ∧
     ((1 : ℕ) ≠ 1 → ∃ es xs,
        (Outcome.one 0 [1, 0] : Outcome) = Outcome.many es xs ∧
        es.length = xs.length ∧ es.length ≤ 1 ∧
        List.Pairwise (· ≤ ·) es)) ∧
    (((2 : ℕ) = 1 →
        ∃ a b, (Outcome.many [16] [[1, 0]] : Outcome) = Outcome.one a b) ∧
     ((2 : ℕ) ≠ 1 → ∃ es xs,
        (Outcome.many [16] [[1, 0]] : Outcome) = Outcome.many es xs ∧
        es.length = xs.length ∧ es.length ≤ 2 ∧
        List.Pairwise (· ≤ ·) es)) :=
  ⟨c1_theorem.1 FS [[1, 0]] (1/10^14) 50 12 (1/10^14) 2000 1 false
     (Outcome.one 0 [1, 0]) rfl (by decide),
   c1_theorem.2 GA [[1, 0]] 1 (1/10^14) 50 12 (1/10^14) 2000 2 false
     (Outcome.many [16] [[1, 0]])
     (fun a b => List.Pairwise.cons (by simp) List.Pairwise.nil)
     (by decide)⟩

/-- **C7** (amended): there is no fail-fast input validation.  For every
call of either solver whose guess list is nonempty and whose guess vectors
share one nonzero dimension, with a positive cycle budget — including
every call whose guess dimension does not match the operator's output
dimension — the first outer cycle is entered and the operator callback is
invoked at least once before any failure can surface (the mismatch is only
hit inside the first cycle's projected-matrix build; see the
counterexample for the concrete crash).  The uniform-dimension condition
scopes the statement to guess lists whose own orthogonalization cannot
raise: a ragged guess list instead raises inside `qr`'s `numpy.dot`,
before the operator runs — still with no descriptive validation. -/
theorem c7_theorem :
    (∀ (F : EigFns) (g0 : Vec) (rest : List Vec) (tol : ℚ) (mc ms : ℕ)
      (l mm : ℚ) (nr : ℕ) (li : Bool),
      g0.length ≠ 0 → (∀ v ∈ rest, v.length = g0.length) → 1 ≤ mc →
      1 ≤ (eigRun F (g0 :: rest) tol mc ms l mm nr li).started ∧
      1 ≤ (eigRun F (g0 :: rest) tol mc ms l mm nr li).opCalls) ∧
    (∀ (F : GeFns) (g0 : Vec) (rest : List Vec) (ty : ℕ) (tol : ℚ)
      (mc ms : ℕ) (l mm : ℚ) (nr : ℕ) (li : Bool),
      g0.length ≠ 0 → (∀ v ∈ rest, v.length = g0.length) → 1 ≤ mc →
      1 ≤ (geRun F (g0 :: rest) ty tol mc ms l mm nr li).started ∧
      1 ≤ (geRun F (g0 :: rest) ty tol mc ms l mm nr li).opCalls) := by
  constructor
  · intro F g0 rest tol mc ms l mm nr li hg _ hmc
    unfold eigRun
    dsimp only []
    rw [if_neg hg]
    exact eigLoop_c7 F tol _ nr _ li _ _ _ _ _ _ rfl (by simp) (by omega)
  · intro F g0 rest ty tol mc ms l mm nr li hg _ hmc
    unfold geRun
    dsimp only []
    rw [if_neg hg]
    exact geLoop_c7 F ty tol _ nr _ li _ _ _ _ _ _ rfl (by simp) (by omega)

/-- Witness for `c7_theorem`: the mismatched-operator `eig` call of the
counterexample (guess dimension 2, images of dimension 3) and a well-typed
`dgeev` call both enter the loop and invoke their operator. -/
theorem c7_witness :
    (1 ≤ (eigRun FMis [[1, 0]] (1/10^14) 50 12 (1/10^14) 2000 1 false).started ∧
     1 ≤ (eigRun FMis [[1, 0]] (1/10^14) 50 12 (1/10^14) 2000 1 false).opCalls) ∧
    (1 ≤ (geRun GA [[1, 0]] 1 (1/10^14) 50 12 (1/10^14) 2000 2 false).started ∧
     1 ≤ (geRun GA [[1, 0]] 1 (1/10^14) 50 12 (1/10^14) 2000 2 false).opCalls) :=
  ⟨c7_theorem.1 FMis [1, 0] [] (1/10^14) 50 12 (1/10^14) 2000 1 false
     (by decide) (fun v hv => absurd hv (List.not_mem_nil v)) (by decide),
   c7_theorem.2 GA [1, 0] [] 1 (1/10^14) 50 12 (1/10^14) 2000 2 false
     (by decide) (fun v hv => absurd hv (List.not_mem_nil v)) (by decide)⟩

/-- **C4**: over the reals (the numerics the floating-point code
approximates), for every nonempty input whose vectors share dimension `N`
and whose first vector is nonzero, the one-pass sequential Gram-Schmidt
`qr` produces vectors of dimension `N` that are exactly unit-norm and
pairwise orthogonal, and its first output is the first input normalized.
(Candidates other than the first need not be nonzero: they are dropped by
the `1e-7` residual-norm threshold.) -/
theorem c4_theorem (N : ℕ) (x : List ℝ) (rest : List (List ℝ))
    (hx : x.length = N) (hrest : ∀ v ∈ rest, v.length = N)
    (hx0 : 0 < dotL x x) :
    (∀ q ∈ qr Real.sqrt (x :: rest), q.length = N) ∧
    (∀ q ∈ qr Real.sqrt (x :: rest), dotL q q = 1) ∧
    List.Pairwise (fun a b => dotL a b = 0) (qr Real.sqrt (x :: rest)) ∧
    (qr Real.sqrt (x :: rest)).headD [] = divV x (normV Real.sqrt x) :=
  qr_orthonormal Real.sqrt (fun y hy => Real.mul_self_sqrt hy)
    (fun y hy => Real.sqrt_pos.mp hy) N x rest hx hrest hx0

/-- Witness for `c4_theorem`: the concrete orthonormal pair seeded by
`e1`, `e2`. -/
theorem c4_witness :
    (∀ q ∈ qr Real.sqrt [[1, 0], [0, 1]], q.length = 2) ∧
    (∀ q ∈ qr Real.sqrt [[1, 0], [0, 1]], dotL q q = 1) ∧
    List.Pairwise (fun a b => dotL a b = 0) (qr Real.sqrt [[1, 0], [0, 1]]) ∧
    (qr Real.sqrt [[1, 0], [0, 1]]).headD [] =
      divV [1, 0] (normV Real.sqrt [1, 0]) :=
  c4_theorem 2 [1, 0] [[0, 1]] rfl (by simp) (by simp [dotL])

/-- **C6**: the in-core versus disk-backed storage decision (the
`max_memory` budget test of lines 93/290) and the `lessio` recomputation
variant affect only performance, never results: for any operator given by
fixed matrices (`aop = A·x`, or `abop = (A·x, B·x)` with `B` square of
the same dimension), any length-preserving preconditioner and any guess
vectors of the operator's dimension, two runs differing only in
`max_memory` and `lessio` have the same termination kind, return value,
eigenvalues, eigenvectors, per-cycle trace and cycle count.  (Only the
number of operator invocations differs: the `lessio` variant recomputes
`aop(x0)` instead of assembling stored images.) -/
theorem c6_theorem :
    (∀ (F : EigFns) (A : List Vec) (x0 : List Vec) (tol : ℚ) (mc ms : ℕ)
      (l mm1 mm2 : ℚ) (nr : ℕ) (li1 li2 : Bool),
      F.aop = matVecs A →
      (∀ r e x, (F.precond r e x).length = r.length) →
      (∀ v ∈ x0, v.length = A.length) →
      (eigRun F x0 tol mc ms l mm1 nr li1).term =
        (eigRun F x0 tol mc ms l mm2 nr li2).term ∧
      (eigRun F x0 tol mc ms l mm1 nr li1).res =
        (eigRun F x0 tol mc ms l mm2 nr li2).res ∧
      (eigRun F x0 tol mc ms l mm1 nr li1).finalE =
        (eigRun F x0 tol mc ms l mm2 nr li2).finalE ∧
      (eigRun F x0 tol mc ms l mm1 nr li1).finalX =
        (eigRun F x0 tol mc ms l mm2 nr li2).finalX ∧
      (eigRun F x0 tol mc ms l mm1 nr li1).trace =
        (eigRun F x0 tol mc ms l mm2 nr li2).trace ∧
      (eigRun F x0 tol mc ms l mm1 nr li1).started =
        (eigRun F x0 tol mc ms l mm2 nr li2).started) ∧
    (∀ (F : GeFns) (A B : List Vec) (x0 : List Vec) (ty : ℕ) (tol : ℚ)
      (mc ms : ℕ) (l mm1 mm2 : ℚ) (nr : ℕ) (li1 li2 : Bool),
      F.abop = (fun vs => (matVecs A vs, matVecs B vs)) →
      B.length = A.length →
      (∀ r e x, (F.precond r e x).length = r.length) →
      (∀ v ∈ x0, v.length = A.length) →
      (geRun F x0 ty tol mc ms l mm1 nr li1).term =
        (geRun F x0 ty tol mc ms l mm2 nr li2).term ∧
      (geRun F x0 ty tol mc ms l mm1 nr li1).res =
        (geRun F x0 ty tol mc ms l mm2 nr li2).res ∧
      (geRun F x0 ty tol mc ms l mm1 nr li1).finalE =
        (geRun F x0 ty tol mc ms l mm2 nr li2).finalE ∧
      (geRun F x0 ty tol mc ms l mm1 nr li1).finalX =
        (geRun F x0 ty tol mc ms l mm2 nr li2).finalX ∧
      (geRun F x0 ty tol mc ms l mm1 nr li1).trace =
        (geRun F x0 ty tol mc ms l mm2 nr li2).trace ∧
      (geRun F x0 ty tol mc ms l mm1 nr li1).started =
        (geRun F x0 ty tol mc ms l mm2 nr li2).started) :=
  ⟨fun F A x0 tol mc ms l mm1 mm2 nr li1 li2 Hop Hpre hvx =>
    eigRun_c6 F A x0 tol mc ms l mm1 mm2 nr li1 li2 Hop Hpre hvx,
   fun F A B x0 ty tol mc ms l mm1 mm2 nr li1 li2 Hab HB Hpre hvx =>
    geRun_c6 F A B x0 ty tol mc ms l mm1 mm2 nr li1 li2 Hab HB Hpre hvx⟩

/-- Witness for `c6_theorem`: concrete `eig` and `dgeev` runs on
`matA` (with `B = I`), in-core versus a zero memory budget with `lessio`
set, agree on every component. -/
theorem c6_witness :
    ((eigRun FA [[1, 0]] 0 10 1 0 2000 1 false).term =
       (eigRun FA [[1, 0]] 0 10 1 0 0 1 true).term ∧
     (eigRun FA [[1, 0]] 0 10 1 0 2000 1 false).res =
       (eigRun FA [[1, 0]] 0 10 1 0 0 1 true).res ∧
     (eigRun FA [[1, 0]] 0 10 1 0 2000 1 false).finalE =
       (eigRun FA [[1, 0]] 0 10 1 0 0 1 true).finalE ∧
     (eigRun FA [[1, 0]] 0 10 1 0 2000 1 false).finalX =
       (eigRun FA [[1, 0]] 0 10 1 0 0 1 true).finalX ∧
     (eigRun FA [[1, 0]] 0 10 1 0 2000 1 false).trace =
       (eigRun FA [[1, 0]] 0 10 1 0 0 1 true).trace ∧
     (eigRun FA [[1, 0]] 0 10 1 0 2000 1 false).started =
       (eigRun FA [[1, 0]] 0 10 1 0 0 1 true).started) ∧
    ((geRun GB [[1, 0]] 1 0 10 1 0 2000 1 false).term =
       (geRun GB [[1, 0]] 1 0 10 1 0 0 1 true).term ∧
     (geRun GB [[1, 0]] 1 0 10 1 0 2000 1 false).res =
       (geRun GB [[1, 0]] 1 0 10 1 0 0 1 true).res ∧
     (geRun GB [[1, 0]] 1 0 10 1 0 2000 1 false).finalE =
       (geRun GB [[1, 0]] 1 0 10 1 0 0 1 true).finalE ∧
     (geRun GB [[1, 0]] 1 0 10 1 0 2000 1 false).finalX =
       (geRun GB [[1, 0]] 1 0 10 1 0 0 1 true).finalX ∧
     (geRun GB [[1, 0]] 1 0 10 1 0 2000 1 false).trace =
       (geRun GB [[1, 0]] 1 0 10 1 0 0 1 true).trace ∧
     (geRun GB [[1, 0]] 1 0 10 1 0 2000 1 false).started =
       (geRun GB [[1, 0]] 1 0 10 1 0 0 1 true).started) :=
  ⟨c6_theorem.1 FA matA [[1, 0]] 0 10 1 0 2000 0 1 false true rfl
     (fun r e x => rfl) (by decide),
   c6_theorem.2 GB matA matI2 [[1, 0]] 1 0 10 1 0 2000 0 1 false true rfl rfl
     (fun r e x => rfl) (by decide)⟩

end Davidson
